import Mathlib

/-!
sqlizer, package `drivers`: rendering a SELECT query to SQL text and bound values.

Shallow embedding of `drivers/driver.go` (the generic `CommonDriver`) and of
`drivers/postgres.go` (the `Postgres` renderer).

Conventions of the embedding

* A Go `string` is a Lean `String`; `fmt.Sprintf` with `%s`/`%d` verbs is string
  concatenation, `%d` printing the decimal numeral (`toString`).
* The closure returned by `valueSequence()` captures one counter `num`; it is
  embedded as the record `ValueSequencer` holding that counter, and every
  renderer that receives the closure takes the record and returns the updated
  one.  The counter is a Go `int`; it is a `Nat` here, a wrap-around would need
  `2^63` calls inside one statement.
* A run-time panic (calling a `nil` function obtained from a registry, a failed
  type assertion, a method call on a `nil` interface) is the result `none`.
* The operator registries are Go maps from names to closures.  The only closures
  the package builds are `whereNested(..)`, `whereComparators(..)`,
  `commonJoin(..)`, `commonOrder(..)` and `commonFunction(..)`, so a registry
  entry is the constructor call that built it, and `none` stands for a missing
  key as well as for a `nil` entry (both give a `nil` function in Go).
* `for _, x := range xs { out = append(out, ..) }` is recursion over `xs`,
  the head's contribution in front of the contribution of the tail.
-/

namespace Sqlizer

/-! ## Types of package `queries` used by the drivers -/

/-- The `queries.ColumnKey` struct: table alias and field name. -/
structure ColumnKey where
  Alias : String
  Field : String
deriving DecidableEq, Repr

/-- The `queries.TableSource` struct. -/
structure TableSource where
  Schema : String
  Table : String
  Alias : String
deriving DecidableEq, Repr

/-- The `queries.JoinType` values: the three named constants, and every other value
of the underlying type. -/
inductive JoinType where
  | InnerJoin
  | LeftJoin
  | RightJoin
  | other (name : String)
deriving DecidableEq, Repr

/-- The `queries.OrderType` values: the two named constants, and every other value
of the underlying type. -/
inductive OrderType where
  | DescOrder
  | AscOrder
  | other (name : String)
deriving DecidableEq, Repr

/-- A dynamic value that is neither `nil`, a `ColumnKey` nor a slice. -/
inductive Literal where
  | int (i : Int)
  | str (s : String)
  | bool (b : Bool)
deriving DecidableEq, Repr

mutual
/-- A Go `interface{}` value as the renderers inspect it: the `nil` interface, a
`queries.ColumnKey`, a `[]interface{}`, a `[]queries.Where`, or any other value. -/
inductive Value where
  | nil
  | columnKey (key : ColumnKey)
  | lit (l : Literal)
  | list (elems : List Value)
  | wheres (ws : List Where)
/-- The `queries.Where` struct.  `driver.go` reads `Key`, `Operator`, `Value`;
`postgres.go` reads `Key`, `Operator`, `Value`, `Nested`. -/
inductive Where where
  | mk (Key : ColumnKey) (Operator : String) (Value : Value) (Nested : List Where)
end

/-- Field `Key` of a `Where`. -/
def Where.Key : Where → ColumnKey
  | .mk k _ _ _ => k

/-- Field `Operator` of a `Where`. -/
def Where.Operator : Where → String
  | .mk _ o _ _ => o

/-- Field `Value` of a `Where`. -/
def Where.Value : Where → Value
  | .mk _ _ v _ => v

/-- Field `Nested` of a `Where`. -/
def Where.Nested : Where → List Where
  | .mk _ _ _ n => n

/-- The `queries.Join` struct (field `Type` is `Typ` here). -/
structure Join where
  Typ : JoinType
  To : TableSource
  Where : List Where

/-- The `queries.Order` struct (field `Type` is `Typ` here). -/
structure Order where
  Key : ColumnKey
  Typ : OrderType
deriving DecidableEq, Repr

/-- The struct behind `column.Function`: operator name and argument values. -/
structure FunctionCall where
  Operator : String
  Values : List Value

/-- The struct behind `column.Source`: `Alias` and `Field`. -/
structure ColumnSource where
  Alias : String
  Field : String
deriving DecidableEq, Repr

/-- The `queries.Column` struct; `Source`, `Nested` and `Function` are pointers,
`none` is the `nil` pointer. -/
inductive Column where
  | mk (Alias : String) (Source : Option ColumnSource) (Nested : Option (List Column))
      (Function : Option FunctionCall)

/-- Field `Alias` of a `Column`. -/
def Column.Alias : Column → String
  | .mk a _ _ _ => a

/-- Field `Source` of a `Column`. -/
def Column.Source : Column → Option ColumnSource
  | .mk _ s _ _ => s

/-- Field `Nested` of a `Column`. -/
def Column.Nested : Column → Option (List Column)
  | .mk _ _ n _ => n

/-- Field `Function` of a `Column`. -/
def Column.Function : Column → Option FunctionCall
  | .mk _ _ _ f => f

/-- The `queries.SelectQuery` struct (`Logging` only triggers a print). -/
structure SelectQuery where
  Columns : List Column
  From : TableSource
  Joins : List Join
  Where : List Where
  Group : List ColumnKey
  Order : List Order
  Limit : Option Int
  Offset : Option Int
  Logging : Option Bool

/-- The `queries.SQLSerializer` interface: the four methods the driver calls, and
`ToSQL`, the result of `key.ToSQL(serializer)` for a key (the method is declared in
package `queries`, so its result is carried as one more parameter). -/
structure SQLSerializer where
  SerializeTableSource : TableSource → String
  SerializeColumn : Column → String
  SerializeAlias : String → String → String
  SerializeColumnKey : ColumnKey → String
  ToSQL : ColumnKey → String

/-! ## Go library functions -/

/-- Go `strings.Join(elems, sep)`. -/
def stringsJoin : List String → String → String
  | [], _ => ""
  | [a], _ => a
  | a :: b :: rest, sep => a ++ sep ++ stringsJoin (b :: rest) sep

/-! ## driver.go -/

/-- The closure state of `valueSequence()`: the captured counter `num`. -/
structure ValueSequencer where
  num : Nat
deriving DecidableEq, Repr

/-- `valueSequence()`: a sequencer with `num := 0`. -/
def valueSequence : ValueSequencer := ⟨0⟩

/-- One call `seq()`: `num += 1; return fmt.Sprintf("$%d", num)`. -/
def ValueSequencer.call (seq : ValueSequencer) : String × ValueSequencer :=
  ("$" ++ toString (seq.num + 1), ⟨seq.num + 1⟩)

/-- A `WhereOperator` closure, by the call that built it. -/
inductive WhereOperator where
  | whereComparators (operator : String)
  | whereNested (linker : String)
deriving DecidableEq, Repr

/-- A `JoinOperator` closure, by the call that built it. -/
inductive JoinOperator where
  | commonJoin (joinStr : String)
deriving DecidableEq, Repr

/-- An `OrderOperator` closure, by the call that built it. -/
inductive OrderOperator where
  | commonOrder (order : String)
deriving DecidableEq, Repr

/-- A `FunctionOperator` closure, by the call that built it. -/
inductive FunctionOperator where
  | commonFunction (fnName : String) (extra : String)
deriving DecidableEq, Repr

/-- The `CommonDriver` struct without its database handle. -/
structure CommonDriver where
  serializer : SQLSerializer
  whereOperators : String → Option WhereOperator
  joinOperators : JoinType → Option JoinOperator
  orderOperators : OrderType → Option OrderOperator
  functionOperators : String → Option FunctionOperator

/-- The package variable `whereOperators`. -/
def whereOperators : String → Option WhereOperator
  | "and" => some (.whereNested "AND")
  | "or" => some (.whereNested "OR")
  | "not" => some (.whereNested "NOT")
  | "=" => some (.whereComparators "=")
  | "!=" => some (.whereComparators "!=")
  | ">" => some (.whereComparators ">")
  | ">=" => some (.whereComparators ">=")
  | "<" => some (.whereComparators "<")
  | "<=" => some (.whereComparators "<=")
  | "in" => none
  | _ => none

/-- The package variable `joinOperators`. -/
def joinOperators : JoinType → Option JoinOperator
  | .InnerJoin => some (.commonJoin "INNER JOIN")
  | .LeftJoin => some (.commonJoin "LEFT JOIN")
  | .RightJoin => some (.commonJoin "RIGHT JOIN")
  | .other _ => none

/-- The package variable `orderOperators`. -/
def orderOperators : OrderType → Option OrderOperator
  | .DescOrder => some (.commonOrder "DESC")
  | .AscOrder => some (.commonOrder "ASC")
  | .other _ => none

/-- The package variable `functionOperators`. -/
def functionOperators : String → Option FunctionOperator
  | "count" => some (.commonFunction "COUNT" "")
  | "max" => some (.commonFunction "MAX" "")
  | "min" => some (.commonFunction "MIN" "")
  | "avg" => some (.commonFunction "AVG" "")
  | "countDist" => some (.commonFunction "COUNT" "DISTINCT")
  | _ => none

mutual
/-- Calling a `WhereOperator` closure `op(key, value, driver, seq)`.

* `whereComparators(operator)`: a `nil` value gives `key.ToSQL(..)` alone; a
  `ColumnKey` value is serialized; any other value becomes the single bound value
  and takes the next token.  `key.ToSQL` on a `nil` key panics.
* `whereNested(linker)`: `value.([]queries.Where)` panics on every other value;
  the children are rendered by `whereNestedLoop`, joined with `linker` and
  parenthesized. -/
def WhereOperator.call (driver : CommonDriver) :
    WhereOperator → Option ColumnKey → Value → ValueSequencer →
      Option (String × List Value × ValueSequencer)
  | .whereComparators operator, key, value, seq =>
    match key with
    | none => none
    | some k =>
      match value with
      | .nil => some (driver.serializer.ToSQL k, [], seq)
      | .columnKey c =>
        some (driver.serializer.ToSQL k ++ " " ++ operator ++ " " ++
          driver.serializer.SerializeColumnKey c, [], seq)
      | v =>
        some (driver.serializer.ToSQL k ++ " " ++ operator ++ " " ++ seq.call.1,
          [v], seq.call.2)
  | .whereNested linker, _, .wheres ws, seq =>
    match whereNestedLoop driver ws seq with
    | none => none
    | some (filters, values, seq1) =>
      some ("(" ++ stringsJoin filters linker ++ ")", values, seq1)
  | .whereNested _, _, _, _ => none
/-- The loop of `whereNested`: for each child,
`driver.whereOperators[where.Operator](where.Key, where.Value, driver, seq)`. -/
def whereNestedLoop (driver : CommonDriver) :
    List Where → ValueSequencer → Option (List String × List Value × ValueSequencer)
  | [], seq => some ([], [], seq)
  | (.mk key operator value _) :: rest, seq =>
    match driver.whereOperators operator with
    | none => none
    | some op =>
      match WhereOperator.call driver op (some key) value seq with
      | none => none
      | some (f, v, seq1) =>
        match whereNestedLoop driver rest seq1 with
        | none => none
        | some (filters, values, seq2) => some (f :: filters, v ++ values, seq2)
end

/-- The call `driver.whereOperators[name](key, value, driver, seq)`. -/
def CommonDriver.callWhereOperator (driver : CommonDriver) (name : String)
    (key : Option ColumnKey) (value : Value) (seq : ValueSequencer) :
    Option (String × List Value × ValueSequencer) :=
  match driver.whereOperators name with
  | none => none
  | some op => op.call driver key value seq

/-- The loop of `commonFunction`: a `ColumnKey` argument is serialized, any other
argument is appended to the values and takes the next token. -/
def commonFunctionLoop (driver : CommonDriver) :
    List Value → ValueSequencer → List String × List Value × ValueSequencer
  | [], seq => ([], [], seq)
  | .columnKey c :: rest, seq =>
    let (valueStr, values, seq1) := commonFunctionLoop driver rest seq
    (driver.serializer.SerializeColumnKey c :: valueStr, values, seq1)
  | v :: rest, seq =>
    let (valueStr, values, seq2) := commonFunctionLoop driver rest seq.call.2
    (seq.call.1 :: valueStr, v :: values, seq2)

/-- Calling a `FunctionOperator` closure `op(fnValues, driver, seq)`. -/
def FunctionOperator.call (driver : CommonDriver) :
    FunctionOperator → List Value → ValueSequencer → String × List Value × ValueSequencer
  | .commonFunction fnName extra, fnValues, seq =>
    let (valueStr, values, seq1) := commonFunctionLoop driver fnValues seq
    (fnName ++ "(" ++ extra ++ " " ++ stringsJoin valueStr ", " ++ ")", values, seq1)

/-- The alias computed at the top of the loop body of `renderColumns`. -/
def columnAlias (pfx : String) (als : String) : String :=
  if pfx = "" then als else pfx ++ "." ++ als

mutual
/-- The body of the loop of `CommonDriver.renderColumns` for one column: the
column expressions and the values it appends. -/
def CommonDriver.renderColumn (driver : CommonDriver) :
    Column → String → ValueSequencer → Option (List String × List Value × ValueSequencer)
  | .mk als source nested function, pfx, seq =>
    match nested with
    | some children => CommonDriver.renderColumns driver children (columnAlias pfx als) seq
    | none =>
      match source with
      | some _ =>
        some ([driver.serializer.SerializeColumn
          (.mk (columnAlias pfx als) source nested function)], [], seq)
      | none =>
        match function with
        | some fn =>
          match driver.functionOperators fn.Operator with
          | none => none
          | some op =>
            match op.call driver fn.Values seq with
            | (c, v, seq1) =>
              some ([driver.serializer.SerializeAlias c (columnAlias pfx als)], v, seq1)
        | none => some ([], [], seq)
/-- `CommonDriver.renderColumns`. -/
def CommonDriver.renderColumns (driver : CommonDriver) :
    List Column → String → ValueSequencer →
      Option (List String × List Value × ValueSequencer)
  | [], _, seq => some ([], [], seq)
  | column :: rest, pfx, seq =>
    match CommonDriver.renderColumn driver column pfx seq with
    | none => none
    | some (c, v, seq1) =>
      match CommonDriver.renderColumns driver rest pfx seq1 with
      | none => none
      | some (strColumns, values, seq2) => some (c ++ strColumns, v ++ values, seq2)
end

/-- Calling a `JoinOperator` closure `op(join, driver, seq)`: `commonJoin(joinStr)`
renders `join.Where` through `driver.whereOperators["and"]` with a `nil` key. -/
def JoinOperator.call (driver : CommonDriver) :
    JoinOperator → Join → ValueSequencer → Option (String × List Value × ValueSequencer)
  | .commonJoin joinStr, join, seq =>
    match driver.callWhereOperator "and" none (.wheres join.Where) seq with
    | none => none
    | some (whereStr, values, seq1) =>
      some (joinStr ++ " " ++ driver.serializer.SerializeTableSource join.To ++ " ON " ++ whereStr,
        values, seq1)

/-- `CommonDriver.renderJoins`. -/
def CommonDriver.renderJoins (driver : CommonDriver) :
    List Join → ValueSequencer → Option (List String × List Value × ValueSequencer)
  | [], seq => some ([], [], seq)
  | join :: rest, seq =>
    match driver.joinOperators join.Typ with
    | none => none
    | some op =>
      match op.call driver join seq with
      | none => none
      | some (j, v, seq1) =>
        match driver.renderJoins rest seq1 with
        | none => none
        | some (strJoins, values, seq2) => some (j :: strJoins, v ++ values, seq2)

/-- `CommonDriver.renderGroups`. -/
def CommonDriver.renderGroups (driver : CommonDriver) (groups : List ColumnKey) : String :=
  stringsJoin (groups.map driver.serializer.SerializeColumnKey) ", "

/-- Calling an `OrderOperator` closure `op(col, driver)`. -/
def OrderOperator.call (driver : CommonDriver) : OrderOperator → ColumnKey → String
  | .commonOrder order, col => driver.serializer.ToSQL col ++ " " ++ order

/-- The loop of `CommonDriver.renderOrder`. -/
def CommonDriver.renderOrderLoop (driver : CommonDriver) : List Order → Option (List String)
  | [] => some []
  | order :: rest =>
    match driver.orderOperators order.Typ with
    | none => none
    | some op =>
      match driver.renderOrderLoop rest with
      | none => none
      | some orderStr => some (op.call driver order.Key :: orderStr)

/-- `CommonDriver.renderOrder`. -/
def CommonDriver.renderOrder (driver : CommonDriver) (orders : List Order) : Option String :=
  match driver.renderOrderLoop orders with
  | none => none
  | some orderStr => some (stringsJoin orderStr ", ")

/-- The statement and the values that `CommonDriver.Select` hands to
`driver.db.Query(statement, values...)`.  The format strings of the two pagination
clauses are `"LIMIT %driver"` and `"OFFSET %driver"`: the verb `%d` followed by the
text `river`. -/
def CommonDriver.Select (driver : CommonDriver) (query : SelectQuery) :
    Option (String × List Value) :=
  let extra : List String := []
  let seq := valueSequence
  match driver.renderColumns query.Columns "" seq with
  | none => none
  | some (columns, values, seq) =>
    match driver.renderJoins query.Joins seq with
    | none => none
    | some (joins, newValues, seq) =>
      let values := values ++ newValues
      let whereStep : Option (List String × List Value) :=
        if query.Where.length > 0 then
          match driver.callWhereOperator "and" none (.wheres query.Where) seq with
          | none => none
          | some (whereStr, newValues, _) =>
            some (extra ++ ["WHERE " ++ whereStr], values ++ newValues)
        else some (extra, values)
      match whereStep with
      | none => none
      | some (extra, values) =>
        let extra :=
          if query.Group.length > 0 then
            extra ++ ["GROUP BY " ++ driver.renderGroups query.Group]
          else extra
        let orderStep : Option (List String) :=
          if query.Order.length > 0 then
            match driver.renderOrder query.Order with
            | none => none
            | some order => some (extra ++ ["ORDER BY " ++ order])
          else some extra
        match orderStep with
        | none => none
        | some extra =>
          let extra :=
            match query.Limit with
            | some limit => extra ++ ["LIMIT " ++ toString limit ++ "river"]
            | none => extra
          let extra :=
            match query.Offset with
            | some offset => extra ++ ["OFFSET " ++ toString offset ++ "river"]
            | none => extra
          let statement :=
            "SELECT " ++ stringsJoin columns ",\n\t" ++ " \nFROM " ++
              driver.serializer.SerializeTableSource query.From ++ "\n" ++
              stringsJoin joins "\n" ++ "\n" ++ stringsJoin extra "\n"
          some (statement, values)

/-! ## postgres.go -/

/-- `Postgres.renderForm`. -/
def Postgres.renderForm (table : TableSource) : String :=
  let schema := if table.Schema = "" then "public" else table.Schema
  "\"" ++ schema ++ "\".\"" ++ table.Table ++ "\" AS \"" ++ table.Alias ++ "\""

/-- `Postgres.renderColumnKey`. -/
def Postgres.renderColumnKey (key : ColumnKey) : String :=
  "\"" ++ key.Alias ++ "\".\"" ++ key.Field ++ "\""

/-- The type assertion `v.(queries.ColumnKey)`; `none` is the panic of a failed
assertion. -/
def Value.assertColumnKey : Value → Option ColumnKey
  | .columnKey key => some key
  | _ => none

/-- The type assertion `v.([]interface{})`; `none` is the panic of a failed
assertion. -/
def Value.assertList : Value → Option (List Value)
  | .list elems => some elems
  | _ => none

/-- The inner loop of case `"in"` of `Postgres.renderWhere`, over the elements of
`where.Value.([]interface{})`.  For an element that is a `ColumnKey` the code
asserts `where.Value.(queries.ColumnKey)`, on the node's value and not on the
element; `whereValue` is that node's value. -/
def Postgres.renderInLoop (whereValue : Value) :
    List Value → ValueSequencer → Option (List String × List Value × ValueSequencer)
  | [], seq => some ([], [], seq)
  | .columnKey _ :: rest, seq =>
    match whereValue.assertColumnKey with
    | none => none
    | some key =>
      match Postgres.renderInLoop whereValue rest seq with
      | none => none
      | some (inValues, values, seq1) =>
        some (Postgres.renderColumnKey key :: inValues, values, seq1)
  | v :: rest, seq =>
    match Postgres.renderInLoop whereValue rest seq.call.2 with
    | none => none
    | some (inValues, values, seq1) => some (seq.call.1 :: inValues, v :: values, seq1)

/-- The last two statements of `Postgres.renderWhere`: `TRUE` for an empty filter
list, then the join with the linker between blanks. -/
def Postgres.renderWhereFinish (linker : String) (filters : List String) : String :=
  let filters := if filters.length = 0 then filters ++ ["TRUE"] else filters
  stringsJoin filters (" " ++ linker ++ " ")

mutual
/-- The body of the loop of `Postgres.renderWhere` for one node: the filters and the
values it appends.  The recursive calls of cases `"and"` and `"or"` are the loop
over `where.Nested` followed by `renderWhereFinish`.  A node with any other operator
appends nothing. -/
def Postgres.renderWhereNode :
    Where → ValueSequencer → Option (List String × List Value × ValueSequencer)
  | .mk k operator value nested, seq =>
    let key := Postgres.renderColumnKey k
    if operator = "=" ∨ operator = "!=" then
      match value with
      | .columnKey c =>
        some ([key ++ " " ++ operator ++ " " ++ Postgres.renderColumnKey c], [], seq)
      | v => some ([key ++ " " ++ operator ++ " " ++ seq.call.1], [v], seq.call.2)
    else if operator = "in" then
      match value.assertList with
      | none => none
      | some elems =>
        match Postgres.renderInLoop value elems seq with
        | none => none
        | some (inValues, vals, seq1) =>
          some ([key ++ " IN (" ++ stringsJoin inValues ", " ++ ")"], vals, seq1)
    else if operator = "and" then
      match Postgres.renderWhereLoop nested seq with
      | none => none
      | some (newFilters, newValues, seq1) =>
        some (["(" ++ Postgres.renderWhereFinish "AND" newFilters ++ ")"], newValues, seq1)
    else if operator = "or" then
      match Postgres.renderWhereLoop nested seq with
      | none => none
      | some (newFilters, newValues, seq1) =>
        some (["(" ++ Postgres.renderWhereFinish "OR" newFilters ++ ")"], newValues, seq1)
    else some ([], [], seq)
/-- The loop of `Postgres.renderWhere`. -/
def Postgres.renderWhereLoop :
    List Where → ValueSequencer → Option (List String × List Value × ValueSequencer)
  | [], seq => some ([], [], seq)
  | w :: rest, seq =>
    match Postgres.renderWhereNode w seq with
    | none => none
    | some (f, v, seq1) =>
      match Postgres.renderWhereLoop rest seq1 with
      | none => none
      | some (filters, values, seq2) => some (f ++ filters, v ++ values, seq2)
end

/-- `Postgres.renderWhere`. -/
def Postgres.renderWhere (wheres : List Where) (linker : String) (seq : ValueSequencer) :
    Option (String × List Value × ValueSequencer) :=
  match Postgres.renderWhereLoop wheres seq with
  | none => none
  | some (filters, values, seq1) => some (Postgres.renderWhereFinish linker filters, values, seq1)

/-- `Postgres.renderJoin`; the `switch` on the join type has no `default`, so any
other type leaves `joinTypeStr` empty. -/
def Postgres.renderJoin (join : Join) (seq : ValueSequencer) :
    Option (String × List Value × ValueSequencer) :=
  let joinTypeStr :=
    match join.Typ with
    | .InnerJoin => "INNER JOIN"
    | .LeftJoin => "LEFT JOIN"
    | .RightJoin => "RIGHT JOIN"
    | .other _ => ""
  match Postgres.renderWhere join.Where "AND" seq with
  | none => none
  | some (whereStr, values, seq1) =>
    some (joinTypeStr ++ " " ++ Postgres.renderForm join.To ++ " ON " ++ whereStr, values, seq1)

/-- The body of the loop of `Postgres.renderOrder` for one entry; the `switch` on
the direction has no `default`, so any other direction leaves `orderStr` empty. -/
def Postgres.renderOrderEntry (order : Order) : String :=
  let orderStr :=
    match order.Typ with
    | .AscOrder => "ASC"
    | .DescOrder => "DESC"
    | .other _ => ""
  Postgres.renderColumnKey order.Key ++ " " ++ orderStr

/-- `Postgres.renderOrder`. -/
def Postgres.renderOrder (orders : List Order) : String :=
  stringsJoin (orders.map Postgres.renderOrderEntry) ", "

/-- The package-level functions that `Postgres.Select` calls and that are not in
the sources: `ValueSequence()`, `renderColumns(p, columns, "")` and
`renderJoins(p, joins, seq)`.  They are parameters of `Postgres.Select`. -/
structure PostgresHelpers where
  ValueSequence : ValueSequencer
  renderColumns : List Column → String → Option (List String)
  renderJoins : List Join → ValueSequencer → Option (List String × List Value × ValueSequencer)

/-- The statement and the values that `Postgres.Select` hands to
`p.db.Query(statement, values...)`.  The function reads `query.Columns`,
`query.From`, `query.Joins`, `query.Where`, `query.Order`, `query.Limit` and
`query.Offset`. -/
def Postgres.Select (helpers : PostgresHelpers) (query : SelectQuery) :
    Option (String × List Value) :=
  let extra : List String := []
  let valueSequence := helpers.ValueSequence
  match helpers.renderColumns query.Columns "" with
  | none => none
  | some columns =>
    match helpers.renderJoins query.Joins valueSequence with
    | none => none
    | some (joins, values, valueSequence) =>
      let whereStep : Option (List String × List Value) :=
        if query.Where.length > 0 then
          match Postgres.renderWhere query.Where "AND" valueSequence with
          | none => none
          | some (whereStr, newValues, _) =>
            some (extra ++ ["WHERE " ++ whereStr], values ++ newValues)
        else some (extra, values)
      match whereStep with
      | none => none
      | some (extra, values) =>
        let extra :=
          if query.Order.length > 0 then
            extra ++ ["ORDER BY " ++ Postgres.renderOrder query.Order]
          else extra
        let extra :=
          match query.Limit with
          | some limit => extra ++ ["LIMIT " ++ toString limit]
          | none => extra
        let extra :=
          match query.Offset with
          | some offset => extra ++ ["OFFSET " ++ toString offset]
          | none => extra
        let statement :=
          "SELECT " ++ stringsJoin columns ",\n\t" ++ " \nFROM " ++
            Postgres.renderForm query.From ++ "\n" ++
            stringsJoin joins "\n" ++ "\n" ++ stringsJoin extra "\n"
        some (statement, values)

/-! ## Vocabulary of the specification

Definitions that follow the words of the specification; the theorems below compare
them with the renderers above. -/

/-- The operator names of the combinators. -/
def isCombinator (op : String) : Bool :=
  op == "and" || op == "or" || op == "not"

/-- The operator names of the comparisons that `driver.go` registers. -/
def isComparator (op : String) : Bool :=
  op == "=" || op == "!=" || op == ">" || op == ">=" || op == "<" || op == "<="

mutual
/-- The value of a combinator node is a list of well-formed `Where` nodes. -/
def Value.wellFormedChildren : Value → Bool
  | .wheres ws => wellFormedWheres ws
  | _ => false
/-- Every node of the filter trees has an operator among
`and`/`or`/`not`/`=`/`!=`/`>`/`>=`/`<`/`<=`, and the value of every combinator is a
list of such nodes. -/
def wellFormedWheres : List Where → Bool
  | [] => true
  | (.mk _ op value _) :: rest =>
    (if isCombinator op then value.wellFormedChildren else isComparator op) &&
      wellFormedWheres rest
end

/-- A right operand that is bound as a value: neither `nil` nor a `ColumnKey`. -/
def Value.isBound : Value → Bool
  | .nil => false
  | .columnKey _ => false
  | _ => true

mutual
/-- The comparisons with a bound right operand below a combinator value, from
left to right. -/
def Value.boundComparisons : Value → List Where
  | .wheres ws => boundComparisons ws
  | _ => []
/-- The comparisons with a bound right operand in a list of filter trees, from
left to right (depth first). -/
def boundComparisons : List Where → List Where
  | [] => []
  | (.mk key op value nested) :: rest =>
    (if isCombinator op then value.boundComparisons
     else if isComparator op && value.isBound then [.mk key op value nested]
     else []) ++ boundComparisons rest
end

/-- The text a comparison with a bound right operand has when that operand is the
`i`-th placeholder: `<key> <operator> $i`. -/
def comparisonWithPlaceholder (serializer : SQLSerializer) (c : Where) (i : Nat) : String :=
  serializer.ToSQL c.Key ++ " " ++ c.Operator ++ " $" ++ toString i

/-- Scanner for placeholder tokens: a `$` followed by a non-empty maximal run of
decimal digits.  The first argument is `some ds` while the scanner is inside a
token, `ds` being the digits read so far. -/
def scanPlaceholders : Option (List Char) → List Char → List String
  | none, [] => []
  | some ds, [] => if ds = [] then [] else [String.mk ('$' :: ds)]
  | none, c :: cs =>
    if c = '$' then scanPlaceholders (some []) cs else scanPlaceholders none cs
  | some ds, c :: cs =>
    if c.isDigit then scanPlaceholders (some (ds ++ [c])) cs
    else
      (if ds = [] then [] else [String.mk ('$' :: ds)]) ++
        (if c = '$' then scanPlaceholders (some []) cs else scanPlaceholders none cs)

/-- The placeholder tokens that appear in a text, from left to right. -/
def placeholders (text : String) : List String :=
  scanPlaceholders none text.data

/-- The tokens `$(n+1)`, ..., `$(n+m)`. -/
def placeholderRange (n m : Nat) : List String :=
  (List.range m).map (fun i => "$" ++ toString (n + i + 1))

/-- The number written by a list of decimal digits. -/
def digitsValue (ds : List Char) : Nat :=
  ds.foldl (fun acc c => 10 * acc + (c.toNat - 48)) 0

/-- The numeric suffix of a placeholder token: `some i` for the token `$i`. -/
def placeholderIndex (token : String) : Option Nat :=
  match token.data with
  | '$' :: ds => if ds ≠ [] ∧ ds.all Char.isDigit then some (digitsValue ds) else none
  | _ => none

/-- The sequencer after `n` calls. -/
def ValueSequencer.afterCalls (seq : ValueSequencer) : Nat → ValueSequencer
  | 0 => seq
  | n + 1 => (seq.afterCalls n).call.2

/-- The token returned by the `k`-th call (`k ≥ 1`) to a sequencer. -/
def ValueSequencer.nthCall (seq : ValueSequencer) (k : Nat) : String :=
  (seq.afterCalls (k - 1)).call.1

/-- The characters do not start with a decimal digit. -/
def NoLeadingDigit (cs : List Char) : Prop :=
  ∀ c, cs.head? = some c → c.isDigit = false

/-- The text `text` contains the fragment `frag`, and what follows the fragment
does not start with a digit (a token that ends the fragment ends there in the text
too). -/
def Contains (text frag : String) : Prop :=
  ∃ pre post : String, text = pre ++ frag ++ post ∧ NoLeadingDigit post.data

/-- The text holds no `$`. -/
def Clean (s : String) : Prop :=
  '$' ∉ s.data

instance instDecidableClean (s : String) : Decidable (Clean s) :=
  inferInstanceAs (Decidable ('$' ∉ s.data))

/-- A value that is written as a key holds no `$`: the serialized `ColumnKey` when
the value is one; any other value is not written as a key. -/
def Value.keyClean (serializer : SQLSerializer) : Value → Bool
  | .columnKey c => decide (Clean (serializer.SerializeColumnKey c))
  | _ => true

/-- The keys that one comparison writes hold no `$`: its left key, and its right
operand when that is a `ColumnKey`. -/
def comparisonKeysClean (serializer : SQLSerializer) (key : ColumnKey) (value : Value) : Bool :=
  decide (Clean (serializer.ToSQL key)) && value.keyClean serializer

mutual
/-- The keys written below a combinator value hold no `$`. -/
def Value.keysClean (serializer : SQLSerializer) : Value → Bool
  | .wheres ws => whereKeysClean serializer ws
  | _ => true
/-- The keys that the comparisons of these filter trees write hold no `$`. -/
def whereKeysClean (serializer : SQLSerializer) : List Where → Bool
  | [] => true
  | (.mk key op value _) :: rest =>
    (if isCombinator op then value.keysClean serializer
     else comparisonKeysClean serializer key value) && whereKeysClean serializer rest
end

/-- A linker that separates tokens: not empty, without `$`, not starting with a
digit. -/
def GoodLinker (linker : String) : Prop :=
  Clean linker ∧ linker.data ≠ [] ∧ NoLeadingDigit linker.data

/-- The placeholder tokens of `text` are `toks`, whatever follows the text, as long
as that does not start with a digit. -/
def Emits (text : String) (toks : List String) : Prop :=
  ∀ rest, NoLeadingDigit rest →
    scanPlaceholders none (text.data ++ rest) = toks ++ scanPlaceholders none rest

/-- What one rendered filter says about the comparisons `cs` with a bound operand
that it holds, `n` tokens having been issued before: the `j`-th of them is in the
text with the token `$(n+j+1)`, and, when the keys it writes hold no `$` (`clean`),
these are the placeholders of the text. -/
def NodeInv (serializer : SQLSerializer) (f : String) (n : Nat) (cs : List Where)
    (clean : Bool) : Prop :=
  (∀ j c, cs[j]? = some c → Contains f (comparisonWithPlaceholder serializer c (n + j + 1))) ∧
  (clean = true → Emits f (placeholderRange n cs.length))

/-- The same for the filters of a loop, joined by any linker. -/
def LoopInv (serializer : SQLSerializer) (fs : List String) (n : Nat) (cs : List Where)
    (clean : Bool) : Prop :=
  (∀ j c, cs[j]? = some c →
    ∃ f ∈ fs, Contains f (comparisonWithPlaceholder serializer c (n + j + 1))) ∧
  (clean = true → ∀ linker, GoodLinker linker →
    Emits (stringsJoin fs linker) (placeholderRange n cs.length))

/-- The value is a `queries.ColumnKey`. -/
def Value.isColumnKey : Value → Bool
  | .columnKey _ => true
  | _ => false

/-- The arguments of a function call that are bound as values: all but the
`ColumnKey` arguments, in argument order. -/
def functionValues (args : List Value) : List Value :=
  args.filter (fun v => !v.isColumnKey)

/-- The function names that `driver.go` registers. -/
def isFunctionName (name : String) : Bool :=
  name == "count" || name == "max" || name == "min" || name == "avg" || name == "countDist"

mutual
/-- The function of the column, or of every column nested below it, has a
registered name. -/
def Column.wellFormed : Column → Bool
  | .mk _ source nested function =>
    match nested with
    | some children => wellFormedColumns children
    | none =>
      match source with
      | some _ => true
      | none =>
        match function with
        | some fn => isFunctionName fn.Operator
        | none => true
/-- Every function in the column trees has a registered name. -/
def wellFormedColumns : List Column → Bool
  | [] => true
  | column :: rest => column.wellFormed && wellFormedColumns rest
end

mutual
/-- The bound arguments of the function of the column, or of the functions of the
columns nested below it. -/
def Column.boundValues : Column → List Value
  | .mk _ source nested function =>
    match nested with
    | some children => columnValues children
    | none =>
      match source with
      | some _ => []
      | none =>
        match function with
        | some fn => functionValues fn.Values
        | none => []
/-- The values of the projected columns' functions: the bound arguments of the
functions in the column trees, from left to right (depth first). -/
def columnValues : List Column → List Value
  | [] => []
  | column :: rest => column.boundValues ++ columnValues rest
end

/-- The join type is one of the three named constants. -/
def JoinType.isKnown : JoinType → Bool
  | .other _ => false
  | _ => true

/-- The order direction is one of the two named constants. -/
def OrderType.isKnown : OrderType → Bool
  | .other _ => false
  | _ => true

/-- Every join has a known type and a well-formed filter. -/
def wellFormedJoins : List Join → Bool
  | [] => true
  | join :: rest => join.Typ.isKnown && wellFormedWheres join.Where && wellFormedJoins rest

/-- The values of each join's filter, in join-declaration order. -/
def joinValues : List Join → List Value
  | [] => []
  | join :: rest => (boundComparisons join.Where).map Where.Value ++ joinValues rest

/-- Every order entry has a known direction. -/
def wellFormedOrders : List Order → Bool
  | [] => true
  | order :: rest => order.Typ.isKnown && wellFormedOrders rest

/-- Every name in the query is one that the package registries resolve, and every
combinator holds a list of nodes. -/
def wellFormedQuery (query : SelectQuery) : Bool :=
  wellFormedColumns query.Columns && wellFormedJoins query.Joins &&
    wellFormedWheres query.Where && wellFormedOrders query.Order

/-- The driver holds the four registries of the package. -/
def CommonDriver.HasPackageRegistries (driver : CommonDriver) : Prop :=
  driver.whereOperators = Sqlizer.whereOperators ∧
    driver.joinOperators = Sqlizer.joinOperators ∧
    driver.orderOperators = Sqlizer.orderOperators ∧
    driver.functionOperators = Sqlizer.functionOperators

/-- The clauses that are present: the texts whose flag is set, in the order given. -/
def presentClauses (clauses : List (Bool × String)) : List String :=
  clauses.filterMap (fun p => if p.1 then some p.2 else none)

/-- `Postgres.renderSelectColumn`; reading `column.Source` through a `nil` pointer
panics. -/
def Postgres.renderSelectColumn (column : Column) : Option String :=
  match column.Source with
  | none => none
  | some source =>
    if source.Alias = "" then
      some ("\"" ++ source.Field ++ "\" AS \"" ++ column.Alias ++ "\"")
    else
      some ("\"" ++ source.Alias ++ "\".\"" ++ source.Field ++ "\" AS \"" ++
        column.Alias ++ "\"")

/-! ## Sample inputs for the examples -/

/-- A serializer with the quoting of `postgres.go`. -/
def exampleSerializer : SQLSerializer where
  SerializeTableSource := Postgres.renderForm
  SerializeColumn := fun column => (Postgres.renderSelectColumn column).getD ""
  SerializeAlias := fun expr als => expr ++ " AS \"" ++ als ++ "\""
  SerializeColumnKey := Postgres.renderColumnKey
  ToSQL := Postgres.renderColumnKey

/-- A driver with that serializer and the registries of the package. -/
def exampleDriver : CommonDriver where
  serializer := exampleSerializer
  whereOperators := whereOperators
  joinOperators := joinOperators
  orderOperators := orderOperators
  functionOperators := functionOperators

/-- The comparison `"t"."a" = 1`. -/
def exampleCmp1 : Where := .mk ⟨"t", "a"⟩ "=" (.lit (.int 1)) []

/-- The comparison `"t"."b" > 2`. -/
def exampleCmp2 : Where := .mk ⟨"t", "b"⟩ ">" (.lit (.int 2)) []

/-- The comparison `"t"."c" != 'x'`. -/
def exampleCmp3 : Where := .mk ⟨"t", "c"⟩ "!=" (.lit (.str "x")) []

/-- The filter `AND(cmp1, OR(cmp2, cmp3))` as the list handed to the `and`
operator. -/
def exampleFilter : List Where :=
  [exampleCmp1, .mk ⟨"", ""⟩ "or" (.wheres [exampleCmp2, exampleCmp3]) []]

/-- A query with a function column holding a bound argument, one inner join with
its own filter, a top-level filter of two comparisons, a grouping key, an order
entry, a limit and an offset. -/
def exampleQuery : SelectQuery where
  Columns :=
    [.mk "a" (some ⟨"t", "a"⟩) none none,
     .mk "stats" none
       (some [.mk "n" none none (some ⟨"countDist", [.columnKey ⟨"t", "b"⟩, .lit (.int 7)]⟩)])
       none]
  From := ⟨"s", "t", "t"⟩
  Joins := [⟨.InnerJoin, ⟨"", "u", "u"⟩, [.mk ⟨"u", "id"⟩ "=" (.lit (.int 9)) []]⟩]
  Where := [exampleCmp1, exampleCmp2]
  Group := [⟨"t", "a"⟩]
  Order := [⟨⟨"t", "a"⟩, .AscOrder⟩]
  Limit := some 5
  Offset := some 10
  Logging := none

/-- A query with nothing but a source table and a limit. -/
def exampleLimitQuery : SelectQuery where
  Columns := []
  From := ⟨"s", "t", "t"⟩
  Joins := []
  Where := []
  Group := []
  Order := []
  Limit := some 5
  Offset := none
  Logging := none

/-! ## Names that a registry does not hold -/

mutual
/-- Below a combinator value, some node that the filter renderer visits has an
operator that the registry does not hold. -/
def Value.missesWhereOperator (reg : String → Option WhereOperator) : Value → Bool
  | .wheres ws => missesWhereOperator reg ws
  | _ => false
/-- Some node that the filter renderer visits has an operator that the
registry does not hold.  The renderer visits the nodes of the list and, below a node
whose operator is a combinator of the registry, the nodes of its value. -/
def missesWhereOperator (reg : String → Option WhereOperator) : List Where → Bool
  | [] => false
  | (.mk _ op value _) :: rest =>
    (match reg op with
      | none => true
      | some (.whereNested _) => value.missesWhereOperator reg
      | some (.whereComparators _) => false) || missesWhereOperator reg rest
end

mutual
/-- The function of the column, or of a column nested below it, has a name that the
registry does not hold. -/
def Column.missesFunction (reg : String → Option FunctionOperator) : Column → Bool
  | .mk _ source nested function =>
    match nested with
    | some children => missesFunction reg children
    | none =>
      match source with
      | some _ => false
      | none =>
        match function with
        | some fn => (reg fn.Operator).isNone
        | none => false
/-- Some function that the column renderer reaches has a name that the registry
does not hold. -/
def missesFunction (reg : String → Option FunctionOperator) : List Column → Bool
  | [] => false
  | column :: rest => column.missesFunction reg || missesFunction reg rest
end

/-- Some join has a type that the join registry does not hold, or a filter with an
operator that the filter registry does not hold. -/
def missesJoin (reg : JoinType → Option JoinOperator) (whereReg : String → Option WhereOperator) :
    List Join → Bool
  | [] => false
  | join :: rest =>
    (reg join.Typ).isNone || missesWhereOperator whereReg join.Where ||
      missesJoin reg whereReg rest

/-- Some order entry has a direction that the registry does not hold. -/
def missesOrder (reg : OrderType → Option OrderOperator) : List Order → Bool
  | [] => false
  | order :: rest => (reg order.Typ).isNone || missesOrder reg rest

/-- The query references a name that the corresponding registry of the driver does
not hold. -/
def CommonDriver.missesName (driver : CommonDriver) (query : SelectQuery) : Bool :=
  missesFunction driver.functionOperators query.Columns ||
    missesJoin driver.joinOperators driver.whereOperators query.Joins ||
    missesWhereOperator driver.whereOperators query.Where ||
    missesOrder driver.orderOperators query.Order

/-- A query whose only filter is `"t"."a" like 'x'`, an operator no registry
holds. -/
def exampleUnknownOperatorQuery : SelectQuery where
  Columns := [.mk "a" (some ⟨"t", "a"⟩) none none]
  From := ⟨"s", "t", "t"⟩
  Joins := []
  Where := [.mk ⟨"t", "a"⟩ "like" (.lit (.str "x")) []]
  Group := []
  Order := []
  Limit := none
  Offset := none
  Logging := none

/-- Sample `renderJoins` helper for `Postgres.Select`: `Postgres.renderJoin` for each
join, in order. -/
def exampleRenderJoins :
    List Join → ValueSequencer → Option (List String × List Value × ValueSequencer)
  | [], seq => some ([], [], seq)
  | join :: rest, seq =>
    match Postgres.renderJoin join seq with
    | none => none
    | some (j, v, seq1) =>
      match exampleRenderJoins rest seq1 with
      | none => none
      | some (strJoins, values, seq2) => some (j :: strJoins, v ++ values, seq2)

/-- Sample helpers for `Postgres.Select`: a fresh sequencer,
`Postgres.renderSelectColumn` for each column, `Postgres.renderJoin` for each
join. -/
def exampleHelpers : PostgresHelpers where
  ValueSequence := valueSequence
  renderColumns := fun columns _ => columns.mapM Postgres.renderSelectColumn
  renderJoins := exampleRenderJoins

/-- A query with one column, one filter, one grouping key and one order entry. -/
def exampleGroupQuery : SelectQuery where
  Columns := [.mk "a" (some ⟨"t", "a"⟩) none none]
  From := ⟨"s", "t", "t"⟩
  Joins := []
  Where := [exampleCmp1]
  Group := [⟨"t", "a"⟩]
  Order := [⟨⟨"t", "a"⟩, .AscOrder⟩]
  Limit := none
  Offset := none
  Logging := none

/-! ## The leaves of a column tree -/

mutual
/-- The leaves below a column, depth first and in declaration order, each with the
aliases met on the way down to it (`path` holds the aliases above the column).  A
column with nested columns contributes the leaves of its children; any other column
is a leaf. -/
def Column.leaves (path : List String) : Column → List (List String × Column)
  | .mk als source nested function =>
    match nested with
    | some children => columnLeaves (path ++ [als]) children
    | none => [(path ++ [als], .mk als source nested function)]
/-- The leaves of a list of column trees, depth first and in declaration order. -/
def columnLeaves (path : List String) : List Column → List (List String × Column)
  | [] => []
  | column :: rest => column.leaves path ++ columnLeaves path rest
end

/-- What one leaf contributes when its output alias is `outputAlias`: a leaf with a
source field gives one serialized column with that alias, a leaf with a function
gives the rendered call aliased with it (and the values of the call), a leaf with
neither gives nothing. -/
def CommonDriver.renderLeaf (driver : CommonDriver) (outputAlias : String) (leaf : Column)
    (seq : ValueSequencer) : Option (List String × List Value × ValueSequencer) :=
  match leaf.Source with
  | some _ =>
    some ([driver.serializer.SerializeColumn
      (.mk outputAlias leaf.Source leaf.Nested leaf.Function)], [], seq)
  | none =>
    match leaf.Function with
    | some fn =>
      match driver.functionOperators fn.Operator with
      | none => none
      | some op =>
        some ([driver.serializer.SerializeAlias (op.call driver fn.Values seq).1 outputAlias],
          (op.call driver fn.Values seq).2.1, (op.call driver fn.Values seq).2.2)
    | none => some ([], [], seq)

/-- The contributions of a list of leaves, in order, the output alias of a leaf
being `aliasOf` of its path. -/
def CommonDriver.renderLeaves (driver : CommonDriver) (aliasOf : List String → String) :
    List (List String × Column) → ValueSequencer →
      Option (List String × List Value × ValueSequencer)
  | [], seq => some ([], [], seq)
  | (path, leaf) :: rest, seq =>
    match driver.renderLeaf (aliasOf path) leaf seq with
    | none => none
    | some (c, v, seq1) =>
      match driver.renderLeaves aliasOf rest seq1 with
      | none => none
      | some (strColumns, values, seq2) => some (c ++ strColumns, v ++ values, seq2)

/-- The output alias `a1.a2. ... .an` of a leaf reached through the aliases
`a1, ..., an`, with `pfx.` in front when the prefix is not empty. -/
def dottedAlias (pfx : String) (path : List String) : String :=
  (if pfx = "" then "" else pfx ++ ".") ++ stringsJoin path "."

/-- The output alias that the recursion of `renderColumns` builds: starting from the
prefix, each alias on the way is attached by `columnAlias`. -/
def foldedAlias (pfx : String) (path : List String) : String :=
  path.foldl columnAlias pfx

/-- A column tree whose top-level column has an empty alias and holds the source
column `x`. -/
def exampleEmptyAliasColumns : List Column :=
  [.mk "" none (some [.mk "x" (some ⟨"t", "x"⟩) none none]) none]

/-- A column tree with a source leaf, a nested function leaf and a void column. -/
def exampleColumns : List Column :=
  [.mk "a" (some ⟨"t", "a"⟩) none none,
   .mk "stats" none
     (some [.mk "n" none none (some ⟨"countDist", [.columnKey ⟨"t", "b"⟩, .lit (.int 7)]⟩),
            .mk "void" none none none])
     none]

/-- The text of the `i`-th argument (from 0) of a function call rendered after `n`
tokens: the quoted identifier of a `ColumnKey` argument, and for any other argument
the token whose index counts the tokens before the call and the arguments before
this one that are not `ColumnKey`s. -/
def argumentText (serializer : SQLSerializer) (n : Nat) (args : List Value) (i : Nat) :
    Option String :=
  match args[i]? with
  | none => none
  | some (.columnKey c) => some (serializer.SerializeColumnKey c)
  | some _ => some ("$" ++ toString (n + (functionValues (args.take i)).length + 1))

/-! ## Parentheses of a text and combinators of a filter tree -/

/-- State of the parenthesis scanner: the current nesting depth, the maximum depth
met, and the number of `(` met. -/
structure ParenState where
  depth : Nat
  maxDepth : Nat
  opened : Nat
deriving DecidableEq, Repr

/-- The parenthesis scanner; `none` when a `)` closes nothing. -/
def scanParens : List Char → ParenState → Option ParenState
  | [], st => some st
  | c :: cs, st =>
    if c = '(' then
      scanParens cs ⟨st.depth + 1, max st.maxDepth (st.depth + 1), st.opened + 1⟩
    else if c = ')' then
      (if st.depth = 0 then none else scanParens cs ⟨st.depth - 1, st.maxDepth, st.opened⟩)
    else scanParens cs st

/-- The parentheses of a text: `some (d, c)` when they are balanced (every `)`
closes an open `(` and none stays open), `d` being the maximum nesting depth and `c`
the number of `(`...`)` pairs; `none` when they are not balanced. -/
def parenProfile (text : String) : Option (Nat × Nat) :=
  match scanParens text.data ⟨0, 0, 0⟩ with
  | some st => if st.depth = 0 then some (st.maxDepth, st.opened) else none
  | none => none

/-- The text holds no parenthesis. -/
def ParenFree (s : String) : Prop :=
  '(' ∉ s.data ∧ ')' ∉ s.data

instance instDecidableParenFree (s : String) : Decidable (ParenFree s) :=
  inferInstanceAs (Decidable ('(' ∉ s.data ∧ ')' ∉ s.data))

/-- A value that is written as a key holds no parenthesis: the serialized
`ColumnKey` when the value is one; any other value is not written as a key. -/
def Value.keyParenFree (serializer : SQLSerializer) : Value → Bool
  | .columnKey c => decide (ParenFree (serializer.SerializeColumnKey c))
  | _ => true

/-- The serialized keys of one comparison hold no parenthesis: its left key, and
its right operand when that is a `ColumnKey`. -/
def comparisonKeysParenFree (serializer : SQLSerializer) (key : ColumnKey) (value : Value) :
    Bool :=
  decide (ParenFree (serializer.ToSQL key)) && value.keyParenFree serializer

mutual
/-- The serialized keys below a combinator value hold no parenthesis. -/
def Value.keysParenFree (serializer : SQLSerializer) : Value → Bool
  | .wheres ws => whereKeysParenFree serializer ws
  | _ => true
/-- The serialized keys of the comparisons of these filter trees hold no
parenthesis. -/
def whereKeysParenFree (serializer : SQLSerializer) : List Where → Bool
  | [] => true
  | (.mk key op value _) :: rest =>
    (if isCombinator op then value.keysParenFree serializer
     else comparisonKeysParenFree serializer key value) && whereKeysParenFree serializer rest
end

/-- Wherever the text stands, the scanner leaves it at the depth it entered with,
having met `c` pairs and `d` levels of nesting inside it. -/
def Parens (text : String) (d c : Nat) : Prop :=
  ∀ (st : ParenState) (rest : List Char), st.depth ≤ st.maxDepth →
    scanParens (text.data ++ rest) st =
      scanParens rest ⟨st.depth, max st.maxDepth (st.depth + d), st.opened + c⟩

mutual
/-- The number of combinator nodes below a combinator value. -/
def Value.combinatorCount : Value → Nat
  | .wheres ws => combinatorCount ws
  | _ => 0
/-- The number of combinator nodes in a list of filter trees. -/
def combinatorCount : List Where → Nat
  | [] => 0
  | (.mk _ op value _) :: rest =>
    (if isCombinator op then 1 + value.combinatorCount else 0) + combinatorCount rest
end

mutual
/-- The combinator depth below a combinator value. -/
def Value.combinatorDepth : Value → Nat
  | .wheres ws => combinatorDepth ws
  | _ => 0
/-- The combinator depth of a list of filter trees: the largest number of
combinator nodes on a path from one of the trees down to a comparison. -/
def combinatorDepth : List Where → Nat
  | [] => 0
  | (.mk _ op value _) :: rest =>
    max (if isCombinator op then 1 + value.combinatorDepth else 0) (combinatorDepth rest)
end

/-! ## Values and fragments of a filter list of `postgres.go` -/

/-- The elements of the list of an `in` node. -/
def Value.inElements : Value → List Value
  | .list elems => elems
  | _ => []

mutual
/-- The values that a node binds, from left to right: the right operand of `=` or
`!=` unless it is a `ColumnKey` (a `nil` operand is bound too), the elements of the
list of `in`, the values bound below `and` or `or`; any other node binds nothing. -/
def Where.pgValues : Where → List Value
  | .mk _ op value nested =>
    if op = "=" ∨ op = "!=" then (if value.isColumnKey then [] else [value])
    else if op = "in" then value.inElements
    else if op = "and" ∨ op = "or" then pgValues nested
    else []
/-- The values that a list of nodes binds, from left to right. -/
def pgValues : List Where → List Value
  | [] => []
  | w :: rest => w.pgValues ++ pgValues rest
end

mutual
/-- The fragments of the nodes that bind values, `n` tokens having been issued
before the node: `<key> <op> $(n+1)` for `=` or `!=` with a bound operand,
`<key> IN ($(n+1), ..., $(n+k))` for `in` over `k` elements, and below `and` or `or`
the fragments of the nested nodes. -/
def Where.pgFragments (n : Nat) : Where → List String
  | .mk k op value nested =>
    if op = "=" ∨ op = "!=" then
      (if value.isColumnKey then []
       else [Postgres.renderColumnKey k ++ " " ++ op ++ " $" ++ toString (n + 1)])
    else if op = "in" then
      [Postgres.renderColumnKey k ++ " IN (" ++
        stringsJoin (placeholderRange n value.inElements.length) ", " ++ ")"]
    else if op = "and" ∨ op = "or" then pgFragments n nested
    else []
/-- The fragments of a list of nodes: each node counts the tokens issued before the
list and the values bound by the nodes to its left. -/
def pgFragments (n : Nat) : List Where → List String
  | [] => []
  | w :: rest => w.pgFragments n ++ pgFragments (n + w.pgValues.length) rest
end

mutual
/-- The keys that the node renders hold no `$`. -/
def Where.pgKeysClean : Where → Bool
  | .mk k op value nested =>
    if op = "=" ∨ op = "!=" then
      decide (Clean (Postgres.renderColumnKey k)) &&
        (match value with
          | .columnKey c => decide (Clean (Postgres.renderColumnKey c))
          | _ => true)
    else if op = "in" then decide (Clean (Postgres.renderColumnKey k))
    else if op = "and" ∨ op = "or" then pgKeysClean nested
    else true
/-- The keys that the nodes render hold no `$`. -/
def pgKeysClean : List Where → Bool
  | [] => true
  | w :: rest => w.pgKeysClean && pgKeysClean rest
end

/-- What the filters `fs` rendered for some nodes say, `n` tokens having been issued
before: every fragment `frags` of a value-binding node is in one of the filters, and
when the keys hold no `$` the placeholders of the joined filters are the `m` tokens
after `$n`. -/
def PgInv (fs : List String) (n m : Nat) (frags : List String) (clean : Bool) : Prop :=
  (∀ frag ∈ frags, ∃ f ∈ fs, Contains f frag) ∧
  (clean = true → ∀ linker, GoodLinker linker →
    Emits (stringsJoin fs linker) (placeholderRange n m))

/-- What the filters `fs` that one node appends say: the node appends nothing and
binds nothing, or it appends one filter that holds its fragments and whose
placeholders are its tokens. -/
def PgNodeInv (fs : List String) (n : Nat) (w : Where) : Prop :=
  (fs = [] ∧ w.pgValues = [] ∧ w.pgFragments n = []) ∨
  (∃ x, fs = [x] ∧ (∀ frag ∈ w.pgFragments n, Contains x frag) ∧
    (w.pgKeysClean = true → Emits x (placeholderRange n w.pgValues.length)))

/-- A filter list of `postgres.go`: `t.a = 1 AND (t.b != nil OR t.c IN (2, 3))`. -/
def examplePgFilter : List Where :=
  [.mk ⟨"t", "a"⟩ "=" (.lit (.int 1)) [],
   .mk ⟨"", ""⟩ "or" .nil
     [.mk ⟨"t", "b"⟩ "!=" .nil [],
      .mk ⟨"t", "c"⟩ "in" (.list [.lit (.int 2), .lit (.int 3)]) []]]

/-! ## Texts of a query that hold no `$` of their own -/

/-- For this alias, `SerializeAlias` keeps the placeholders of the expression it
wraps and adds none. -/
def AliasKeepsPlaceholders (serializer : SQLSerializer) (als : String) : Prop :=
  ∀ expr toks, Emits expr toks → Emits (serializer.SerializeAlias expr als) toks

/-- The `ColumnKey` arguments of a function call are serialized without `$`. -/
def argumentsClean (serializer : SQLSerializer) : List Value → Bool
  | [] => true
  | v :: rest => v.keyClean serializer && argumentsClean serializer rest

mutual
/-- The texts that the serializer writes for the column, rendered below the prefix
`pfx`, hold no `$` of their own: the serialized column of a source leaf, the
`ColumnKey` arguments of a function leaf, and what `SerializeAlias` adds around the
call of a function leaf. -/
def Column.textsClean (serializer : SQLSerializer) (pfx : String) : Column → Prop
  | .mk als source nested function =>
    match nested with
    | some children => columnsClean serializer (columnAlias pfx als) children
    | none =>
      match source with
      | some _ =>
        Clean (serializer.SerializeColumn (.mk (columnAlias pfx als) source nested function))
      | none =>
        match function with
        | some fn =>
          argumentsClean serializer fn.Values = true ∧
            AliasKeepsPlaceholders serializer (columnAlias pfx als)
        | none => True
/-- The texts that the serializer writes for the columns hold no `$` of their
own. -/
def columnsClean (serializer : SQLSerializer) (pfx : String) : List Column → Prop
  | [] => True
  | column :: rest => column.textsClean serializer pfx ∧ columnsClean serializer pfx rest
end

/-- The target and the keys of every join are serialized without `$`. -/
def joinsClean (serializer : SQLSerializer) : List Join → Bool
  | [] => true
  | join :: rest =>
    decide (Clean (serializer.SerializeTableSource join.To)) &&
      whereKeysClean serializer join.Where && joinsClean serializer rest

/-- The grouping keys are serialized without `$`. -/
def groupsClean (serializer : SQLSerializer) : List ColumnKey → Bool
  | [] => true
  | group :: rest =>
    decide (Clean (serializer.SerializeColumnKey group)) && groupsClean serializer rest

/-- The order keys are serialized without `$`. -/
def ordersClean (serializer : SQLSerializer) : List Order → Bool
  | [] => true
  | order :: rest => decide (Clean (serializer.ToSQL order.Key)) && ordersClean serializer rest

/-- The serializer writes no `$` of its own for this query: not for its columns,
its source, its joins, the keys of its filter, its grouping keys or its order
keys. -/
def QueryClean (serializer : SQLSerializer) (query : SelectQuery) : Prop :=
  columnsClean serializer "" query.Columns ∧
    Clean (serializer.SerializeTableSource query.From) ∧
    joinsClean serializer query.Joins = true ∧
    whereKeysClean serializer query.Where = true ∧
    groupsClean serializer query.Group = true ∧
    ordersClean serializer query.Order = true

/-! ## Go library functions: facts -/

theorem stringsJoin_cons (a : String) (rest : List String) (sep : String) :
    stringsJoin (a :: rest) sep =
      a ++ (if rest = [] then "" else sep ++ stringsJoin rest sep) := by
  cases rest with
  | nil => simp [stringsJoin]
  | cons b rest => simp [stringsJoin, String.append_assoc]

theorem digitChar_isDigit : ∀ d, d < 10 → (Nat.digitChar d).isDigit = true := by
  decide

theorem toDigitsCore_isDigit (fuel : Nat) :
    ∀ (n : Nat) (ds : List Char), (∀ c ∈ ds, c.isDigit = true) →
      ∀ c ∈ Nat.toDigitsCore 10 fuel n ds, c.isDigit = true := by
  induction fuel with
  | zero => intro n ds h; simpa [Nat.toDigitsCore] using h
  | succ fuel ih =>
    intro n ds h
    have hd : (Nat.digitChar (n % 10)).isDigit = true :=
      digitChar_isDigit _ (Nat.mod_lt _ (by decide))
    have hcons : ∀ c ∈ Nat.digitChar (n % 10) :: ds, c.isDigit = true := by
      intro c hc
      rcases List.mem_cons.1 hc with rfl | hc
      · exact hd
      · exact h c hc
    simp only [Nat.toDigitsCore]
    split
    · exact hcons
    · exact ih _ _ hcons

theorem toDigitsCore_ne_nil (fuel : Nat) :
    ∀ (n : Nat) (ds : List Char), ds ≠ [] → Nat.toDigitsCore 10 fuel n ds ≠ [] := by
  induction fuel with
  | zero => intro n ds h; simpa [Nat.toDigitsCore] using h
  | succ fuel ih =>
    intro n ds _
    simp only [Nat.toDigitsCore]
    split
    · simp
    · exact ih _ _ (by simp)

/-- The decimal numeral of a natural number consists of digits. -/
theorem toString_isDigit (n : Nat) : ∀ c ∈ (toString n).data, c.isDigit = true := by
  show ∀ c ∈ (Nat.toDigits 10 n).asString.data, c.isDigit = true
  simp only [List.asString, Nat.toDigits]
  exact toDigitsCore_isDigit _ _ _ (by simp)

/-- The decimal numeral of a natural number is not empty. -/
theorem toString_ne_nil (n : Nat) : (toString n).data ≠ [] := by
  show (Nat.toDigits 10 n).asString.data ≠ []
  simp only [List.asString, Nat.toDigits, Nat.toDigitsCore]
  split
  · simp
  · exact toDigitsCore_ne_nil _ _ _ (by simp)

theorem digitChar_toNat : ∀ d, d < 10 → (Nat.digitChar d).toNat - 48 = d := by
  decide

theorem digitsValue_append (ps : List Char) (d : Char) :
    digitsValue (ps ++ [d]) = 10 * digitsValue ps + (d.toNat - 48) := by
  simp [digitsValue, List.foldl_append]

theorem toDigitsCore_value (fuel : Nat) :
    ∀ (n : Nat) (ds : List Char), n < fuel →
      ∃ ps, Nat.toDigitsCore 10 fuel n ds = ps ++ ds ∧ digitsValue ps = n := by
  induction fuel with
  | zero => intro n ds h; omega
  | succ fuel ih =>
    intro n ds h
    simp only [Nat.toDigitsCore]
    split
    · rename_i h0
      refine ⟨[Nat.digitChar (n % 10)], by simp, ?_⟩
      have := digitChar_toNat (n % 10) (Nat.mod_lt _ (by decide))
      simp only [digitsValue, List.foldl_cons, List.foldl_nil, this]
      omega
    · rename_i h0
      obtain ⟨ps, hps, hv⟩ := ih (n / 10) (Nat.digitChar (n % 10) :: ds) (by omega)
      refine ⟨ps ++ [Nat.digitChar (n % 10)], by simp [hps], ?_⟩
      rw [digitsValue_append, hv, digitChar_toNat (n % 10) (Nat.mod_lt _ (by decide))]
      omega

/-- Reading the decimal numeral of `n` gives `n` back. -/
theorem digitsValue_toString (n : Nat) : digitsValue (toString n).data = n := by
  show digitsValue (Nat.toDigits 10 n).asString.data = n
  obtain ⟨ps, hps, hv⟩ := toDigitsCore_value (n + 1) n [] (by omega)
  simp only [List.asString, Nat.toDigits, hps, List.append_nil, hv]

theorem placeholderIndex_token (k : Nat) : placeholderIndex ("$" ++ toString k) = some k := by
  have hdata : ("$" ++ toString k).data = '$' :: (toString k).data := by
    rw [String.data_append]; rfl
  have hall : (toString k).data.all Char.isDigit = true := by
    rw [List.all_eq_true]; exact toString_isDigit k
  simp only [placeholderIndex, hdata]
  rw [if_pos ⟨toString_ne_nil k, hall⟩, digitsValue_toString]

/-! ## Placeholder scanning: facts -/

theorem clean_append {a b : String} (ha : Clean a) (hb : Clean b) : Clean (a ++ b) := by
  unfold Clean at *
  rw [String.data_append, List.mem_append]
  exact fun h => h.elim ha hb

theorem scan_clean (pre : List Char) (h : '$' ∉ pre) (rest : List Char) :
    scanPlaceholders none (pre ++ rest) = scanPlaceholders none rest := by
  induction pre with
  | nil => rfl
  | cons c cs ih =>
    have hc : c ≠ '$' := fun e => h (by simp [e])
    have hcs : '$' ∉ cs := fun e => h (List.mem_cons_of_mem _ e)
    simp only [List.cons_append, scanPlaceholders, if_neg hc]
    exact ih hcs

theorem scan_none_of_noLeadingDigit (ds : List Char) (hds : ds ≠ []) (rest : List Char)
    (hrest : NoLeadingDigit rest) :
    scanPlaceholders (some ds) rest = String.mk ('$' :: ds) :: scanPlaceholders none rest := by
  cases rest with
  | nil => simp [scanPlaceholders, hds]
  | cons c cs =>
    have hc : c.isDigit = false := hrest c rfl
    simp [scanPlaceholders, hc, hds]

theorem scan_digits (ds : List Char) :
    ∀ (acc : List Char) (rest : List Char), (∀ c ∈ ds, c.isDigit = true) → acc ++ ds ≠ [] →
      NoLeadingDigit rest →
      scanPlaceholders (some acc) (ds ++ rest) =
        String.mk ('$' :: (acc ++ ds)) :: scanPlaceholders none rest := by
  induction ds with
  | nil =>
    intro acc rest _ hne hrest
    simpa using scan_none_of_noLeadingDigit acc (by simpa using hne) rest hrest
  | cons d ds ih =>
    intro acc rest hds hne hrest
    have hd : d.isDigit = true := hds d (by simp)
    simp only [List.cons_append, scanPlaceholders, hd, if_true]
    have := ih (acc ++ [d]) rest (fun c hc => hds c (List.mem_cons_of_mem _ hc)) (by simp) hrest
    simpa using this

theorem emits_clean {s : String} (h : Clean s) : Emits s [] := by
  intro rest _
  simpa using scan_clean s.data h rest

theorem emits_token (n : Nat) : Emits ("$" ++ toString n) ["$" ++ toString n] := by
  intro rest hrest
  have hdata : ("$" ++ toString n).data = '$' :: (toString n).data := by
    rw [String.data_append]; rfl
  have htok : String.mk ('$' :: (toString n).data) = "$" ++ toString n := by
    apply String.ext; rw [hdata]
  rw [hdata]
  simp only [List.cons_append, scanPlaceholders, if_true]
  have := scan_digits (toString n).data [] rest (toString_isDigit n)
    (by simpa using toString_ne_nil n) hrest
  simpa [htok] using this

theorem noLeadingDigit_append {a b : List Char} (ha : NoLeadingDigit a) (hb : NoLeadingDigit b) :
    NoLeadingDigit (a ++ b) := by
  cases a with
  | nil => simpa using hb
  | cons c cs => intro x hx; exact ha x (by simpa using hx)

theorem emits_clean_append {a b : String} {toks : List String} (ha : Clean a)
    (hb : Emits b toks) : Emits (a ++ b) toks := by
  intro rest hrest
  rw [String.data_append, List.append_assoc, scan_clean a.data ha]
  exact hb rest hrest

theorem emits_append {a b : String} {ta tb : List String} (ha : Emits a ta)
    (hb : Emits b tb) (hlead : NoLeadingDigit b.data) : Emits (a ++ b) (ta ++ tb) := by
  intro rest hrest
  rw [String.data_append, List.append_assoc, ha _ (noLeadingDigit_append hlead hrest),
    hb rest hrest, List.append_assoc]

theorem emits_nil_toks {toks : List String} (h : Emits "" toks) : toks = [] := by
  have := h [] (by intro c hc; simp at hc)
  simpa [scanPlaceholders] using this.symm

theorem emits_join_cons {f : String} {fs : List String} {tf ts : List String}
    {linker : String} (hf : Emits f tf) (hfs : Emits (stringsJoin fs linker) ts)
    (hl : GoodLinker linker) : Emits (stringsJoin (f :: fs) linker) (tf ++ ts) := by
  rw [stringsJoin_cons]
  by_cases hnil : fs = []
  · subst hnil
    have hts : ts = [] := emits_nil_toks (by simpa [stringsJoin] using hfs)
    subst hts
    simpa using hf
  · rw [if_neg hnil]
    refine emits_append hf (emits_clean_append hl.1 hfs) ?_
    rw [String.data_append]
    intro c hc
    obtain ⟨_, hne, hlead⟩ := hl
    cases hd : linker.data with
    | nil => exact absurd hd hne
    | cons x xs =>
      rw [hd] at hc hlead
      exact hlead c (by simpa using hc)

theorem placeholderRange_add (n a b : Nat) :
    placeholderRange n (a + b) = placeholderRange n a ++ placeholderRange (n + a) b := by
  simp only [placeholderRange, List.range_add, List.map_append, List.map_map]
  congr 1
  apply List.map_congr_left
  intro i _
  simp [Nat.add_assoc]

/-! ## Fragments of a text: facts -/

theorem noLeadingDigit_nil : NoLeadingDigit [] := by
  intro c hc; simp at hc

theorem noLeadingDigit_linker {linker : String} (hl : GoodLinker linker) (rest : List Char) :
    NoLeadingDigit (linker.data ++ rest) := by
  obtain ⟨_, hne, hlead⟩ := hl
  intro c hc
  cases hd : linker.data with
  | nil => exact absurd hd hne
  | cons x xs =>
    rw [hd] at hc hlead
    exact hlead c (by simpa using hc)

theorem contains_refl (a : String) : Contains a a :=
  ⟨"", "", by simp, noLeadingDigit_nil⟩

theorem contains_trans {a b c : String} (hab : Contains a b) (hbc : Contains b c) :
    Contains a c := by
  obtain ⟨p, q, rfl, hq⟩ := hab
  obtain ⟨r, s, rfl, hs⟩ := hbc
  refine ⟨p ++ r, s ++ q, by simp [String.append_assoc], ?_⟩
  rw [String.data_append]
  exact noLeadingDigit_append hs hq

theorem contains_append_left (a b : String) (hb : NoLeadingDigit b.data) :
    Contains (a ++ b) a :=
  ⟨"", b, by simp, hb⟩

theorem contains_append_right (a b : String) : Contains (a ++ b) b :=
  ⟨a, "", by simp, noLeadingDigit_nil⟩

theorem contains_join {f : String} {fs : List String} (h : f ∈ fs) {sep : String}
    (hsep : GoodLinker sep) : Contains (stringsJoin fs sep) f := by
  induction fs with
  | nil => simp at h
  | cons g gs ih =>
    rw [stringsJoin_cons]
    rcases List.mem_cons.1 h with rfl | hmem
    · refine contains_append_left _ _ ?_
      split
      · exact noLeadingDigit_nil
      · rw [String.data_append]
        exact noLeadingDigit_linker hsep _
    · have hne : gs ≠ [] := List.ne_nil_of_mem hmem
      rw [if_neg hne]
      exact contains_trans (contains_append_right _ _)
        (contains_trans (contains_append_right _ _) (ih hmem))

/-! ## The filter renderer of `driver.go`: invariants -/

theorem goodLinker_AND : GoodLinker "AND" :=
  ⟨by decide, by decide, by intro c hc; cases hc; decide⟩

theorem goodLinker_OR : GoodLinker "OR" :=
  ⟨by decide, by decide, by intro c hc; cases hc; decide⟩

theorem goodLinker_NOT : GoodLinker "NOT" :=
  ⟨by decide, by decide, by intro c hc; cases hc; decide⟩

theorem whereOperators_combinator {op : String} (h : isCombinator op = true) :
    ∃ linker, whereOperators op = some (.whereNested linker) ∧ GoodLinker linker := by
  simp only [isCombinator, Bool.or_eq_true, beq_iff_eq] at h
  rcases h with (rfl | rfl) | rfl
  · exact ⟨"AND", rfl, goodLinker_AND⟩
  · exact ⟨"OR", rfl, goodLinker_OR⟩
  · exact ⟨"NOT", rfl, goodLinker_NOT⟩

theorem whereOperators_comparator {op : String} (h : isComparator op = true) :
    whereOperators op = some (.whereComparators op) ∧ Clean op := by
  simp only [isComparator, Bool.or_eq_true, beq_iff_eq] at h
  rcases h with ((((rfl | rfl) | rfl) | rfl) | rfl) | rfl <;> exact ⟨rfl, by decide⟩

theorem nodeInv_nil (serializer : SQLSerializer) (f : String) {clean : Bool}
    (hclean : clean = true → Clean f) : NodeInv serializer f n [] clean := by
  refine ⟨fun j c h => by simp at h, fun hs => ?_⟩
  simpa [placeholderRange] using emits_clean (hclean hs)

theorem loopInv_nil (serializer : SQLSerializer) (n : Nat) (clean : Bool) :
    LoopInv serializer [] n [] clean := by
  refine ⟨fun j c h => by simp at h, fun _ linker _ => ?_⟩
  simpa [placeholderRange, stringsJoin] using emits_clean (s := "") (by decide)

theorem loopInv_cons {serializer : SQLSerializer} {f : String} {fs : List String} {n : Nat}
    {cs1 cs2 : List Where} {c1 c2 : Bool} (hf : NodeInv serializer f n cs1 c1)
    (hfs : LoopInv serializer fs (n + cs1.length) cs2 c2) :
    LoopInv serializer (f :: fs) n (cs1 ++ cs2) (c1 && c2) := by
  refine ⟨fun j c h => ?_, fun hs linker hl => ?_⟩
  · by_cases hj : j < cs1.length
    · rw [List.getElem?_append_left hj] at h
      exact ⟨f, by simp, hf.1 j c h⟩
    · rw [List.getElem?_append_right (by omega)] at h
      obtain ⟨g, hg, hc⟩ := hfs.1 _ c h
      refine ⟨g, List.mem_cons_of_mem _ hg, ?_⟩
      have hidx : n + cs1.length + (j - cs1.length) + 1 = n + j + 1 := by omega
      rwa [hidx] at hc
  · simp only [Bool.and_eq_true] at hs
    rw [List.length_append, placeholderRange_add]
    exact emits_join_cons (hf.2 hs.1) (hfs.2 hs.2 linker hl) hl

theorem nodeInv_of_loop {serializer : SQLSerializer} {fs : List String} {n : Nat}
    {cs : List Where} {clean : Bool} {linker : String} (h : LoopInv serializer fs n cs clean)
    (hl : GoodLinker linker) :
    NodeInv serializer ("(" ++ stringsJoin fs linker ++ ")") n cs clean := by
  refine ⟨fun j c hc => ?_, fun hs => ?_⟩
  · obtain ⟨f, hf, hcont⟩ := h.1 j c hc
    exact contains_trans (contains_append_left _ _ (by intro c hc; cases hc; decide))
      (contains_trans (contains_append_right _ _) (contains_trans (contains_join hf hl) hcont))
  · rw [String.append_assoc]
    refine emits_clean_append (by decide) ?_
    have := emits_append (h.2 hs linker hl) (emits_clean (s := ")") (by decide))
      (by intro c hc; cases hc; decide)
    simpa using this

theorem nodeInv_bound (serializer : SQLSerializer) (key : ColumnKey) (op : String)
    (value : Value) (nested : List Where) (n : Nat) (hop : Clean op) {clean : Bool}
    (hk : clean = true → Clean (serializer.ToSQL key)) :
    NodeInv serializer
      (serializer.ToSQL key ++ " " ++ op ++ " " ++ (ValueSequencer.mk n).call.1) n
      [.mk key op value nested] clean := by
  have htext : serializer.ToSQL key ++ " " ++ op ++ " " ++ (ValueSequencer.mk n).call.1 =
      serializer.ToSQL key ++ " " ++ op ++ " $" ++ toString (n + 1) := by
    simp only [ValueSequencer.call, String.append_assoc]
    rfl
  refine ⟨fun j c hc => ?_, fun hs => ?_⟩
  · cases j with
    | zero =>
      simp only [List.getElem?_cons_zero, Option.some.injEq] at hc
      subst hc
      rw [htext]
      exact contains_refl _
    | succ j => simp at hc
  · simp only [ValueSequencer.call, List.length_singleton]
    have hpre : Clean (serializer.ToSQL key ++ " " ++ op ++ " ") :=
      clean_append (clean_append (clean_append (hk hs) (by decide)) hop) (by decide)
    have := emits_clean_append hpre (emits_token (n + 1))
    simpa [placeholderRange] using this

theorem comparisonKeysClean_key {serializer : SQLSerializer} {key : ColumnKey} {value : Value}
    (h : comparisonKeysClean serializer key value = true) : Clean (serializer.ToSQL key) := by
  simp only [comparisonKeysClean, Bool.and_eq_true, decide_eq_true_eq] at h
  exact h.1

/-- A comparison closure on a non-`nil` key: what it returns, for every kind of
right operand. -/
theorem whereComparators_spec (driver : CommonDriver) (key : ColumnKey) (op : String)
    (value : Value) (nested : List Where) (n : Nat) (hop : Clean op) :
    ∃ f, WhereOperator.call driver (.whereComparators op) (some key) value ⟨n⟩ =
        some (f, (if value.isBound then [Where.mk key op value nested] else []).map Where.Value,
          ⟨n + (if value.isBound then [Where.mk key op value nested] else []).length⟩) ∧
      NodeInv driver.serializer f n
        (if value.isBound then [Where.mk key op value nested] else [])
        (comparisonKeysClean driver.serializer key value) := by
  cases value with
  | nil =>
    exact ⟨driver.serializer.ToSQL key, by simp [WhereOperator.call, Value.isBound],
      by simpa [Value.isBound] using
        nodeInv_nil driver.serializer _ (fun hs => comparisonKeysClean_key hs)⟩
  | columnKey c =>
    refine ⟨driver.serializer.ToSQL key ++ " " ++ op ++ " " ++
      driver.serializer.SerializeColumnKey c, by simp [WhereOperator.call, Value.isBound], ?_⟩
    have hinv : NodeInv driver.serializer (driver.serializer.ToSQL key ++ " " ++ op ++ " " ++
        driver.serializer.SerializeColumnKey c) n []
        (comparisonKeysClean driver.serializer key (.columnKey c)) :=
      nodeInv_nil driver.serializer _ (fun hs => by
        have hk := comparisonKeysClean_key hs
        have hc : Clean (driver.serializer.SerializeColumnKey c) := by
          simp only [comparisonKeysClean, Value.keyClean, Bool.and_eq_true,
            decide_eq_true_eq] at hs
          exact hs.2
        exact clean_append (clean_append (clean_append (clean_append hk (by decide)) hop)
          (by decide)) hc)
    simpa [Value.isBound] using hinv
  | lit l =>
    exact ⟨driver.serializer.ToSQL key ++ " " ++ op ++ " " ++ (ValueSequencer.mk n).call.1,
      by simp [WhereOperator.call, Value.isBound, Where.Value, ValueSequencer.call],
      by simpa [Value.isBound] using
        (nodeInv_bound driver.serializer key op _ nested n hop
          (fun hs => comparisonKeysClean_key hs))⟩
  | list elems =>
    exact ⟨driver.serializer.ToSQL key ++ " " ++ op ++ " " ++ (ValueSequencer.mk n).call.1,
      by simp [WhereOperator.call, Value.isBound, Where.Value, ValueSequencer.call],
      by simpa [Value.isBound] using
        (nodeInv_bound driver.serializer key op _ nested n hop
          (fun hs => comparisonKeysClean_key hs))⟩
  | wheres ws =>
    exact ⟨driver.serializer.ToSQL key ++ " " ++ op ++ " " ++ (ValueSequencer.mk n).call.1,
      by simp [WhereOperator.call, Value.isBound, Where.Value, ValueSequencer.call],
      by simpa [Value.isBound] using
        (nodeInv_bound driver.serializer key op _ nested n hop
          (fun hs => comparisonKeysClean_key hs))⟩

mutual
/-- The value of a well-formed combinator is a list of nodes, and the loop of
`whereNested` over it succeeds with the invariants. -/
theorem nestedValue_spec (driver : CommonDriver) (hreg : driver.whereOperators = whereOperators) :
    ∀ (value : Value), value.wellFormedChildren = true → ∀ n : Nat,
      ∃ ws fs, value = .wheres ws ∧
        whereNestedLoop driver ws ⟨n⟩ =
          some (fs, value.boundComparisons.map Where.Value,
            ⟨n + value.boundComparisons.length⟩) ∧
        LoopInv driver.serializer fs n value.boundComparisons
          (value.keysClean driver.serializer)
  | .wheres ws, h, n => by
    have hws : wellFormedWheres ws = true := by simpa [Value.wellFormedChildren] using h
    obtain ⟨fs, h1, h2⟩ := whereNestedLoop_spec driver hreg ws hws n
    exact ⟨ws, fs, rfl, by simpa [Value.boundComparisons] using h1,
      by simpa [Value.boundComparisons, Value.keysClean] using h2⟩
  | .nil, h, _ => by simp [Value.wellFormedChildren] at h
  | .columnKey _, h, _ => by simp [Value.wellFormedChildren] at h
  | .lit _, h, _ => by simp [Value.wellFormedChildren] at h
  | .list _, h, _ => by simp [Value.wellFormedChildren] at h
/-- The loop of `whereNested` over well-formed nodes succeeds; its values are the
bound operands of the comparisons from left to right, it calls the sequencer once
per value, and its filters satisfy the invariants. -/
theorem whereNestedLoop_spec (driver : CommonDriver)
    (hreg : driver.whereOperators = whereOperators) :
    ∀ (ws : List Where), wellFormedWheres ws = true → ∀ n : Nat,
      ∃ fs, whereNestedLoop driver ws ⟨n⟩ =
          some (fs, (boundComparisons ws).map Where.Value,
            ⟨n + (boundComparisons ws).length⟩) ∧
        LoopInv driver.serializer fs n (boundComparisons ws)
          (whereKeysClean driver.serializer ws)
  | [], _, n =>
    ⟨[], by simp [whereNestedLoop, boundComparisons],
      by simpa [boundComparisons, whereKeysClean] using loopInv_nil driver.serializer n true⟩
  | (.mk key op value nested) :: rest, h, n => by
    simp only [wellFormedWheres, Bool.and_eq_true] at h
    obtain ⟨hhead, hrest⟩ := h
    by_cases hc : isCombinator op = true
    · rw [if_pos hc] at hhead
      obtain ⟨linker, hop, hl⟩ := whereOperators_combinator hc
      obtain ⟨ws, fs0, hv, hloop, hinv⟩ := nestedValue_spec driver hreg value hhead n
      obtain ⟨fs, hrestloop, hrestinv⟩ :=
        whereNestedLoop_spec driver hreg rest hrest (n + value.boundComparisons.length)
      refine ⟨("(" ++ stringsJoin fs0 linker ++ ")") :: fs, ?_, ?_⟩
      · rw [hv] at hloop hrestloop ⊢
        simp [whereNestedLoop, hreg, hop, WhereOperator.call, hloop, hrestloop,
          boundComparisons, hc, Nat.add_assoc]
      · simpa [boundComparisons, whereKeysClean, hc] using
          loopInv_cons (nodeInv_of_loop hinv hl) hrestinv
    · rw [if_neg hc] at hhead
      obtain ⟨hop, hclean⟩ := whereOperators_comparator hhead
      obtain ⟨f, hcall, hinv⟩ := whereComparators_spec driver key op value nested n hclean
      obtain ⟨fs, hrestloop, hrestinv⟩ :=
        whereNestedLoop_spec driver hreg rest hrest
          (n + (if value.isBound then [Where.mk key op value nested] else []).length)
      refine ⟨f :: fs, ?_, ?_⟩
      · simp [whereNestedLoop, hreg, hop, hcall, hrestloop, boundComparisons, hc, hhead,
          Nat.add_assoc]
      · simpa [boundComparisons, whereKeysClean, hc, hhead] using loopInv_cons hinv hrestinv
end

/-! ## Claims -/

/-- C1. A filter tree whose operators are all among
`and`/`or`/`not`/`=`/`!=`/`>`/`>=`/`<`/`<=`, the value of every combinator being a
list of nodes, is rendered by the `and` operator of a `CommonDriver` holding the
package registry, from a fresh sequencer, with success.  The value list has one
entry per sequencer call; it is the list of the bound right operands of the
comparisons from left to right; the comparison that holds the `j`-th of them is in
the text as `<key> <operator> $j`; and, when the keys that the comparisons of this
tree write hold no `$` of their own, the placeholder tokens of the text are exactly
`$1`, ..., `$n` in this order, `n` being the number of values. -/
theorem C1_where_placeholders_match_values (driver : CommonDriver) (ws : List Where)
    (hreg : driver.whereOperators = whereOperators) (hwf : wellFormedWheres ws = true) :
    ∃ text values,
      driver.callWhereOperator "and" none (.wheres ws) valueSequence =
        some (text, values, ⟨values.length⟩) ∧
      values = (boundComparisons ws).map Where.Value ∧
      (∀ j c, (boundComparisons ws)[j]? = some c →
        values[j]? = some c.Value ∧
        Contains text (driver.serializer.ToSQL c.Key ++ " " ++ c.Operator ++ " $" ++
          toString (j + 1))) ∧
      (whereKeysClean driver.serializer ws = true →
        placeholders text =
          (List.range values.length).map (fun i => "$" ++ toString (i + 1))) := by
  obtain ⟨fs, hloop, hinv⟩ := whereNestedLoop_spec driver hreg ws hwf 0
  have hnode := nodeInv_of_loop hinv goodLinker_AND
  refine ⟨"(" ++ stringsJoin fs "AND" ++ ")", (boundComparisons ws).map Where.Value, ?_, rfl,
    fun j c hc => ⟨?_, ?_⟩, fun hs => ?_⟩
  · have hand : whereOperators "and" = some (.whereNested "AND") := rfl
    simp only [CommonDriver.callWhereOperator, hreg, hand, WhereOperator.call, valueSequence,
      hloop, List.length_map]
    simp
  · simp [List.getElem?_map, hc]
  · have := hnode.1 j c hc
    simpa [comparisonWithPlaceholder] using this
  · have := hnode.2 hs [] noLeadingDigit_nil
    simpa [placeholders, placeholderRange, scanPlaceholders] using this

/-- C1 at the filter `AND("t"."a" = 1, OR("t"."b" > 2, "t"."c" != 'x'))`: the keys of
the tree hold no `$`, and the placeholders of the rendered text are `$1`, `$2`, `$3`
in this order. -/
theorem C1_where_placeholders_match_values_witness :
    exampleDriver.whereOperators = whereOperators ∧ wellFormedWheres exampleFilter = true ∧
    whereKeysClean exampleDriver.serializer exampleFilter = true ∧
    exampleDriver.callWhereOperator "and" none (.wheres exampleFilter) valueSequence =
      some ("(\"t\".\"a\" = $1AND(\"t\".\"b\" > $2OR\"t\".\"c\" != $3))",
        [.lit (.int 1), .lit (.int 2), .lit (.str "x")], ⟨3⟩) ∧
    placeholders "(\"t\".\"a\" = $1AND(\"t\".\"b\" > $2OR\"t\".\"c\" != $3))" =
      ["$1", "$2", "$3"] ∧
    ∃ text values,
      exampleDriver.callWhereOperator "and" none (.wheres exampleFilter) valueSequence =
        some (text, values, ⟨values.length⟩) ∧
      values = (boundComparisons exampleFilter).map Where.Value ∧
      (∀ j c, (boundComparisons exampleFilter)[j]? = some c →
        values[j]? = some c.Value ∧
        Contains text (exampleDriver.serializer.ToSQL c.Key ++ " " ++ c.Operator ++ " $" ++
          toString (j + 1))) ∧
      placeholders text =
        (List.range values.length).map (fun i => "$" ++ toString (i + 1)) :=
  ⟨rfl, by decide, by decide, by rfl, by decide,
    (C1_where_placeholders_match_values exampleDriver exampleFilter rfl (by decide)).imp
      fun _ h => h.imp fun _ hv => ⟨hv.1, hv.2.1, hv.2.2.1, hv.2.2.2 (by decide)⟩⟩

/-! ## The sequencer -/

theorem afterCalls_num (seq : ValueSequencer) (n : Nat) :
    seq.afterCalls n = ⟨seq.num + n⟩ := by
  induction n with
  | zero => rfl
  | succ n ih => simp [ValueSequencer.afterCalls, ih, ValueSequencer.call, Nat.add_assoc]

theorem nthCall_valueSequence (k : Nat) (hk : 1 ≤ k) :
    valueSequence.nthCall k = "$" ++ toString k := by
  have hnum : 0 + (k - 1) + 1 = k := by omega
  simp only [ValueSequencer.nthCall, afterCalls_num, ValueSequencer.call, valueSequence, hnum]

/-- What a successful `Select` went through: the column renderer received the fresh
sequencer, the join renderer the sequencer the columns left, the filter renderer
the one the joins left. -/
theorem select_threads_fresh_sequencer (driver : CommonDriver) (query : SelectQuery)
    (statement : String) (values : List Value)
    (h : driver.Select query = some (statement, values)) :
    ∃ columns v1 s1 joins v2 s2,
      driver.renderColumns query.Columns "" valueSequence = some (columns, v1, s1) ∧
      driver.renderJoins query.Joins s1 = some (joins, v2, s2) ∧
      ((query.Where = [] ∧ values = v1 ++ v2) ∨
        ∃ w v3 s3, driver.callWhereOperator "and" none (.wheres query.Where) s2 =
          some (w, v3, s3) ∧ values = v1 ++ v2 ++ v3) := by
  unfold CommonDriver.Select at h
  cases hc : driver.renderColumns query.Columns "" valueSequence with
  | none => simp [hc] at h
  | some rc =>
    obtain ⟨columns, v1, s1⟩ := rc
    cases hj : driver.renderJoins query.Joins s1 with
    | none => simp [hc, hj] at h
    | some rj =>
      obtain ⟨joins, v2, s2⟩ := rj
      refine ⟨columns, v1, s1, joins, v2, s2, rfl, hj, ?_⟩
      by_cases hw : query.Where = []
      · left
        refine ⟨hw, ?_⟩
        simp only [hc, hj, hw, List.length_nil, Nat.lt_irrefl, if_false] at h
        split at h
        · simp at h
        · simp only [Option.some.injEq, Prod.mk.injEq] at h
          exact h.2.symm
      · right
        have hlen : query.Where.length > 0 := List.length_pos.2 hw
        cases hcall : driver.callWhereOperator "and" none (.wheres query.Where) s2 with
        | none => simp [hc, hj, hlen, hcall] at h
        | some rw =>
          obtain ⟨w, v3, s3⟩ := rw
          refine ⟨w, v3, s3, rfl, ?_⟩
          simp only [hc, hj, hlen, hcall, if_true] at h
          split at h
          · simp at h
          · simp only [Option.some.injEq, Prod.mk.injEq] at h
            exact h.2.symm

/-! ## The renderers driven by `Select`: success on well-formed queries -/

theorem commonFunctionLoop_spec (driver : CommonDriver) :
    ∀ (args : List Value) (n : Nat),
      ∃ strs, commonFunctionLoop driver args ⟨n⟩ =
        (strs, functionValues args, ⟨n + (functionValues args).length⟩) := by
  intro args
  induction args with
  | nil => intro n; exact ⟨[], rfl⟩
  | cons v rest ih =>
    intro n
    cases v with
    | columnKey c =>
      obtain ⟨strs, h⟩ := ih n
      exact ⟨driver.serializer.SerializeColumnKey c :: strs,
        by simp [commonFunctionLoop, h, functionValues, Value.isColumnKey]⟩
    | nil =>
      obtain ⟨strs, h⟩ := ih (n + 1)
      refine ⟨(ValueSequencer.mk n).call.1 :: strs, ?_⟩
      simp [commonFunctionLoop, functionValues, Value.isColumnKey, ValueSequencer.call] at h ⊢
      simp [h]; omega
    | lit l =>
      obtain ⟨strs, h⟩ := ih (n + 1)
      refine ⟨(ValueSequencer.mk n).call.1 :: strs, ?_⟩
      simp [commonFunctionLoop, functionValues, Value.isColumnKey, ValueSequencer.call] at h ⊢
      simp [h]; omega
    | list elems =>
      obtain ⟨strs, h⟩ := ih (n + 1)
      refine ⟨(ValueSequencer.mk n).call.1 :: strs, ?_⟩
      simp [commonFunctionLoop, functionValues, Value.isColumnKey, ValueSequencer.call] at h ⊢
      simp [h]; omega
    | wheres ws =>
      obtain ⟨strs, h⟩ := ih (n + 1)
      refine ⟨(ValueSequencer.mk n).call.1 :: strs, ?_⟩
      simp [commonFunctionLoop, functionValues, Value.isColumnKey, ValueSequencer.call] at h ⊢
      simp [h]; omega

theorem functionOperators_known {name : String} (h : isFunctionName name = true) :
    ∃ fnName extra, functionOperators name = some (.commonFunction fnName extra) := by
  simp only [isFunctionName, Bool.or_eq_true, beq_iff_eq] at h
  rcases h with (((rfl | rfl) | rfl) | rfl) | rfl
  · exact ⟨"COUNT", "", rfl⟩
  · exact ⟨"MAX", "", rfl⟩
  · exact ⟨"MIN", "", rfl⟩
  · exact ⟨"AVG", "", rfl⟩
  · exact ⟨"COUNT", "DISTINCT", rfl⟩

theorem functionOperator_call_spec (driver : CommonDriver) (op : FunctionOperator)
    (args : List Value) (n : Nat) :
    ∃ text, op.call driver args ⟨n⟩ =
      (text, functionValues args, ⟨n + (functionValues args).length⟩) := by
  cases op with
  | commonFunction fnName extra =>
    obtain ⟨strs, h⟩ := commonFunctionLoop_spec driver args n
    exact ⟨fnName ++ "(" ++ extra ++ " " ++ stringsJoin strs ", " ++ ")",
      by simp [FunctionOperator.call, h]⟩

mutual
/-- The loop body of `renderColumns` succeeds on a well-formed column. -/
theorem renderColumn_spec (driver : CommonDriver)
    (hreg : driver.functionOperators = functionOperators) :
    ∀ (column : Column), column.wellFormed = true → ∀ (pfx : String) (n : Nat),
      ∃ strs, CommonDriver.renderColumn driver column pfx ⟨n⟩ =
        some (strs, column.boundValues, ⟨n + column.boundValues.length⟩)
  | .mk als source (some children) function, h, pfx, n => by
    obtain ⟨strs, hs⟩ := renderColumns_spec driver hreg children
      (by simpa [Column.wellFormed] using h) (columnAlias pfx als) n
    exact ⟨strs, by simpa [CommonDriver.renderColumn, Column.boundValues] using hs⟩
  | .mk als (some src) none function, _, pfx, n =>
    ⟨[driver.serializer.SerializeColumn (.mk (columnAlias pfx als) (some src) none function)],
      by simp [CommonDriver.renderColumn, Column.boundValues]⟩
  | .mk als none none (some fn), h, pfx, n => by
    obtain ⟨fnName, extra, hop⟩ :=
      functionOperators_known (by simpa [Column.wellFormed] using h : isFunctionName fn.Operator = true)
    obtain ⟨text, hcall⟩ :=
      functionOperator_call_spec driver (.commonFunction fnName extra) fn.Values n
    exact ⟨[driver.serializer.SerializeAlias text (columnAlias pfx als)],
      by simp [CommonDriver.renderColumn, Column.boundValues, hreg, hop, hcall]⟩
  | .mk als none none none, _, pfx, n =>
    ⟨[], by simp [CommonDriver.renderColumn, Column.boundValues]⟩
/-- `renderColumns` succeeds on well-formed columns; its values are the bound
arguments of the functions from left to right, one sequencer call each. -/
theorem renderColumns_spec (driver : CommonDriver)
    (hreg : driver.functionOperators = functionOperators) :
    ∀ (columns : List Column), wellFormedColumns columns = true → ∀ (pfx : String) (n : Nat),
      ∃ strs, CommonDriver.renderColumns driver columns pfx ⟨n⟩ =
        some (strs, columnValues columns, ⟨n + (columnValues columns).length⟩)
  | [], _, pfx, n => ⟨[], by simp [CommonDriver.renderColumns, columnValues]⟩
  | column :: rest, h, pfx, n => by
    simp only [wellFormedColumns, Bool.and_eq_true] at h
    obtain ⟨c, hc⟩ := renderColumn_spec driver hreg column h.1 pfx n
    obtain ⟨strs, hs⟩ := renderColumns_spec driver hreg rest h.2 pfx
      (n + column.boundValues.length)
    exact ⟨c ++ strs, by simp [CommonDriver.renderColumns, columnValues, hc, hs, Nat.add_assoc]⟩
end

theorem joinOperators_known {t : JoinType} (h : t.isKnown = true) :
    ∃ joinStr, joinOperators t = some (.commonJoin joinStr) := by
  cases t with
  | InnerJoin => exact ⟨"INNER JOIN", rfl⟩
  | LeftJoin => exact ⟨"LEFT JOIN", rfl⟩
  | RightJoin => exact ⟨"RIGHT JOIN", rfl⟩
  | other name => simp [JoinType.isKnown] at h

theorem orderOperators_known {t : OrderType} (h : t.isKnown = true) :
    ∃ order, orderOperators t = some (.commonOrder order) := by
  cases t with
  | DescOrder => exact ⟨"DESC", rfl⟩
  | AscOrder => exact ⟨"ASC", rfl⟩
  | other name => simp [OrderType.isKnown] at h

/-- The `and` operator of the package registry succeeds on a well-formed filter
list. -/
theorem callWhereOperator_and_spec (driver : CommonDriver)
    (hreg : driver.whereOperators = whereOperators) (ws : List Where)
    (hwf : wellFormedWheres ws = true) (n : Nat) :
    ∃ text, driver.callWhereOperator "and" none (.wheres ws) ⟨n⟩ =
      some (text, (boundComparisons ws).map Where.Value,
        ⟨n + (boundComparisons ws).length⟩) := by
  obtain ⟨fs, hloop, _⟩ := whereNestedLoop_spec driver hreg ws hwf n
  have hand : whereOperators "and" = some (.whereNested "AND") := rfl
  exact ⟨"(" ++ stringsJoin fs "AND" ++ ")",
    by simp [CommonDriver.callWhereOperator, hreg, hand, WhereOperator.call, hloop]⟩

/-- `renderJoins` succeeds on well-formed joins; its values are the values of each
join's filter in join-declaration order. -/
theorem renderJoins_spec (driver : CommonDriver)
    (hw : driver.whereOperators = whereOperators)
    (hj : driver.joinOperators = joinOperators) :
    ∀ (joins : List Join), wellFormedJoins joins = true → ∀ n : Nat,
      ∃ strs, driver.renderJoins joins ⟨n⟩ =
        some (strs, joinValues joins, ⟨n + (joinValues joins).length⟩) := by
  intro joins
  induction joins with
  | nil => intro _ n; exact ⟨[], by simp [CommonDriver.renderJoins, joinValues]⟩
  | cons join rest ih =>
    intro h n
    simp only [wellFormedJoins, Bool.and_eq_true] at h
    obtain ⟨joinStr, hop⟩ := joinOperators_known h.1.1
    obtain ⟨text, htext⟩ := callWhereOperator_and_spec driver hw join.Where h.1.2 n
    obtain ⟨strs, hs⟩ := ih h.2 (n + (boundComparisons join.Where).length)
    exact ⟨(joinStr ++ " " ++ driver.serializer.SerializeTableSource join.To ++ " ON " ++ text)
        :: strs,
      by simp [CommonDriver.renderJoins, hj, hop, JoinOperator.call, htext, hs, joinValues,
        Nat.add_assoc]⟩

/-- `renderOrder` succeeds on entries with a known direction. -/
theorem renderOrder_spec (driver : CommonDriver)
    (ho : driver.orderOperators = orderOperators) :
    ∀ (orders : List Order), wellFormedOrders orders = true →
      ∃ text, driver.renderOrder orders = some text := by
  have hloop : ∀ (orders : List Order), wellFormedOrders orders = true →
      ∃ strs, driver.renderOrderLoop orders = some strs := by
    intro orders
    induction orders with
    | nil => intro _; exact ⟨[], rfl⟩
    | cons order rest ih =>
      intro h
      simp only [wellFormedOrders, Bool.and_eq_true] at h
      obtain ⟨o, hop⟩ := orderOperators_known h.1
      obtain ⟨strs, hs⟩ := ih h.2
      exact ⟨OrderOperator.call driver (.commonOrder o) order.Key :: strs,
        by simp [CommonDriver.renderOrderLoop, ho, hop, hs]⟩
  intro orders h
  obtain ⟨strs, hs⟩ := hloop orders h
  exact ⟨stringsJoin strs ", ", by simp [CommonDriver.renderOrder, hs]⟩

/-! ## The statement assembled by `Select` -/

/-- The statement and the values of `Select`, from the results of the renderers it
drives. -/
theorem select_eq (driver : CommonDriver) (query : SelectQuery)
    {columns joins : List String} {v1 v2 v3 : List Value} {s1 s2 s3 : ValueSequencer}
    {w o : String}
    (hc : driver.renderColumns query.Columns "" valueSequence = some (columns, v1, s1))
    (hj : driver.renderJoins query.Joins s1 = some (joins, v2, s2))
    (hw : driver.callWhereOperator "and" none (.wheres query.Where) s2 = some (w, v3, s3))
    (hv3 : query.Where = [] → v3 = [])
    (ho : driver.renderOrder query.Order = some o) :
    driver.Select query =
      some ("SELECT " ++ stringsJoin columns ",\n\t" ++ " \nFROM " ++
          driver.serializer.SerializeTableSource query.From ++ "\n" ++
          stringsJoin joins "\n" ++ "\n" ++
          stringsJoin (presentClauses
            [(decide (0 < query.Where.length), "WHERE " ++ w),
             (decide (0 < query.Group.length), "GROUP BY " ++ driver.renderGroups query.Group),
             (decide (0 < query.Order.length), "ORDER BY " ++ o),
             (query.Limit.isSome,
               "LIMIT " ++ (match query.Limit with
                 | some limit => toString limit ++ "river"
                 | none => "")),
             (query.Offset.isSome,
               "OFFSET " ++ (match query.Offset with
                 | some offset => toString offset ++ "river"
                 | none => ""))]) "\n",
        v1 ++ v2 ++ v3) := by
  unfold CommonDriver.Select
  simp only [hc, hj, hw, ho]
  by_cases hW : query.Where = []
  · have h3 := hv3 hW
    subst h3
    cases hL : query.Limit <;> cases hO : query.Offset <;>
      by_cases hG : query.Group = [] <;> by_cases hOr : query.Order = [] <;>
      simp [presentClauses, hW, hG, hOr, List.length_pos, String.append_assoc]
  · cases hL : query.Limit <;> cases hO : query.Offset <;>
      by_cases hG : query.Group = [] <;> by_cases hOr : query.Order = [] <;>
      simp [presentClauses, hW, hG, hOr, List.length_pos, String.append_assoc]

theorem exampleDriver_registries : exampleDriver.HasPackageRegistries :=
  ⟨rfl, rfl, rfl, rfl⟩

/-- C3. For a query all of whose names the package registries resolve, `Select`
hands over the statement together with the value list (bound arguments of the
projected columns' functions) ++ (values of each join's filter, in join-declaration
order) ++ (values of the top-level filter).  The statement holds the column
fragment, then the join fragment, then the `WHERE` clause when the filter list is
not empty; the columns were rendered from the fresh sequencer, the joins from the
sequencer after the column values, the filter from the sequencer after the column
and join values, so the placeholders follow the same order. -/
theorem C3_select_value_order (driver : CommonDriver) (query : SelectQuery)
    (hreg : driver.HasPackageRegistries) (hwf : wellFormedQuery query = true) :
    ∃ columns joins w others,
      driver.renderColumns query.Columns "" valueSequence =
        some (columns, columnValues query.Columns, ⟨(columnValues query.Columns).length⟩) ∧
      driver.renderJoins query.Joins ⟨(columnValues query.Columns).length⟩ =
        some (joins, joinValues query.Joins,
          ⟨(columnValues query.Columns).length + (joinValues query.Joins).length⟩) ∧
      driver.callWhereOperator "and" none (.wheres query.Where)
          ⟨(columnValues query.Columns).length + (joinValues query.Joins).length⟩ =
        some (w, (boundComparisons query.Where).map Where.Value,
          ⟨(columnValues query.Columns).length + (joinValues query.Joins).length +
            (boundComparisons query.Where).length⟩) ∧
      driver.Select query =
        some ("SELECT " ++ stringsJoin columns ",\n\t" ++ " \nFROM " ++
            driver.serializer.SerializeTableSource query.From ++ "\n" ++
            stringsJoin joins "\n" ++ "\n" ++
            stringsJoin (presentClauses
              ((decide (0 < query.Where.length), "WHERE " ++ w) :: others)) "\n",
          columnValues query.Columns ++ joinValues query.Joins ++
            (boundComparisons query.Where).map Where.Value) := by
  obtain ⟨hw, hj, ho, hf⟩ := hreg
  simp only [wellFormedQuery, Bool.and_eq_true] at hwf
  obtain ⟨⟨⟨hwc, hwj⟩, hww⟩, hwo⟩ := hwf
  obtain ⟨columns, hcols⟩ := renderColumns_spec driver hf query.Columns hwc "" 0
  obtain ⟨joins, hjoins⟩ :=
    renderJoins_spec driver hw hj query.Joins hwj (0 + (columnValues query.Columns).length)
  obtain ⟨w, hwhere⟩ := callWhereOperator_and_spec driver hw query.Where hww
    (0 + (columnValues query.Columns).length + (joinValues query.Joins).length)
  obtain ⟨o, horder⟩ := renderOrder_spec driver ho query.Order hwo
  simp only [Nat.zero_add] at hcols hjoins hwhere
  have hsel := select_eq driver query hcols hjoins hwhere
    (by intro h; simp [h, boundComparisons]) horder
  exact ⟨columns, joins, w, _, hcols, hjoins, hwhere, hsel⟩

/-- C3 at a query with a function column, a join with a filter and a top-level
filter: the values are in column, join, filter order. -/
theorem C3_select_value_order_witness :
    exampleDriver.HasPackageRegistries ∧ wellFormedQuery exampleQuery = true ∧
    (exampleDriver.Select exampleQuery).map (fun r => r.2) =
      some [.lit (.int 7), .lit (.int 9), .lit (.int 1), .lit (.int 2)] ∧
    ∃ columns joins w others,
      exampleDriver.renderColumns exampleQuery.Columns "" valueSequence =
        some (columns, columnValues exampleQuery.Columns,
          ⟨(columnValues exampleQuery.Columns).length⟩) ∧
      exampleDriver.renderJoins exampleQuery.Joins ⟨(columnValues exampleQuery.Columns).length⟩ =
        some (joins, joinValues exampleQuery.Joins,
          ⟨(columnValues exampleQuery.Columns).length + (joinValues exampleQuery.Joins).length⟩) ∧
      exampleDriver.callWhereOperator "and" none (.wheres exampleQuery.Where)
          ⟨(columnValues exampleQuery.Columns).length + (joinValues exampleQuery.Joins).length⟩ =
        some (w, (boundComparisons exampleQuery.Where).map Where.Value,
          ⟨(columnValues exampleQuery.Columns).length + (joinValues exampleQuery.Joins).length +
            (boundComparisons exampleQuery.Where).length⟩) ∧
      exampleDriver.Select exampleQuery =
        some ("SELECT " ++ stringsJoin columns ",\n\t" ++ " \nFROM " ++
            exampleDriver.serializer.SerializeTableSource exampleQuery.From ++ "\n" ++
            stringsJoin joins "\n" ++ "\n" ++
            stringsJoin (presentClauses
              ((decide (0 < exampleQuery.Where.length), "WHERE " ++ w) :: others)) "\n",
          columnValues exampleQuery.Columns ++ joinValues exampleQuery.Joins ++
            (boundComparisons exampleQuery.Where).map Where.Value) :=
  ⟨exampleDriver_registries, by decide, by rfl,
    C3_select_value_order exampleDriver exampleQuery exampleDriver_registries (by decide)⟩

/-- C4 fails on the code: with a limit of 5 the statement of `Select` ends in the
clause `LIMIT 5river`, not `LIMIT 5`; no value is added. -/
theorem C4_limit_clause_has_trailing_text :
    exampleDriver.Select exampleLimitQuery =
      some ("SELECT  \nFROM \"s\".\"t\" AS \"t\"\n\nLIMIT 5river", []) := by
  rfl

/-- C6 fails on the code: the three comparisons render to `"t"."a" = $1`,
`"t"."b" > $2` and `"t"."c" != $3`, and `AND(cmp1, OR(cmp2, cmp3))` renders to
`(cmp1AND(cmp2ORcmp3))`: `whereNested` joins with the bare keyword, without the
blanks of `(cmp1 AND (cmp2 OR cmp3))`. -/
theorem C6_nested_joins_without_blanks :
    exampleDriver.callWhereOperator "=" (some ⟨"t", "a"⟩) (.lit (.int 1)) ⟨0⟩ =
      some ("\"t\".\"a\" = $1", [.lit (.int 1)], ⟨1⟩) ∧
    exampleDriver.callWhereOperator ">" (some ⟨"t", "b"⟩) (.lit (.int 2)) ⟨1⟩ =
      some ("\"t\".\"b\" > $2", [.lit (.int 2)], ⟨2⟩) ∧
    exampleDriver.callWhereOperator "!=" (some ⟨"t", "c"⟩) (.lit (.str "x")) ⟨2⟩ =
      some ("\"t\".\"c\" != $3", [.lit (.str "x")], ⟨3⟩) ∧
    exampleDriver.callWhereOperator "and" none (.wheres exampleFilter) valueSequence =
      some ("(\"t\".\"a\" = $1AND(\"t\".\"b\" > $2OR\"t\".\"c\" != $3))",
        [.lit (.int 1), .lit (.int 2), .lit (.str "x")], ⟨3⟩) ∧
    (exampleDriver.callWhereOperator "and" none (.wheres exampleFilter) valueSequence).map
        (fun r => r.1) ≠
      some "(\"t\".\"a\" = $1 AND (\"t\".\"b\" > $2 OR \"t\".\"c\" != $3))" :=
  ⟨by rfl, by rfl, by rfl, by rfl, by decide⟩

/-- C7 fails on the code: the `not` combinator over the single comparison
`"t"."a" = $1` renders to `("t"."a" = $1)`; the keyword `NOT` is only the separator
of `strings.Join`, which a single child never shows. -/
theorem C7_not_of_one_child_has_no_keyword :
    exampleDriver.callWhereOperator "not" none (.wheres [exampleCmp1]) valueSequence =
      some ("(\"t\".\"a\" = $1)", [.lit (.int 1)], ⟨1⟩) ∧
    exampleDriver.callWhereOperator "not" none (.wheres [exampleCmp1, exampleCmp2])
        valueSequence =
      some ("(\"t\".\"a\" = $1NOT\"t\".\"b\" > $2)", [.lit (.int 1), .lit (.int 2)], ⟨2⟩) :=
  ⟨by rfl, by rfl⟩

/-- C8 fails on the code: each combinator over an empty child list renders to `()`,
not to `TRUE`, and a join with an empty filter list renders to
`INNER JOIN <target> ON ()`. -/
theorem C8_empty_combinator_renders_parentheses :
    exampleDriver.callWhereOperator "and" none (.wheres []) valueSequence =
      some ("()", [], valueSequence) ∧
    exampleDriver.callWhereOperator "or" none (.wheres []) valueSequence =
      some ("()", [], valueSequence) ∧
    exampleDriver.callWhereOperator "not" none (.wheres []) valueSequence =
      some ("()", [], valueSequence) ∧
    exampleDriver.renderJoins [⟨.InnerJoin, ⟨"", "u", "u"⟩, []⟩] valueSequence =
      some (["INNER JOIN \"public\".\"u\" AS \"u\" ON ()"], [], valueSequence) :=
  ⟨by rfl, by rfl, by rfl, by rfl⟩

/-- C9. For each of the comparison operators `=`, `!=`, `>`, `>=`, `<`, `<=` the
package registry holds `whereComparators(op)`, and that closure applied to a key and
a `nil` right operand returns the serialized key alone, no value, and the sequencer
as it was. -/
theorem C9_nil_operand_renders_key_alone (driver : CommonDriver) (op : String)
    (key : ColumnKey) (seq : ValueSequencer)
    (hreg : driver.whereOperators = whereOperators) (hop : isComparator op = true) :
    whereOperators op = some (.whereComparators op) ∧
    (WhereOperator.whereComparators op).call driver (some key) .nil seq =
      some (driver.serializer.ToSQL key, [], seq) ∧
    driver.callWhereOperator op (some key) .nil seq =
      some (driver.serializer.ToSQL key, [], seq) := by
  have h := (whereOperators_comparator hop).1
  refine ⟨h, by simp [WhereOperator.call], ?_⟩
  simp [CommonDriver.callWhereOperator, hreg, h, WhereOperator.call]

/-- C9 at the operator `>=` and the key `"t"."flag"`, after two tokens. -/
theorem C9_nil_operand_renders_key_alone_witness :
    exampleDriver.whereOperators = whereOperators ∧ isComparator ">=" = true ∧
    exampleDriver.callWhereOperator ">=" (some ⟨"t", "flag"⟩) .nil ⟨2⟩ =
      some ("\"t\".\"flag\"", [], ⟨2⟩) :=
  ⟨rfl, by decide,
    (C9_nil_operand_renders_key_alone exampleDriver ">=" ⟨"t", "flag"⟩ ⟨2⟩ rfl (by decide)).2.2⟩

/-- C10 fails on the code: an `in` node over two literals renders to
`"t"."a" IN ($1, $2)` with the literals as values, but an `in` node whose list holds
a `ColumnKey` makes `Postgres.renderWhere` panic: for such an element the code
asserts `where.Value.(queries.ColumnKey)` on the list itself. -/
theorem C10_in_list_with_column_key_panics :
    Postgres.renderWhere [.mk ⟨"t", "a"⟩ "in" (.list [.lit (.int 1), .lit (.int 2)]) []] "AND"
        valueSequence =
      some ("\"t\".\"a\" IN ($1, $2)", [.lit (.int 1), .lit (.int 2)], ⟨2⟩) ∧
    Postgres.renderWhere
        [.mk ⟨"t", "a"⟩ "in" (.list [.lit (.int 1), .columnKey ⟨"u", "b"⟩]) []] "AND"
        valueSequence = none ∧
    Postgres.renderWhere [.mk ⟨"t", "a"⟩ "in" (.list [.columnKey ⟨"u", "b"⟩]) []] "AND"
        valueSequence = none :=
  ⟨by rfl, by rfl, by rfl⟩

/-- C11 fails on the code: the package registry holds `"in": nil`, so an `in`
node over the literals 1 and 2 makes the filter renderer of `CommonDriver` panic,
called directly or below the `and` operator; nothing is rendered. -/
theorem C11_in_operator_is_nil :
    whereOperators "in" = none ∧
    exampleDriver.callWhereOperator "in" (some ⟨"t", "a"⟩)
        (.list [.lit (.int 1), .lit (.int 2)]) valueSequence = none ∧
    exampleDriver.callWhereOperator "and" none
        (.wheres [.mk ⟨"t", "a"⟩ "in" (.list [.lit (.int 1), .lit (.int 2)]) []])
        valueSequence = none :=
  ⟨by rfl, by rfl, by rfl⟩

/-- C12 fails on the code: an `in` node with an empty list is rendered by
`Postgres.renderWhere` with success, as the empty list form `"t"."a" IN ()`. -/
theorem C12_empty_in_list_renders_empty_parentheses :
    Postgres.renderWhere [.mk ⟨"t", "a"⟩ "in" (.list []) []] "AND" valueSequence =
      some ("\"t\".\"a\" IN ()", [], valueSequence) := by
  rfl

/-- C13 fails on the code: `Postgres.renderWhere` succeeds on nodes whose operator
its `switch` does not handle and leaves them out.  A single `>` filter renders to
`TRUE`, a `>` filter after an `=` filter leaves only the `=` filter, and a `not`
node or a node with an unknown operator is left out in the same way. -/
theorem C13_unhandled_operator_is_dropped :
    Postgres.renderWhere [.mk ⟨"t", "a"⟩ ">" (.lit (.int 5)) []] "AND" valueSequence =
      some ("TRUE", [], valueSequence) ∧
    Postgres.renderWhere
        [.mk ⟨"t", "a"⟩ "=" (.lit (.int 1)) [], .mk ⟨"t", "b"⟩ ">" (.lit (.int 5)) []] "AND"
        valueSequence =
      some ("\"t\".\"a\" = $1", [.lit (.int 1)], ⟨1⟩) ∧
    Postgres.renderWhere
        [.mk ⟨"", ""⟩ "not" .nil [.mk ⟨"t", "a"⟩ "=" (.lit (.int 1)) []]] "AND"
        valueSequence =
      some ("TRUE", [], valueSequence) ∧
    Postgres.renderWhere [.mk ⟨"t", "a"⟩ "like" (.lit (.str "x")) []] "AND" valueSequence =
      some ("TRUE", [], valueSequence) :=
  ⟨by rfl, by rfl, by rfl, by rfl⟩

/-! ## Registry lookup misses in `driver.go` -/

mutual
theorem nestedValue_miss (driver : CommonDriver) :
    ∀ (value : Value), value.missesWhereOperator driver.whereOperators = true →
      ∀ (linker : String) (key : Option ColumnKey) (seq : ValueSequencer),
        WhereOperator.call driver (.whereNested linker) key value seq = none
  | .wheres ws, h, linker, key, seq => by
    have := whereNestedLoop_miss driver ws (by simpa [Value.missesWhereOperator] using h) seq
    simp [WhereOperator.call, this]
  | .nil, h, _, _, _ => by simp [Value.missesWhereOperator] at h
  | .columnKey _, h, _, _, _ => by simp [Value.missesWhereOperator] at h
  | .lit _, h, _, _, _ => by simp [Value.missesWhereOperator] at h
  | .list _, h, _, _, _ => by simp [Value.missesWhereOperator] at h
theorem whereNestedLoop_miss (driver : CommonDriver) :
    ∀ (ws : List Where), missesWhereOperator driver.whereOperators ws = true →
      ∀ seq : ValueSequencer, whereNestedLoop driver ws seq = none
  | [], h, _ => by simp [missesWhereOperator] at h
  | (.mk key op value nested) :: rest, h, seq => by
    simp only [missesWhereOperator, Bool.or_eq_true] at h
    cases hop : driver.whereOperators op with
    | none => simp [whereNestedLoop, hop]
    | some o =>
      cases o with
      | whereComparators operator =>
        rw [hop] at h
        have hrest : missesWhereOperator driver.whereOperators rest = true := by
          simpa using h
        have := whereNestedLoop_miss driver rest hrest
        simp only [whereNestedLoop, hop]
        split
        · rfl
        · simp [this]
      | whereNested linker =>
        rw [hop] at h
        simp only [whereNestedLoop, hop]
        rcases h with h | h
        · simp [nestedValue_miss driver value h linker (some key) seq]
        · have := whereNestedLoop_miss driver rest h
          split
          · rfl
          · simp [this]
end

theorem callWhereOperator_and_miss (driver : CommonDriver) (ws : List Where)
    (h : missesWhereOperator driver.whereOperators ws = true) (seq : ValueSequencer) :
    driver.callWhereOperator "and" none (.wheres ws) seq = none := by
  unfold CommonDriver.callWhereOperator
  cases hop : driver.whereOperators "and" with
  | none => rfl
  | some o =>
    cases o with
    | whereComparators operator => simp [WhereOperator.call]
    | whereNested linker =>
      exact nestedValue_miss driver (.wheres ws)
        (by simpa [Value.missesWhereOperator] using h) linker none seq

mutual
theorem renderColumn_miss (driver : CommonDriver) :
    ∀ (column : Column), column.missesFunction driver.functionOperators = true →
      ∀ (pfx : String) (seq : ValueSequencer),
        CommonDriver.renderColumn driver column pfx seq = none
  | .mk als source (some children) function, h, pfx, seq => by
    have := renderColumns_miss driver children
      (by simpa [Column.missesFunction] using h) (columnAlias pfx als) seq
    simpa [CommonDriver.renderColumn] using this
  | .mk als (some src) none function, h, _, _ => by simp [Column.missesFunction] at h
  | .mk als none none (some fn), h, pfx, seq => by
    have hop : driver.functionOperators fn.Operator = none := by
      simpa [Column.missesFunction] using h
    simp [CommonDriver.renderColumn, hop]
  | .mk als none none none, h, _, _ => by simp [Column.missesFunction] at h
theorem renderColumns_miss (driver : CommonDriver) :
    ∀ (columns : List Column), missesFunction driver.functionOperators columns = true →
      ∀ (pfx : String) (seq : ValueSequencer),
        CommonDriver.renderColumns driver columns pfx seq = none
  | [], h, _, _ => by simp [missesFunction] at h
  | column :: rest, h, pfx, seq => by
    simp only [missesFunction, Bool.or_eq_true] at h
    simp only [CommonDriver.renderColumns]
    rcases h with h | h
    · simp [renderColumn_miss driver column h pfx seq]
    · have := renderColumns_miss driver rest h pfx
      split
      · rfl
      · simp [this]
end

theorem renderJoins_miss (driver : CommonDriver) :
    ∀ (joins : List Join),
      missesJoin driver.joinOperators driver.whereOperators joins = true →
      ∀ seq : ValueSequencer, driver.renderJoins joins seq = none := by
  intro joins
  induction joins with
  | nil => intro h; simp [missesJoin] at h
  | cons join rest ih =>
    intro h seq
    simp only [missesJoin, Bool.or_eq_true] at h
    simp only [CommonDriver.renderJoins]
    cases hop : driver.joinOperators join.Typ with
    | none => rfl
    | some o =>
      cases o with
      | commonJoin joinStr =>
        rcases h with (h | h) | h
        · simp [hop] at h
        · simp [JoinOperator.call, callWhereOperator_and_miss driver join.Where h seq]
        · have := ih h
          simp only []
          split
          · rfl
          · simp [this]

theorem renderOrder_miss (driver : CommonDriver) :
    ∀ (orders : List Order), missesOrder driver.orderOperators orders = true →
      driver.renderOrder orders = none := by
  have hloop : ∀ (orders : List Order), missesOrder driver.orderOperators orders = true →
      driver.renderOrderLoop orders = none := by
    intro orders
    induction orders with
    | nil => intro h; simp [missesOrder] at h
    | cons order rest ih =>
      intro h
      simp only [missesOrder, Bool.or_eq_true] at h
      simp only [CommonDriver.renderOrderLoop]
      cases hop : driver.orderOperators order.Typ with
      | none => rfl
      | some o =>
        rcases h with h | h
        · simp [hop] at h
        · simp [ih h]
  intro orders h
  simp [CommonDriver.renderOrder, hloop orders h]

theorem missesWhereOperator_length {reg : String → Option WhereOperator} {ws : List Where}
    (h : missesWhereOperator reg ws = true) : ws.length > 0 := by
  cases ws with
  | nil => simp [missesWhereOperator] at h
  | cons w rest => simp

theorem missesOrder_length {reg : OrderType → Option OrderOperator} {orders : List Order}
    (h : missesOrder reg orders = true) : orders.length > 0 := by
  cases orders with
  | nil => simp [missesOrder] at h
  | cons o rest => simp

/-- `Select` hands nothing over when a name of the query is missing from its
registry. -/
theorem select_miss (driver : CommonDriver) (query : SelectQuery)
    (h : driver.missesName query = true) : driver.Select query = none := by
  simp only [CommonDriver.missesName, Bool.or_eq_true] at h
  unfold CommonDriver.Select
  cases hc : driver.renderColumns query.Columns "" valueSequence with
  | none => simp only [hc]
  | some rc =>
    obtain ⟨columns, v1, s1⟩ := rc
    cases hj : driver.renderJoins query.Joins s1 with
    | none => simp only [hc, hj]
    | some rj =>
      obtain ⟨joins, v2, s2⟩ := rj
      rcases h with ((h | h) | h) | h
      · rw [renderColumns_miss driver query.Columns h "" valueSequence] at hc
        cases hc
      · rw [renderJoins_miss driver query.Joins h s1] at hj
        cases hj
      · simp [hc, hj, missesWhereOperator_length h,
          callWhereOperator_and_miss driver query.Where h s2]
      · simp only [hc, hj, missesOrder_length h, renderOrder_miss driver query.Order h,
          if_true]
        split <;> simp

/-- C14. For every driver and every query: when a function name reached by the
column renderer, a filter operator visited by the filter renderer, a join type or an
order direction is missing from the corresponding registry of the driver, then
`renderColumns`, the `whereNested` closures, `renderJoins` and `renderOrder`
respectively panic (the call of the `nil` function found in the map), and `Select`
hands over no statement and no value list. -/
theorem C14_registry_miss_aborts (driver : CommonDriver) (query : SelectQuery) :
    (missesFunction driver.functionOperators query.Columns = true →
      ∀ pfx seq, driver.renderColumns query.Columns pfx seq = none) ∧
    (missesWhereOperator driver.whereOperators query.Where = true →
      ∀ linker key seq,
        WhereOperator.call driver (.whereNested linker) key (.wheres query.Where) seq = none) ∧
    (missesJoin driver.joinOperators driver.whereOperators query.Joins = true →
      ∀ seq, driver.renderJoins query.Joins seq = none) ∧
    (missesOrder driver.orderOperators query.Order = true →
      driver.renderOrder query.Order = none) ∧
    (driver.missesName query = true → driver.Select query = none) :=
  ⟨fun h pfx seq => renderColumns_miss driver query.Columns h pfx seq,
    fun h linker key seq => nestedValue_miss driver (.wheres query.Where)
      (by simpa [Value.missesWhereOperator] using h) linker key seq,
    fun h seq => renderJoins_miss driver query.Joins h seq,
    fun h => renderOrder_miss driver query.Order h,
    fun h => select_miss driver query h⟩

/-- C14 at a query whose filter uses the operator `like`. -/
theorem C14_registry_miss_aborts_witness :
    missesWhereOperator exampleDriver.whereOperators exampleUnknownOperatorQuery.Where = true ∧
    exampleDriver.missesName exampleUnknownOperatorQuery = true ∧
    WhereOperator.call exampleDriver (.whereNested "AND") none
      (.wheres exampleUnknownOperatorQuery.Where) valueSequence = none ∧
    exampleDriver.Select exampleUnknownOperatorQuery = none :=
  ⟨by decide, by decide,
    (C14_registry_miss_aborts exampleDriver exampleUnknownOperatorQuery).2.1 (by decide)
      "AND" none valueSequence,
    (C14_registry_miss_aborts exampleDriver exampleUnknownOperatorQuery).2.2.2.2 (by decide)⟩

/-- C15 fails on the code: for a join of a type other than inner/left/right
`Postgres.renderJoin` returns text, with an empty join keyword, and for an order
entry of a direction other than ascending/descending `Postgres.renderOrder` returns
text, with an empty direction keyword. -/
theorem C15_unknown_join_type_and_direction_render_text :
    Postgres.renderJoin ⟨.other "full", ⟨"", "u", "u"⟩, []⟩ valueSequence =
      some (" \"public\".\"u\" AS \"u\" ON TRUE", [], valueSequence) ∧
    Postgres.renderOrder [⟨⟨"t", "a"⟩, .other "random"⟩] = "\"t\".\"a\" " :=
  ⟨by rfl, by decide⟩

/-- C16 fails on the code: `Postgres.Select` never reads the grouping keys, its
result is the same whatever they are; for a query with the grouping key `"t"."a"`
the statement goes from the `WHERE` clause to the `ORDER BY` clause without a
`GROUP BY` clause, while `CommonDriver.Select` has one for the same query. -/
theorem C16_postgres_select_has_no_group_by :
    (∀ (helpers : PostgresHelpers) (query : SelectQuery) (groups : List ColumnKey),
      Postgres.Select helpers { query with Group := groups } =
        Postgres.Select helpers query) ∧
    Postgres.Select exampleHelpers exampleGroupQuery =
      some ("SELECT \"t\".\"a\" AS \"a\" \nFROM \"s\".\"t\" AS \"t\"\n\n" ++
        "WHERE \"t\".\"a\" = $1\nORDER BY \"t\".\"a\" ASC", [.lit (.int 1)]) ∧
    exampleDriver.Select exampleGroupQuery =
      some ("SELECT \"t\".\"a\" AS \"a\" \nFROM \"s\".\"t\" AS \"t\"\n\n" ++
        "WHERE (\"t\".\"a\" = $1)\nGROUP BY \"t\".\"a\"\nORDER BY \"t\".\"a\" ASC",
        [.lit (.int 1)]) :=
  ⟨fun _ _ _ => rfl, by rfl, by rfl⟩

/-! ## The column renderer as a flattening -/

theorem renderLeaves_append (driver : CommonDriver) (aliasOf : List String → String) :
    ∀ (l1 l2 : List (List String × Column)) (seq : ValueSequencer),
      driver.renderLeaves aliasOf (l1 ++ l2) seq =
        match driver.renderLeaves aliasOf l1 seq with
        | none => none
        | some (c, v, seq1) =>
          match driver.renderLeaves aliasOf l2 seq1 with
          | none => none
          | some (c2, v2, seq2) => some (c ++ c2, v ++ v2, seq2) := by
  intro l1
  induction l1 with
  | nil =>
    intro l2 seq
    simp only [List.nil_append, CommonDriver.renderLeaves]
    cases driver.renderLeaves aliasOf l2 seq with
    | none => rfl
    | some r => obtain ⟨c2, v2, seq2⟩ := r; simp
  | cons pl rest ih =>
    intro l2 seq
    obtain ⟨path, leaf⟩ := pl
    have hcons : (path, leaf) :: rest ++ l2 = (path, leaf) :: (rest ++ l2) := rfl
    rw [hcons, CommonDriver.renderLeaves, CommonDriver.renderLeaves]
    cases driver.renderLeaf (aliasOf path) leaf seq with
    | none => rfl
    | some r =>
      obtain ⟨c, v, seq1⟩ := r
      simp only [ih l2 seq1]
      cases driver.renderLeaves aliasOf rest seq1 with
      | none => rfl
      | some r1 =>
        obtain ⟨c1, v1, s1⟩ := r1
        simp only []
        cases driver.renderLeaves aliasOf l2 s1 with
        | none => rfl
        | some r2 => obtain ⟨c2, v2, s2⟩ := r2; simp

mutual
theorem renderColumn_eq_leaves (driver : CommonDriver) (aliasOf : List String → String) :
    ∀ (column : Column) (q : List String) (p : String) (seq : ValueSequencer),
      (∀ path, aliasOf (q ++ path) = path.foldl columnAlias p) →
      CommonDriver.renderColumn driver column p seq =
        driver.renderLeaves aliasOf (column.leaves q) seq
  | .mk als source (some children) function, q, p, seq, h => by
    have := renderColumns_eq_leaves driver aliasOf children (q ++ [als]) (columnAlias p als) seq
      (by intro path; simpa using h (als :: path))
    simpa [CommonDriver.renderColumn, Column.leaves] using this
  | .mk als (some src) none function, q, p, seq, h => by
    have ha : aliasOf (q ++ [als]) = columnAlias p als := by simpa using h [als]
    simp [CommonDriver.renderColumn, Column.leaves, CommonDriver.renderLeaves,
      CommonDriver.renderLeaf, Column.Source, Column.Nested, Column.Function, ha]
  | .mk als none none (some fn), q, p, seq, h => by
    have ha : aliasOf (q ++ [als]) = columnAlias p als := by simpa using h [als]
    simp only [CommonDriver.renderColumn, Column.leaves, CommonDriver.renderLeaves,
      CommonDriver.renderLeaf, Column.Source, Column.Function, ha]
    cases driver.functionOperators fn.Operator with
    | none => rfl
    | some op => simp
  | .mk als none none none, q, p, seq, h => by
    simp [CommonDriver.renderColumn, Column.leaves, CommonDriver.renderLeaves,
      CommonDriver.renderLeaf, Column.Source, Column.Function]
theorem renderColumns_eq_leaves (driver : CommonDriver) (aliasOf : List String → String) :
    ∀ (columns : List Column) (q : List String) (p : String) (seq : ValueSequencer),
      (∀ path, aliasOf (q ++ path) = path.foldl columnAlias p) →
      CommonDriver.renderColumns driver columns p seq =
        driver.renderLeaves aliasOf (columnLeaves q columns) seq
  | [], q, p, seq, _ => by simp [CommonDriver.renderColumns, columnLeaves,
      CommonDriver.renderLeaves]
  | column :: rest, q, p, seq, h => by
    simp only [CommonDriver.renderColumns, columnLeaves, renderLeaves_append,
      renderColumn_eq_leaves driver aliasOf column q p seq h]
    cases driver.renderLeaves aliasOf (column.leaves q) seq with
    | none => rfl
    | some r =>
      obtain ⟨c, v, seq1⟩ := r
      simp only [renderColumns_eq_leaves driver aliasOf rest q p seq1 h]
end

theorem string_append_ne_empty {a : String} (b : String) (h : a ≠ "") : a ++ b ≠ "" := by
  intro hab
  apply h
  have hd := congrArg String.data hab
  rw [String.data_append] at hd
  exact String.ext (List.append_eq_nil.1 hd).1

theorem foldl_columnAlias_of_ne :
    ∀ (path : List String) (p : String), p ≠ "" →
      path.foldl columnAlias p = stringsJoin (p :: path) "." := by
  intro path
  induction path with
  | nil => intro p _; simp [stringsJoin]
  | cons a rest ih =>
    intro p hp
    have hne : p ++ "." ++ a ≠ "" :=
      string_append_ne_empty _ (string_append_ne_empty _ hp)
    simp only [List.foldl_cons, columnAlias, if_neg hp]
    rw [ih _ hne, stringsJoin_cons, stringsJoin_cons p, stringsJoin_cons a]
    simp [String.append_assoc]

/-- The alias that the recursion builds is the dotted path whenever the prefix is
not empty, the first alias is not empty, or there is one alias only. -/
theorem foldedAlias_eq_dottedAlias (pfx a : String) (rest : List String)
    (h : pfx ≠ "" ∨ a ≠ "" ∨ rest = []) :
    foldedAlias pfx (a :: rest) = dottedAlias pfx (a :: rest) := by
  unfold foldedAlias dottedAlias
  by_cases hp : pfx = ""
  · subst hp
    simp only [List.foldl_cons, columnAlias, if_true]
    rcases h with h | h | h
    · exact absurd rfl h
    · rw [foldl_columnAlias_of_ne rest a h]; simp
    · subst h; simp [stringsJoin]
  · rw [foldl_columnAlias_of_ne _ pfx hp, if_neg hp, stringsJoin_cons]
    simp [String.append_assoc]

/-- C17, amended. For every column tree and prefix, `renderColumns` returns the
contributions of the leaves of the tree, depth first and in declaration order: a
leaf with a source field contributes one serialized column, a leaf with a function
its rendered call with an alias (and the values of the call), a leaf with neither
nothing, and a column with nested columns the contributions of its children.  The
output alias of a leaf reached through the aliases `a1, ..., an` is what attaching
them in turn to the prefix gives (`p.a`, or `a` while `p` is empty); that is
`a1.a2. ... .an`, with `prefix.` in front when the prefix is not empty, whenever the
prefix is not empty, `a1` is not empty, or `n = 1`. -/
theorem C17_render_columns_flattens_leaves (driver : CommonDriver) (columns : List Column)
    (pfx : String) (seq : ValueSequencer) :
    driver.renderColumns columns pfx seq =
      driver.renderLeaves (foldedAlias pfx) (columnLeaves [] columns) seq ∧
    (∀ a rest, (pfx ≠ "" ∨ a ≠ "" ∨ rest = []) →
      foldedAlias pfx (a :: rest) = dottedAlias pfx (a :: rest)) :=
  ⟨renderColumns_eq_leaves driver (foldedAlias pfx) columns [] pfx seq (fun _ => rfl),
    fun a rest h => foldedAlias_eq_dottedAlias pfx a rest h⟩

/-- C17 at a tree with a source leaf, a nested function leaf and a void column: the
leaves, their aliases and the rendered list. -/
theorem C17_render_columns_flattens_leaves_witness :
    (columnLeaves [] exampleColumns).map (fun pl => dottedAlias "" pl.1) =
      ["a", "stats.n", "stats.void"] ∧
    exampleDriver.renderColumns exampleColumns "" valueSequence =
      some (["\"t\".\"a\" AS \"a\"", "COUNT(DISTINCT \"t\".\"b\", $1) AS \"stats.n\""],
        [.lit (.int 7)], ⟨1⟩) ∧
    exampleDriver.renderColumns exampleColumns "" valueSequence =
      exampleDriver.renderLeaves (foldedAlias "") (columnLeaves [] exampleColumns)
        valueSequence ∧
    foldedAlias "" ("stats" :: ["n"]) = dottedAlias "" ("stats" :: ["n"]) :=
  ⟨by decide, by rfl,
    (C17_render_columns_flattens_leaves exampleDriver exampleColumns "" valueSequence).1,
    (C17_render_columns_flattens_leaves exampleDriver exampleColumns "" valueSequence).2
      "stats" ["n"] (Or.inr (Or.inl (by decide)))⟩

/-- C17 as stated fails: below a top-level column with an empty alias and an empty
prefix, the source leaf `x` gets the output alias `x`, not the dotted path `.x`, so
the rendered list is not the flattening with dotted aliases. -/
theorem C17_dotted_alias_counterexample :
    exampleDriver.renderColumns exampleEmptyAliasColumns "" valueSequence =
      some (["\"t\".\"x\" AS \"x\""], [], valueSequence) ∧
    exampleDriver.renderLeaves (dottedAlias "") (columnLeaves [] exampleEmptyAliasColumns)
        valueSequence =
      some (["\"t\".\"x\" AS \".x\""], [], valueSequence) ∧
    exampleDriver.renderColumns exampleEmptyAliasColumns "" valueSequence ≠
      exampleDriver.renderLeaves (dottedAlias "") (columnLeaves [] exampleEmptyAliasColumns)
        valueSequence :=
  ⟨by rfl, by rfl,
    fun h => absurd (congrArg (Option.map (fun r => r.1)) h) (by decide)⟩

/-! ## The function renderer -/

theorem argumentText_cons_columnKey (serializer : SQLSerializer) (n : Nat) (c : ColumnKey)
    (rest : List Value) (i : Nat) :
    argumentText serializer n (.columnKey c :: rest) (i + 1) =
      argumentText serializer n rest i := by
  simp [argumentText, functionValues, Value.isColumnKey]

theorem argumentText_cons_bound (serializer : SQLSerializer) (n : Nat) (v : Value)
    (rest : List Value) (i : Nat) (hv : v.isColumnKey = false) :
    argumentText serializer n (v :: rest) (i + 1) =
      argumentText serializer (n + 1) rest i := by
  have hlen : n + (functionValues (v :: List.take i rest)).length + 1 =
      n + 1 + (functionValues (List.take i rest)).length + 1 := by
    simp [functionValues, hv]; omega
  simp only [argumentText, List.getElem?_cons_succ, List.take_succ_cons, hlen]

theorem commonFunctionLoop_bound (driver : CommonDriver) (v : Value) (rest : List Value)
    (seq : ValueSequencer) (hv : v.isColumnKey = false) :
    commonFunctionLoop driver (v :: rest) seq =
      (seq.call.1 :: (commonFunctionLoop driver rest seq.call.2).1,
        v :: (commonFunctionLoop driver rest seq.call.2).2.1,
        (commonFunctionLoop driver rest seq.call.2).2.2) := by
  cases v with
  | columnKey c => simp [Value.isColumnKey] at hv
  | nil => simp [commonFunctionLoop]
  | lit l => simp [commonFunctionLoop]
  | list elems => simp [commonFunctionLoop]
  | wheres ws => simp [commonFunctionLoop]

theorem argumentText_zero_bound (serializer : SQLSerializer) (n : Nat) (v : Value)
    (rest : List Value) (hv : v.isColumnKey = false) :
    argumentText serializer n (v :: rest) 0 = some ("$" ++ toString (n + 1)) := by
  cases v with
  | columnKey c => simp [Value.isColumnKey] at hv
  | nil => simp [argumentText, functionValues]
  | lit l => simp [argumentText, functionValues]
  | list elems => simp [argumentText, functionValues]
  | wheres ws => simp [argumentText, functionValues]

/-- The argument texts of the loop of `commonFunction`, one per argument. -/
theorem commonFunctionLoop_texts (driver : CommonDriver) :
    ∀ (args : List Value) (n : Nat) (i : Nat),
      (commonFunctionLoop driver args ⟨n⟩).1[i]? = argumentText driver.serializer n args i := by
  intro args
  induction args with
  | nil => intro n i; simp [commonFunctionLoop, argumentText]
  | cons v rest ih =>
    intro n i
    by_cases hv : v.isColumnKey = true
    · cases v with
      | columnKey c =>
        cases i with
        | zero => simp [commonFunctionLoop, argumentText]
        | succ i =>
          rw [argumentText_cons_columnKey, ← ih n i]
          simp [commonFunctionLoop]
      | nil => simp [Value.isColumnKey] at hv
      | lit l => simp [Value.isColumnKey] at hv
      | list elems => simp [Value.isColumnKey] at hv
      | wheres ws => simp [Value.isColumnKey] at hv
    · have hv : v.isColumnKey = false := by simpa using hv
      rw [commonFunctionLoop_bound driver v rest _ hv]
      cases i with
      | zero =>
        rw [argumentText_zero_bound _ _ _ _ hv]
        simp [ValueSequencer.call]
      | succ i =>
        rw [argumentText_cons_bound _ _ _ _ _ hv, ← ih (n + 1) i]
        simp [ValueSequencer.call]

/-- C18. For every keyword, modifier and argument list, the closure
`commonFunction(KEYWORD, MODIFIER)` called after `n` tokens returns the text
`KEYWORD(MODIFIER arg, ..., arg)`, where a `ColumnKey` argument is its quoted
identifier and any other argument the next token, returns as values exactly the
arguments that are not `ColumnKey`s in argument order, and calls the sequencer once
per value.  The registry entry `countDist` is `commonFunction("COUNT", "DISTINCT")`,
and over a single `ColumnKey` it renders `COUNT(DISTINCT <quoted key>)` with no
value and the sequencer as it was. -/
theorem C18_common_function (driver : CommonDriver) (fnName extra : String)
    (args : List Value) (n : Nat) :
    (∃ strs,
      (FunctionOperator.commonFunction fnName extra).call driver args ⟨n⟩ =
        (fnName ++ "(" ++ extra ++ " " ++ stringsJoin strs ", " ++ ")", functionValues args,
          ⟨n + (functionValues args).length⟩) ∧
      ∀ i, strs[i]? = argumentText driver.serializer n args i) ∧
    functionOperators "countDist" = some (.commonFunction "COUNT" "DISTINCT") ∧
    (∀ (k : ColumnKey) (seq : ValueSequencer),
      (FunctionOperator.commonFunction "COUNT" "DISTINCT").call driver [.columnKey k] seq =
        ("COUNT(DISTINCT " ++ driver.serializer.SerializeColumnKey k ++ ")", [], seq)) := by
  refine ⟨?_, rfl, ?_⟩
  · obtain ⟨strs, h⟩ := commonFunctionLoop_spec driver args n
    refine ⟨strs, by simp [FunctionOperator.call, h], fun i => ?_⟩
    have := commonFunctionLoop_texts driver args n i
    rwa [h] at this
  · intro k seq
    simp [FunctionOperator.call, commonFunctionLoop, stringsJoin, String.append_assoc]

/-! ## Parentheses of the rendered filter -/

theorem scanParens_free (pre : List Char) (h1 : '(' ∉ pre) (h2 : ')' ∉ pre)
    (rest : List Char) (st : ParenState) :
    scanParens (pre ++ rest) st = scanParens rest st := by
  induction pre with
  | nil => rfl
  | cons c cs ih =>
    have hc1 : c ≠ '(' := fun e => h1 (by simp [e])
    have hc2 : c ≠ ')' := fun e => h2 (by simp [e])
    simp only [List.cons_append, scanParens, if_neg hc1, if_neg hc2]
    exact ih (fun e => h1 (List.mem_cons_of_mem _ e)) (fun e => h2 (List.mem_cons_of_mem _ e))

theorem parenFree_append {a b : String} (ha : ParenFree a) (hb : ParenFree b) :
    ParenFree (a ++ b) := by
  unfold ParenFree at *
  rw [String.data_append]
  simp only [List.mem_append, not_or]
  exact ⟨⟨ha.1, hb.1⟩, ⟨ha.2, hb.2⟩⟩

theorem parens_free {s : String} (h : ParenFree s) : Parens s 0 0 := by
  intro st rest hst
  rw [scanParens_free s.data h.1 h.2]
  have h0 : max st.maxDepth (st.depth + 0) = st.maxDepth := by omega
  rw [h0]
  rfl

theorem parens_append {a b : String} {da db ca cb : Nat} (ha : Parens a da ca)
    (hb : Parens b db cb) : Parens (a ++ b) (max da db) (ca + cb) := by
  intro st rest hst
  rw [String.data_append, List.append_assoc, ha st _ hst,
    hb _ rest (by simp only []; omega)]
  have h1 : max (max st.maxDepth (st.depth + da)) (st.depth + db) =
      max st.maxDepth (st.depth + max da db) := by omega
  simp only [h1, Nat.add_assoc]

theorem parens_wrap {t : String} {d c : Nat} (ht : Parens t d c) :
    Parens ("(" ++ t ++ ")") (d + 1) (c + 1) := by
  intro st rest hst
  have hdata : ("(" ++ t ++ ")").data ++ rest = '(' :: (t.data ++ ')' :: rest) := by
    simp only [String.data_append, List.append_assoc]
    rfl
  rw [hdata]
  simp only [scanParens, if_true]
  rw [ht _ _ (by simp only []; omega)]
  have hne : ¬ (')' = '(') := by decide
  simp only [scanParens, if_neg hne, if_true]
  have h0 : ¬ (st.depth + 1 = 0) := by omega
  rw [if_neg h0]
  have h1 : max (max st.maxDepth (st.depth + 1)) (st.depth + 1 + d) =
      max st.maxDepth (st.depth + (d + 1)) := by omega
  have h2 : st.opened + 1 + c = st.opened + (c + 1) := by omega
  simp only [h1, h2, Nat.add_sub_cancel]

theorem parens_join_cons {f : String} {fs : List String} {linker : String}
    {df cf d c : Nat} (hf : Parens f df cf) (hfs : Parens (stringsJoin fs linker) d c)
    (hl : ParenFree linker) : Parens (stringsJoin (f :: fs) linker) (max df d) (cf + c) := by
  rw [stringsJoin_cons]
  refine parens_append hf ?_
  by_cases hnil : fs = []
  · subst hnil
    simpa [stringsJoin] using hfs
  · rw [if_neg hnil]
    have := parens_append (parens_free hl) hfs
    simpa using this

theorem parenFree_token (n : Nat) : ParenFree ("$" ++ toString n) := by
  have hdig : ∀ c ∈ (toString n).data, c ≠ '(' ∧ c ≠ ')' := by
    intro c hc
    have := toString_isDigit n c hc
    constructor <;> (intro e; subst e; revert this; decide)
  unfold ParenFree
  rw [String.data_append]
  have h1 : "$".data = ['$'] := rfl
  simp only [h1, List.cons_append, List.nil_append, List.mem_cons, not_or]
  exact ⟨⟨by decide, fun h => (hdig _ h).1 rfl⟩, ⟨by decide, fun h => (hdig _ h).2 rfl⟩⟩

theorem parenFree_comparator {op : String} (h : isComparator op = true) : ParenFree op := by
  simp only [isComparator, Bool.or_eq_true, beq_iff_eq] at h
  rcases h with ((((rfl | rfl) | rfl) | rfl) | rfl) | rfl <;> decide

theorem parenFree_linker {op linker : String} (h : isCombinator op = true)
    (hop : whereOperators op = some (.whereNested linker)) : ParenFree linker := by
  simp only [isCombinator, Bool.or_eq_true, beq_iff_eq] at h
  rcases h with (rfl | rfl) | rfl
  · have : linker = "AND" := by
      have h2 : whereOperators "and" = some (.whereNested "AND") := rfl
      rw [h2] at hop; cases hop; rfl
    subst this; decide
  · have : linker = "OR" := by
      have h2 : whereOperators "or" = some (.whereNested "OR") := rfl
      rw [h2] at hop; cases hop; rfl
    subst this; decide
  · have : linker = "NOT" := by
      have h2 : whereOperators "not" = some (.whereNested "NOT") := rfl
      rw [h2] at hop; cases hop; rfl
    subst this; decide

theorem whereComparators_parens (driver : CommonDriver) (key : ColumnKey) (op : String)
    (value : Value) (seq : ValueSequencer) (hop : isComparator op = true)
    (hs : comparisonKeysParenFree driver.serializer key value = true) :
    ∃ f vs s1, WhereOperator.call driver (.whereComparators op) (some key) value seq =
        some (f, vs, s1) ∧ Parens f 0 0 := by
  simp only [comparisonKeysParenFree, Bool.and_eq_true, decide_eq_true_eq] at hs
  have hk := hs.1
  have ho := parenFree_comparator hop
  have hsp : ParenFree " " := by decide
  have hpre : ParenFree (driver.serializer.ToSQL key ++ " " ++ op ++ " ") :=
    parenFree_append (parenFree_append (parenFree_append hk hsp) ho) hsp
  have htok : ParenFree seq.call.1 := parenFree_token _
  cases value with
  | nil => exact ⟨_, _, _, rfl, parens_free hk⟩
  | columnKey c =>
    have hc : ParenFree (driver.serializer.SerializeColumnKey c) := by
      simpa [Value.keyParenFree] using hs.2
    exact ⟨_, _, _, rfl, parens_free (parenFree_append hpre hc)⟩
  | lit l => exact ⟨_, _, _, rfl, parens_free (parenFree_append hpre htok)⟩
  | list elems => exact ⟨_, _, _, rfl, parens_free (parenFree_append hpre htok)⟩
  | wheres ws => exact ⟨_, _, _, rfl, parens_free (parenFree_append hpre htok)⟩

mutual
theorem nestedValue_parens (driver : CommonDriver)
    (hreg : driver.whereOperators = whereOperators) :
    ∀ (value : Value), value.wellFormedChildren = true →
      value.keysParenFree driver.serializer = true → ∀ seq : ValueSequencer,
      ∃ ws fs vs s1, value = .wheres ws ∧
        whereNestedLoop driver ws seq = some (fs, vs, s1) ∧
        ∀ linker, ParenFree linker →
          Parens (stringsJoin fs linker) value.combinatorDepth value.combinatorCount
  | .wheres ws, h, hs, seq => by
    have hws : wellFormedWheres ws = true := by simpa [Value.wellFormedChildren] using h
    have hps : whereKeysParenFree driver.serializer ws = true := by
      simpa [Value.keysParenFree] using hs
    obtain ⟨fs, vs, s1, h1, h2⟩ := whereNestedLoop_parens driver hreg ws hws hps seq
    exact ⟨ws, fs, vs, s1, rfl, h1,
      by simpa [Value.combinatorDepth, Value.combinatorCount] using h2⟩
  | .nil, h, _, _ => by simp [Value.wellFormedChildren] at h
  | .columnKey _, h, _, _ => by simp [Value.wellFormedChildren] at h
  | .lit _, h, _, _ => by simp [Value.wellFormedChildren] at h
  | .list _, h, _, _ => by simp [Value.wellFormedChildren] at h
/-- The filters of the loop of `whereNested`, joined by a linker without
parentheses, hold one pair of parentheses per combinator node and nest them as deep
as the combinators. -/
theorem whereNestedLoop_parens (driver : CommonDriver)
    (hreg : driver.whereOperators = whereOperators) :
    ∀ (ws : List Where), wellFormedWheres ws = true →
      whereKeysParenFree driver.serializer ws = true → ∀ seq : ValueSequencer,
      ∃ fs vs s1, whereNestedLoop driver ws seq = some (fs, vs, s1) ∧
        ∀ linker, ParenFree linker →
          Parens (stringsJoin fs linker) (combinatorDepth ws) (combinatorCount ws)
  | [], _, _, seq =>
    ⟨[], [], seq, rfl, fun _ _ => by
      simpa [stringsJoin, combinatorDepth, combinatorCount] using
        parens_free (s := "") (by decide)⟩
  | (.mk key op value nested) :: rest, h, hs, seq => by
    simp only [wellFormedWheres, Bool.and_eq_true] at h
    simp only [whereKeysParenFree, Bool.and_eq_true] at hs
    obtain ⟨hhead, hrest⟩ := h
    obtain ⟨hshead, hsrest⟩ := hs
    by_cases hc : isCombinator op = true
    · rw [if_pos hc] at hhead hshead
      obtain ⟨linker0, hop, _⟩ := whereOperators_combinator hc
      have hl0 := parenFree_linker hc hop
      obtain ⟨ws, fs0, vs0, s0, hv, hloop, hinv⟩ :=
        nestedValue_parens driver hreg value hhead hshead seq
      obtain ⟨fs, vs, s1, hrestloop, hrestinv⟩ :=
        whereNestedLoop_parens driver hreg rest hrest hsrest s0
      refine ⟨("(" ++ stringsJoin fs0 linker0 ++ ")") :: fs, vs0 ++ vs, s1, ?_, ?_⟩
      · rw [hv]
        simp [whereNestedLoop, hreg, hop, WhereOperator.call, hloop, hrestloop]
      · intro linker hl
        have := parens_join_cons (parens_wrap (hinv linker0 hl0)) (hrestinv linker hl) hl
        simpa [combinatorDepth, combinatorCount, hc, Nat.add_comm] using this
    · rw [if_neg hc] at hhead hshead
      obtain ⟨hop, _⟩ := whereOperators_comparator hhead
      obtain ⟨f, vs0, s0, hcall, hinv⟩ :=
        whereComparators_parens driver key op value seq hhead hshead
      obtain ⟨fs, vs, s1, hrestloop, hrestinv⟩ :=
        whereNestedLoop_parens driver hreg rest hrest hsrest s0
      refine ⟨f :: fs, vs0 ++ vs, s1, ?_, ?_⟩
      · simp [whereNestedLoop, hreg, hop, hcall, hrestloop]
      · intro linker hl
        have := parens_join_cons hinv (hrestinv linker hl) hl
        simpa [combinatorDepth, combinatorCount, hc] using this
end

theorem parenProfile_of_parens {text : String} {d c : Nat} (h : Parens text d c) :
    parenProfile text = some (d, c) := by
  have := h ⟨0, 0, 0⟩ [] (Nat.le_refl 0)
  simp only [List.append_nil] at this
  simp [parenProfile, this, scanParens]

/-- C19. For every filter tree whose root is an `and`, `or` or `not` combinator over
a list of well-formed nodes (combinators over lists of nodes, comparisons with one
of the six operators), rendered with the package registry, when the serialized keys
of the comparisons of this tree hold no parenthesis: the render succeeds, the
parentheses of the text are balanced, there is exactly one pair per combinator node
(the root and the combinators below it), and the maximum nesting depth is the
combinator depth of the tree. -/
theorem C19_parentheses_match_combinators (driver : CommonDriver) (op : String)
    (ws : List Where) (seq : ValueSequencer)
    (hreg : driver.whereOperators = whereOperators) (hop : isCombinator op = true)
    (hwf : wellFormedWheres ws = true)
    (hs : whereKeysParenFree driver.serializer ws = true) :
    ∃ text values seq1,
      driver.callWhereOperator op none (.wheres ws) seq = some (text, values, seq1) ∧
      parenProfile text = some (combinatorDepth ws + 1, combinatorCount ws + 1) := by
  obtain ⟨linker, hlook, _⟩ := whereOperators_combinator hop
  have hl := parenFree_linker hop hlook
  obtain ⟨fs, vs, s1, hloop, hinv⟩ := whereNestedLoop_parens driver hreg ws hwf hs seq
  refine ⟨"(" ++ stringsJoin fs linker ++ ")", vs, s1, ?_,
    parenProfile_of_parens (parens_wrap (hinv linker hl))⟩
  simp [CommonDriver.callWhereOperator, hreg, hlook, WhereOperator.call, hloop]

/-- C19 at the filter `AND(cmp1, OR(cmp2, cmp3))` with the quoting serializer: the
keys of the tree hold no parenthesis, the text
`("t"."a" = $1AND("t"."b" > $2OR"t"."c" != $3))` has two pairs, nested two deep. -/
theorem C19_parentheses_match_combinators_witness :
    exampleDriver.whereOperators = whereOperators ∧ isCombinator "and" = true ∧
    wellFormedWheres exampleFilter = true ∧
    whereKeysParenFree exampleDriver.serializer exampleFilter = true ∧
    combinatorDepth exampleFilter + 1 = 2 ∧ combinatorCount exampleFilter + 1 = 2 ∧
    parenProfile "(\"t\".\"a\" = $1AND(\"t\".\"b\" > $2OR\"t\".\"c\" != $3))" = some (2, 2) ∧
    ∃ text values seq1,
      exampleDriver.callWhereOperator "and" none (.wheres exampleFilter) valueSequence =
        some (text, values, seq1) ∧
      parenProfile text =
        some (combinatorDepth exampleFilter + 1, combinatorCount exampleFilter + 1) :=
  ⟨rfl, by decide, by decide, by decide, by decide, by decide, by decide,
    C19_parentheses_match_combinators exampleDriver "and" exampleFilter valueSequence
      rfl (by decide) (by decide) (by decide)⟩

/-! ## The filter renderer of `postgres.go`: invariants -/

theorem placeholderRange_zero (n : Nat) : placeholderRange n 0 = [] := rfl

theorem placeholderRange_succ (n k : Nat) :
    placeholderRange n (k + 1) = ("$" ++ toString (n + 1)) :: placeholderRange (n + 1) k := by
  have h := placeholderRange_add n 1 k
  rw [Nat.add_comm 1 k] at h
  rw [h]
  have h1 : placeholderRange n 1 = ["$" ++ toString (n + 1)] := rfl
  rw [h1]
  rfl

theorem goodLinker_comma : GoodLinker ", " :=
  ⟨by decide, by decide, by intro c hc; cases hc; decide⟩

theorem goodLinker_spaced {linker : String} (h : Clean linker) :
    GoodLinker (" " ++ linker ++ " ") := by
  refine ⟨clean_append (clean_append (by decide) h) (by decide), ?_, ?_⟩
  · simp only [String.data_append]
    intro hnil
    have hsp : " ".data = [' '] := rfl
    simp [hsp] at hnil
  · simp only [String.data_append]
    have hsp : " ".data = [' '] := rfl
    intro c hc
    simp only [hsp, List.cons_append, List.nil_append, List.head?_cons,
      Option.some.injEq] at hc
    subst hc
    decide

/-- The tokens of an `in` list, joined by commas, are their own placeholders. -/
theorem emits_placeholderRange (k : Nat) :
    ∀ n, Emits (stringsJoin (placeholderRange n k) ", ") (placeholderRange n k) := by
  induction k with
  | zero => intro n; simpa [placeholderRange, stringsJoin] using emits_clean (s := "") (by decide)
  | succ k ih =>
    intro n
    rw [placeholderRange_succ]
    have := emits_join_cons (emits_token (n + 1)) (ih (n + 1)) goodLinker_comma
    simpa using this

/-- The inner loop of case `"in"` over the node's own list: it succeeds only when
no element is a `ColumnKey`, binds every element and issues one token each. -/
theorem renderInLoop_spec (es : List Value) :
    ∀ (elems : List Value) (n : Nat) (inValues : List String) (vals : List Value)
      (s1 : ValueSequencer),
      Postgres.renderInLoop (.list es) elems ⟨n⟩ = some (inValues, vals, s1) →
      vals = elems ∧ s1 = ⟨n + elems.length⟩ ∧ inValues = placeholderRange n elems.length := by
  intro elems
  induction elems with
  | nil =>
    intro n inValues vals s1 h
    simp only [Postgres.renderInLoop, Option.some.injEq, Prod.mk.injEq] at h
    obtain ⟨h1, h2, h3⟩ := h
    subst h1 h2 h3
    exact ⟨rfl, rfl, rfl⟩
  | cons v rest ih =>
    intro n inValues vals s1 h
    have hstep : ∀ (hv : v.isColumnKey = false),
        Postgres.renderInLoop (.list es) (v :: rest) ⟨n⟩ =
          match Postgres.renderInLoop (.list es) rest ⟨n + 1⟩ with
          | none => none
          | some (iv, vs, s) => some (("$" ++ toString (n + 1)) :: iv, v :: vs, s) := by
      intro hv
      cases v with
      | columnKey c => simp [Value.isColumnKey] at hv
      | nil => simp [Postgres.renderInLoop, ValueSequencer.call]
      | lit l => simp [Postgres.renderInLoop, ValueSequencer.call]
      | list l => simp [Postgres.renderInLoop, ValueSequencer.call]
      | wheres l => simp [Postgres.renderInLoop, ValueSequencer.call]
    by_cases hv : v.isColumnKey = true
    · cases v with
      | columnKey c => simp [Postgres.renderInLoop, Value.assertColumnKey] at h
      | nil => simp [Value.isColumnKey] at hv
      | lit l => simp [Value.isColumnKey] at hv
      | list l => simp [Value.isColumnKey] at hv
      | wheres l => simp [Value.isColumnKey] at hv
    · rw [hstep (by simpa using hv)] at h
      cases hrest : Postgres.renderInLoop (.list es) rest ⟨n + 1⟩ with
      | none => simp [hrest] at h
      | some r =>
        obtain ⟨iv, vs, s⟩ := r
        simp only [hrest, Option.some.injEq, Prod.mk.injEq] at h
        obtain ⟨h1, h2, h3⟩ := h
        obtain ⟨e1, e2, e3⟩ := ih (n + 1) iv vs s hrest
        subst h1 h2 h3 e1 e2 e3
        refine ⟨rfl, ?_, ?_⟩
        · simp [Nat.add_assoc, Nat.add_comm 1]
        · rw [List.length_cons, placeholderRange_succ]

theorem pgInv_nil (n : Nat) (clean : Bool) : PgInv [] n 0 [] clean := by
  refine ⟨fun frag h => by simp at h, fun _ linker _ => ?_⟩
  simpa [placeholderRange, stringsJoin] using emits_clean (s := "") (by decide)

theorem pgInv_cons {x : String} {fs : List String} {n m1 m2 : Nat} {fr1 fr2 : List String}
    {c1 c2 : Bool} (hx1 : ∀ frag ∈ fr1, Contains x frag)
    (hx2 : c1 = true → Emits x (placeholderRange n m1))
    (hfs : PgInv fs (n + m1) m2 fr2 c2) :
    PgInv (x :: fs) n (m1 + m2) (fr1 ++ fr2) (c1 && c2) := by
  refine ⟨fun frag h => ?_, fun hc linker hl => ?_⟩
  · rcases List.mem_append.1 h with h | h
    · exact ⟨x, by simp, hx1 frag h⟩
    · obtain ⟨f, hf, hcont⟩ := hfs.1 frag h
      exact ⟨f, List.mem_cons_of_mem _ hf, hcont⟩
  · simp only [Bool.and_eq_true] at hc
    rw [placeholderRange_add]
    exact emits_join_cons (hx2 hc.1) (hfs.2 hc.2 linker hl) hl

/-- The text of `renderWhereFinish` over filters with the invariants. -/
theorem pgInv_finish {fs : List String} {n m : Nat} {frags : List String} {clean : Bool}
    (h : PgInv fs n m frags clean) {linker : String} (hl : Clean linker) :
    (∀ frag ∈ frags, Contains (Postgres.renderWhereFinish linker fs) frag) ∧
    (clean = true → Emits (Postgres.renderWhereFinish linker fs) (placeholderRange n m)) := by
  have hsep := goodLinker_spaced hl
  cases fs with
  | nil =>
    refine ⟨fun frag hf => ?_, fun hc => ?_⟩
    · obtain ⟨f, hmem, _⟩ := h.1 frag hf
      simp at hmem
    · have hnil := emits_nil_toks (by simpa [stringsJoin] using h.2 hc ", " goodLinker_comma)
      rw [hnil]
      simpa [Postgres.renderWhereFinish, stringsJoin] using emits_clean (s := "TRUE") (by decide)
  | cons f rest =>
    have hfin : Postgres.renderWhereFinish linker (f :: rest) =
        stringsJoin (f :: rest) (" " ++ linker ++ " ") := by
      simp [Postgres.renderWhereFinish]
    rw [hfin]
    refine ⟨fun frag hf => ?_, fun hc => h.2 hc _ hsep⟩
    obtain ⟨g, hmem, hcont⟩ := h.1 frag hf
    exact contains_trans (contains_join hmem hsep) hcont

/-- The filter of an `and` or `or` node over nested filters with the invariants. -/
theorem pgInv_wrap {fs : List String} {n m : Nat} {frags : List String} {clean : Bool}
    (h : PgInv fs n m frags clean) (linker : String) (hl : Clean linker) :
    (∀ frag ∈ frags, Contains ("(" ++ Postgres.renderWhereFinish linker fs ++ ")") frag) ∧
    (clean = true →
      Emits ("(" ++ Postgres.renderWhereFinish linker fs ++ ")") (placeholderRange n m)) := by
  obtain ⟨h1, h2⟩ := pgInv_finish h hl
  refine ⟨fun frag hf => ?_, fun hc => ?_⟩
  · exact contains_trans (contains_append_left _ _ (by intro c hc; cases hc; decide))
      (contains_trans (contains_append_right _ _) (h1 frag hf))
  · rw [String.append_assoc]
    refine emits_clean_append (by decide) ?_
    have := emits_append (h2 hc) (emits_clean (s := ")") (by decide))
      (by intro c hc; cases hc; decide)
    simpa using this

theorem renderWhereNode_eq_bound (k : ColumnKey) (op : String) (value : Value)
    (nested : List Where) (seq : ValueSequencer) (hop : op = "=" ∨ op = "!=")
    (hv : value.isColumnKey = false) :
    Postgres.renderWhereNode (.mk k op value nested) seq =
      some ([Postgres.renderColumnKey k ++ " " ++ op ++ " " ++ seq.call.1], [value],
        seq.call.2) := by
  cases value with
  | columnKey c => simp [Value.isColumnKey] at hv
  | nil => simp [Postgres.renderWhereNode, hop]
  | lit l => simp [Postgres.renderWhereNode, hop]
  | list l => simp [Postgres.renderWhereNode, hop]
  | wheres l => simp [Postgres.renderWhereNode, hop]

theorem clean_eq_operator {op : String} (hop : op = "=" ∨ op = "!=") : Clean op := by
  rcases hop with rfl | rfl <;> decide

theorem pgKeysClean_key {k : ColumnKey} {op : String} {value : Value} {nested : List Where}
    (hop : op = "=" ∨ op = "!=") (hc : (Where.mk k op value nested).pgKeysClean = true) :
    Clean (Postgres.renderColumnKey k) := by
  simp only [Where.pgKeysClean, hop, if_true, Bool.and_eq_true, decide_eq_true_eq] at hc
  exact hc.1

mutual
/-- The loop body of `Postgres.renderWhere` on one node, when it returns. -/
theorem pgNode_spec :
    ∀ (w : Where) (n : Nat) (fs : List String) (vs : List Value) (s1 : ValueSequencer),
      Postgres.renderWhereNode w ⟨n⟩ = some (fs, vs, s1) →
      vs = w.pgValues ∧ s1 = ⟨n + w.pgValues.length⟩ ∧ PgNodeInv fs n w
  | .mk k op value nested, n, fs, vs, s1, h => by
    by_cases h1 : op = "=" ∨ op = "!="
    · by_cases hv : value.isColumnKey = true
      · cases value with
        | columnKey c =>
          simp only [Postgres.renderWhereNode, h1, if_true, Option.some.injEq,
            Prod.mk.injEq] at h
          obtain ⟨hfs, hvs, hs1⟩ := h
          subst hfs hvs hs1
          have hpv : (Where.mk k op (.columnKey c) nested).pgValues = [] := by
            simp [Where.pgValues, h1, Value.isColumnKey]
          refine ⟨hpv.symm, by simp [hpv], Or.inr ⟨_, rfl, ?_, ?_⟩⟩
          · simp [Where.pgFragments, h1, Value.isColumnKey]
          · intro hc
            simp only [Where.pgKeysClean, h1, if_true, Bool.and_eq_true,
              decide_eq_true_eq] at hc
            rw [hpv]
            exact emits_clean (clean_append (clean_append (clean_append (clean_append hc.1
              (by decide)) (clean_eq_operator h1)) (by decide)) hc.2)
        | nil => simp [Value.isColumnKey] at hv
        | lit l => simp [Value.isColumnKey] at hv
        | list l => simp [Value.isColumnKey] at hv
        | wheres l => simp [Value.isColumnKey] at hv
      · have hv : value.isColumnKey = false := by simpa using hv
        rw [renderWhereNode_eq_bound k op value nested _ h1 hv] at h
        simp only [Option.some.injEq, Prod.mk.injEq] at h
        obtain ⟨hfs, hvs, hs1⟩ := h
        subst hfs hvs hs1
        have hpv : (Where.mk k op value nested).pgValues = [value] := by
          simp [Where.pgValues, h1, hv]
        have htext : Postgres.renderColumnKey k ++ " " ++ op ++ " " ++
            (ValueSequencer.mk n).call.1 =
            Postgres.renderColumnKey k ++ " " ++ op ++ " $" ++ toString (n + 1) := by
          simp only [ValueSequencer.call, String.append_assoc]
          rfl
        refine ⟨hpv.symm, by simp [hpv, ValueSequencer.call], Or.inr ⟨_, rfl, ?_, ?_⟩⟩
        · intro frag hfrag
          simp only [Where.pgFragments, h1, hv, if_true, Bool.false_eq_true, if_false,
            List.mem_singleton] at hfrag
          subst hfrag
          rw [htext]
          exact contains_refl _
        · intro hc
          rw [hpv]
          have hpre : Clean (Postgres.renderColumnKey k ++ " " ++ op ++ " ") :=
            clean_append (clean_append (clean_append (pgKeysClean_key h1 hc) (by decide))
              (clean_eq_operator h1)) (by decide)
          have := emits_clean_append hpre (emits_token (n + 1))
          simpa [placeholderRange, ValueSequencer.call] using this
    · by_cases h2 : op = "in"
      · subst h2
        simp only [Postgres.renderWhereNode, h1, if_false, if_true] at h
        cases hl : value.assertList with
        | none => simp [hl] at h
        | some elems =>
          have hval : value = .list elems := by
            cases value with
            | list l => simp [Value.assertList] at hl; rw [hl]
            | nil => simp [Value.assertList] at hl
            | columnKey c => simp [Value.assertList] at hl
            | lit l => simp [Value.assertList] at hl
            | wheres l => simp [Value.assertList] at hl
          subst hval
          cases hin : Postgres.renderInLoop (.list elems) elems ⟨n⟩ with
          | none => simp [hl, hin] at h
          | some r =>
            obtain ⟨iv, vals, s⟩ := r
            simp only [hl, hin, Option.some.injEq, Prod.mk.injEq] at h
            obtain ⟨hfs, hvs, hs1⟩ := h
            obtain ⟨e1, e2, e3⟩ := renderInLoop_spec elems elems n iv vals s hin
            subst hfs hvs hs1 e1 e2 e3
            have hpv : (Where.mk k "in" (.list vals) nested).pgValues = vals := by
              simp [Where.pgValues, Value.inElements]
            refine ⟨hpv.symm, by simp [hpv], Or.inr ⟨_, rfl, ?_, ?_⟩⟩
            · intro frag hfrag
              simp only [Where.pgFragments, h1, if_false, if_true, Value.inElements,
                List.mem_singleton] at hfrag
              subst hfrag
              exact contains_refl _
            · intro hc
              simp only [Where.pgKeysClean, h1, if_false, if_true,
                decide_eq_true_eq] at hc
              rw [hpv, String.append_assoc]
              refine emits_clean_append (clean_append hc (by decide)) ?_
              have := emits_append (emits_placeholderRange vals.length n)
                (emits_clean (s := ")") (by decide)) (by intro c hc; cases hc; decide)
              simpa using this
      · by_cases h3 : op = "and"
        · subst h3
          simp only [Postgres.renderWhereNode, h1, h2, if_false, if_true] at h
          cases hn : Postgres.renderWhereLoop nested ⟨n⟩ with
          | none => simp [hn] at h
          | some r =>
            obtain ⟨nf, nv, s⟩ := r
            simp only [hn, Option.some.injEq, Prod.mk.injEq] at h
            obtain ⟨hfs, hvs, hs1⟩ := h
            obtain ⟨e1, e2, hinv⟩ := pgLoop_spec nested n nf nv s hn
            subst hfs hvs hs1
            have hpv : (Where.mk k "and" value nested).pgValues = pgValues nested := by
              simp [Where.pgValues]
            have hpf : (Where.mk k "and" value nested).pgFragments n =
                pgFragments n nested := by
              simp [Where.pgFragments]
            have hpc : (Where.mk k "and" value nested).pgKeysClean = pgKeysClean nested := by
              simp [Where.pgKeysClean]
            obtain ⟨w1, w2⟩ := pgInv_wrap hinv "AND" (by decide)
            rw [hpv]
            refine ⟨e1, e2, Or.inr ⟨_, rfl, ?_, ?_⟩⟩
            · rw [hpf]; exact w1
            · rw [hpc, hpv]; exact w2
        · by_cases h4 : op = "or"
          · subst h4
            simp only [Postgres.renderWhereNode, h1, h2, h3, if_false, if_true] at h
            cases hn : Postgres.renderWhereLoop nested ⟨n⟩ with
            | none => simp [hn] at h
            | some r =>
              obtain ⟨nf, nv, s⟩ := r
              simp only [hn, Option.some.injEq, Prod.mk.injEq] at h
              obtain ⟨hfs, hvs, hs1⟩ := h
              obtain ⟨e1, e2, hinv⟩ := pgLoop_spec nested n nf nv s hn
              subst hfs hvs hs1
              have hpv : (Where.mk k "or" value nested).pgValues = pgValues nested := by
                simp [Where.pgValues]
              have hpf : (Where.mk k "or" value nested).pgFragments n =
                  pgFragments n nested := by
                simp [Where.pgFragments]
              have hpc : (Where.mk k "or" value nested).pgKeysClean = pgKeysClean nested := by
                simp [Where.pgKeysClean]
              obtain ⟨w1, w2⟩ := pgInv_wrap hinv "OR" (by decide)
              rw [hpv]
              refine ⟨e1, e2, Or.inr ⟨_, rfl, ?_, ?_⟩⟩
              · rw [hpf]; exact w1
              · rw [hpc, hpv]; exact w2
          · simp only [Postgres.renderWhereNode, h1, h2, h3, h4, if_false,
              Option.some.injEq, Prod.mk.injEq] at h
            obtain ⟨hfs, hvs, hs1⟩ := h
            subst hfs hvs hs1
            have hpv : (Where.mk k op value nested).pgValues = [] := by
              simp [Where.pgValues, h1, h2, h3, h4]
            refine ⟨hpv.symm, by simp [hpv], Or.inl ⟨rfl, hpv, ?_⟩⟩
            simp [Where.pgFragments, h1, h2, h3, h4]
/-- The loop of `Postgres.renderWhere`, when it returns: the values are the values
the nodes bind from left to right, one token was issued per value, and the filters
have the invariants. -/
theorem pgLoop_spec :
    ∀ (ws : List Where) (n : Nat) (fs : List String) (vs : List Value) (s1 : ValueSequencer),
      Postgres.renderWhereLoop ws ⟨n⟩ = some (fs, vs, s1) →
      vs = pgValues ws ∧ s1 = ⟨n + (pgValues ws).length⟩ ∧
        PgInv fs n (pgValues ws).length (pgFragments n ws) (pgKeysClean ws)
  | [], n, fs, vs, s1, h => by
    simp only [Postgres.renderWhereLoop, Option.some.injEq, Prod.mk.injEq] at h
    obtain ⟨hfs, hvs, hs1⟩ := h
    subst hfs hvs hs1
    exact ⟨rfl, rfl, pgInv_nil n _⟩
  | w :: rest, n, fs, vs, s1, h => by
    simp only [Postgres.renderWhereLoop] at h
    cases hw : Postgres.renderWhereNode w ⟨n⟩ with
    | none => simp [hw] at h
    | some r =>
      obtain ⟨f, v, s⟩ := r
      obtain ⟨e1, e2, hnode⟩ := pgNode_spec w n f v s hw
      subst e1 e2
      cases hr : Postgres.renderWhereLoop rest ⟨n + w.pgValues.length⟩ with
      | none => simp [hw, hr] at h
      | some r2 =>
        obtain ⟨fs2, vs2, s2⟩ := r2
        obtain ⟨e3, e4, hrest⟩ := pgLoop_spec rest (n + w.pgValues.length) fs2 vs2 s2 hr
        simp only [hw, hr, Option.some.injEq, Prod.mk.injEq] at h
        obtain ⟨hfs, hvs, hs1⟩ := h
        subst hfs hvs hs1 e3 e4
        refine ⟨by simp [pgValues], by simp [pgValues, Nat.add_assoc], ?_⟩
        rcases hnode with ⟨hf, hv0, hfr⟩ | ⟨x, hf, hx1, hx2⟩
        · subst hf
          simp only [pgValues, pgFragments, pgKeysClean, hv0, hfr, List.nil_append,
            List.length_nil, Nat.add_zero] at hrest ⊢
          refine ⟨hrest.1, fun hc linker hl => hrest.2 ?_ linker hl⟩
          simp only [Bool.and_eq_true] at hc
          exact hc.2
        · subst hf
          have := pgInv_cons hx1 hx2 hrest
          simpa [pgValues, pgFragments, pgKeysClean] using this
end

/-- C20. Whenever `Postgres.renderWhere` returns, called after `n` tokens: it called
the sequencer once per returned value; the values are the values that the nodes
bind from left to right, across nested `and`/`or` nodes (the right operands of `=`
and `!=` that are not `ColumnKey`s, `nil` included, and the elements of `in` lists);
every value-binding node is in the text with the tokens that count the values bound
to its left, `<key> <op> $(n+j)` or `<key> IN ($(n+j), ...)`; and when the keys hold
no `$` the placeholders of the text are `$(n+1)`, ..., `$(n+m)` in this order, `m`
being the number of values.  The same count holds for `Postgres.renderJoin`, which
renders the filter of the join with `renderWhere`. -/
theorem C20_postgres_where_values_match_placeholders (ws : List Where) (linker : String)
    (n : Nat) (text : String) (values : List Value) (seq1 : ValueSequencer)
    (h : Postgres.renderWhere ws linker ⟨n⟩ = some (text, values, seq1)) :
    seq1 = ⟨n + values.length⟩ ∧ values = pgValues ws ∧
    (Clean linker → ∀ frag ∈ pgFragments n ws, Contains text frag) ∧
    (Clean linker → pgKeysClean ws = true →
      placeholders text = placeholderRange n values.length) ∧
    (∀ (join : Join) (m : Nat) (joinText : String) (joinValues : List Value)
      (seq2 : ValueSequencer),
      Postgres.renderJoin join ⟨m⟩ = some (joinText, joinValues, seq2) →
      seq2 = ⟨m + joinValues.length⟩ ∧ joinValues = pgValues join.Where) := by
  have key : ∀ (ws : List Where) (linker : String) (n : Nat) (text : String)
      (values : List Value) (seq1 : ValueSequencer),
      Postgres.renderWhere ws linker ⟨n⟩ = some (text, values, seq1) →
      ∃ fs, text = Postgres.renderWhereFinish linker fs ∧ values = pgValues ws ∧
        seq1 = ⟨n + values.length⟩ ∧
        PgInv fs n values.length (pgFragments n ws) (pgKeysClean ws) := by
    intro ws linker n text values seq1 h
    unfold Postgres.renderWhere at h
    cases hloop : Postgres.renderWhereLoop ws ⟨n⟩ with
    | none => simp [hloop] at h
    | some r =>
      obtain ⟨fs, vs, s⟩ := r
      simp only [hloop, Option.some.injEq, Prod.mk.injEq] at h
      obtain ⟨h1, h2, h3⟩ := h
      obtain ⟨e1, e2, hinv⟩ := pgLoop_spec ws n fs vs s hloop
      subst h1 h2 h3 e1
      exact ⟨fs, rfl, rfl, e2, hinv⟩
  obtain ⟨fs, htext, hvals, hseq, hinv⟩ := key ws linker n text values seq1 h
  refine ⟨hseq, hvals, fun hl => ?_, fun hl hc => ?_, ?_⟩
  · rw [htext]; exact (pgInv_finish hinv hl).1
  · have := (pgInv_finish hinv hl).2 hc [] noLeadingDigit_nil
    rw [htext]
    simpa [placeholders, scanPlaceholders] using this
  · intro join m joinText joinValues seq2 hj
    unfold Postgres.renderJoin at hj
    cases hw : Postgres.renderWhere join.Where "AND" ⟨m⟩ with
    | none => simp [hw] at hj
    | some r =>
      obtain ⟨w, vs, s⟩ := r
      simp only [hw, Option.some.injEq, Prod.mk.injEq] at hj
      obtain ⟨_, h2, h3⟩ := hj
      obtain ⟨_, _, hv, hs, _⟩ := key join.Where "AND" m w vs s hw
      subst h2 h3
      exact ⟨hs, hv⟩

/-- C20 at the filter `t.a = 1 AND (t.b != nil OR t.c IN (2, 3))` after two tokens. -/
theorem C20_postgres_where_values_match_placeholders_witness :
    Postgres.renderWhere examplePgFilter "AND" ⟨2⟩ =
      some ("\"t\".\"a\" = $3 AND (\"t\".\"b\" != $4 OR \"t\".\"c\" IN ($5, $6))",
        [.lit (.int 1), .nil, .lit (.int 2), .lit (.int 3)], ⟨6⟩) ∧
    pgValues examplePgFilter = [.lit (.int 1), .nil, .lit (.int 2), .lit (.int 3)] ∧
    pgFragments 2 examplePgFilter =
      ["\"t\".\"a\" = $3", "\"t\".\"b\" != $4", "\"t\".\"c\" IN ($5, $6)"] ∧
    pgKeysClean examplePgFilter = true ∧
    placeholders "\"t\".\"a\" = $3 AND (\"t\".\"b\" != $4 OR \"t\".\"c\" IN ($5, $6))" =
      placeholderRange 2 4 :=
  ⟨by rfl, by rfl, by decide, by decide,
    (C20_postgres_where_values_match_placeholders examplePgFilter "AND" 2
      "\"t\".\"a\" = $3 AND (\"t\".\"b\" != $4 OR \"t\".\"c\" IN ($5, $6))"
      [.lit (.int 1), .nil, .lit (.int 2), .lit (.int 3)] ⟨6⟩ (by rfl)).2.2.2.1
      (by decide) (by decide)⟩

/-! ## The placeholders of the statement of `Select` -/

theorem clean_of_digits {s : String} (h : ∀ c ∈ s.data, c.isDigit = true) : Clean s := by
  intro hmem
  have := h _ hmem
  revert this
  decide

theorem clean_toString_nat (n : Nat) : Clean (toString n) :=
  clean_of_digits (toString_isDigit n)

theorem clean_toString_int (i : Int) : Clean (toString i) := by
  cases i with
  | ofNat m => exact clean_toString_nat m
  | negSucc m =>
    show Clean ("-" ++ toString (m + 1))
    exact clean_append (by decide) (clean_toString_nat (m + 1))

theorem clean_join {strs : List String} {sep : String} (h : ∀ s ∈ strs, Clean s)
    (hsep : Clean sep) : Clean (stringsJoin strs sep) := by
  induction strs with
  | nil => simpa [stringsJoin] using (by decide : Clean "")
  | cons a rest ih =>
    rw [stringsJoin_cons]
    refine clean_append (h a (by simp)) ?_
    have hrest := ih (fun s hs => h s (List.mem_cons_of_mem _ hs))
    split
    · decide
    · exact clean_append hsep hrest

theorem stringsJoin_append {a b : List String} (sep : String) (ha : a ≠ []) (hb : b ≠ []) :
    stringsJoin (a ++ b) sep = stringsJoin a sep ++ sep ++ stringsJoin b sep := by
  induction a with
  | nil => exact absurd rfl ha
  | cons x rest ih =>
    rw [List.cons_append, stringsJoin_cons, stringsJoin_cons x rest]
    by_cases hrest : rest = []
    · subst hrest
      simp [hb, String.append_assoc]
    · have hne : rest ++ b ≠ [] := by simp [hrest]
      rw [if_neg hne, if_neg hrest, ih hrest]
      simp [String.append_assoc]

theorem emits_join_append {a b : List String} {ta tb : List String} {linker : String}
    (ha : Emits (stringsJoin a linker) ta) (hb : Emits (stringsJoin b linker) tb)
    (hl : GoodLinker linker) : Emits (stringsJoin (a ++ b) linker) (ta ++ tb) := by
  by_cases hna : a = []
  · subst hna
    have hta : ta = [] := emits_nil_toks (by simpa [stringsJoin] using ha)
    subst hta
    simpa using hb
  · by_cases hnb : b = []
    · subst hnb
      have htb : tb = [] := emits_nil_toks (by simpa [stringsJoin] using hb)
      subst htb
      simpa using ha
    · rw [stringsJoin_append linker hna hnb, String.append_assoc]
      refine emits_append ha (emits_clean_append hl.1 hb) ?_
      rw [String.data_append]
      exact noLeadingDigit_linker hl _

theorem goodLinker_columns : GoodLinker ",\n\t" :=
  ⟨by decide, by decide, by intro c hc; cases hc; decide⟩

theorem goodLinker_newline : GoodLinker "\n" :=
  ⟨by decide, by decide, by intro c hc; cases hc; decide⟩

theorem value_keyClean_of_bound (serializer : SQLSerializer) {v : Value}
    (hv : v.isColumnKey = false) : v.keyClean serializer = true := by
  cases v with
  | columnKey c => simp [Value.isColumnKey] at hv
  | nil => rfl
  | lit l => rfl
  | list l => rfl
  | wheres l => rfl

/-- The argument texts of `commonFunction`, joined by commas, hold the tokens of the
bound arguments and no other placeholder. -/
theorem commonFunctionLoop_emits (driver : CommonDriver) :
    ∀ (args : List Value) (n : Nat), argumentsClean driver.serializer args = true →
      Emits (stringsJoin (commonFunctionLoop driver args ⟨n⟩).1 ", ")
        (placeholderRange n (functionValues args).length) := by
  intro args
  induction args with
  | nil =>
    intro n _
    simpa [commonFunctionLoop, stringsJoin, functionValues, placeholderRange] using
      emits_clean (s := "") (by decide)
  | cons v rest ih =>
    intro n h
    simp only [argumentsClean, Bool.and_eq_true] at h
    by_cases hv : v.isColumnKey = true
    · cases v with
      | columnKey c =>
        have hc : Clean (driver.serializer.SerializeColumnKey c) := by
          simpa [Value.keyClean] using h.1
        have := emits_join_cons (emits_clean hc) (ih n h.2) goodLinker_comma
        simpa [commonFunctionLoop, functionValues, Value.isColumnKey] using this
      | nil => simp [Value.isColumnKey] at hv
      | lit l => simp [Value.isColumnKey] at hv
      | list l => simp [Value.isColumnKey] at hv
      | wheres l => simp [Value.isColumnKey] at hv
    · have hv : v.isColumnKey = false := by simpa using hv
      rw [commonFunctionLoop_bound driver v rest _ hv]
      have hfv : functionValues (v :: rest) = v :: functionValues rest := by
        simp [functionValues, hv]
      rw [hfv, List.length_cons, placeholderRange_succ]
      have := emits_join_cons (emits_token (n + 1)) (ih (n + 1) h.2) goodLinker_comma
      simpa [ValueSequencer.call] using this

theorem functionOperators_clean {name : String} (h : isFunctionName name = true) :
    ∃ fnName extra, functionOperators name = some (.commonFunction fnName extra) ∧
      Clean fnName ∧ Clean extra := by
  simp only [isFunctionName, Bool.or_eq_true, beq_iff_eq] at h
  rcases h with (((rfl | rfl) | rfl) | rfl) | rfl
  · exact ⟨"COUNT", "", rfl, by decide, by decide⟩
  · exact ⟨"MAX", "", rfl, by decide, by decide⟩
  · exact ⟨"MIN", "", rfl, by decide, by decide⟩
  · exact ⟨"AVG", "", rfl, by decide, by decide⟩
  · exact ⟨"COUNT", "DISTINCT", rfl, by decide, by decide⟩

/-- The text of a function call holds the tokens of its bound arguments and no other
placeholder. -/
theorem functionOperator_call_emits (driver : CommonDriver) (fnName extra : String)
    (hf : Clean fnName) (he : Clean extra) (args : List Value) (n : Nat)
    (hargs : argumentsClean driver.serializer args = true) :
    ∃ text, (FunctionOperator.commonFunction fnName extra).call driver args ⟨n⟩ =
        (text, functionValues args, ⟨n + (functionValues args).length⟩) ∧
      Emits text (placeholderRange n (functionValues args).length) := by
  obtain ⟨strs, h⟩ := commonFunctionLoop_spec driver args n
  have hj := commonFunctionLoop_emits driver args n hargs
  rw [h] at hj
  refine ⟨fnName ++ "(" ++ extra ++ " " ++ stringsJoin strs ", " ++ ")",
    by simp [FunctionOperator.call, h], ?_⟩
  have hpre : Clean (fnName ++ "(" ++ extra ++ " ") :=
    clean_append (clean_append (clean_append hf (by decide)) he) (by decide)
  have := emits_append (emits_clean_append hpre hj) (emits_clean (s := ")") (by decide))
    (by intro c hc; cases hc; decide)
  simpa using this

mutual
theorem renderColumn_emits (driver : CommonDriver)
    (hreg : driver.functionOperators = functionOperators) :
    ∀ (column : Column) (pfx : String), column.wellFormed = true →
      column.textsClean driver.serializer pfx → ∀ n : Nat,
      ∃ strs, CommonDriver.renderColumn driver column pfx ⟨n⟩ =
          some (strs, column.boundValues, ⟨n + column.boundValues.length⟩) ∧
        ∀ linker, GoodLinker linker →
          Emits (stringsJoin strs linker) (placeholderRange n column.boundValues.length)
  | .mk als source (some children) function, pfx, h, hc, n => by
    obtain ⟨strs, hs, he⟩ := renderColumns_emits driver hreg children (columnAlias pfx als)
      (by simpa [Column.wellFormed] using h) (by simpa [Column.textsClean] using hc) n
    exact ⟨strs, by simpa [CommonDriver.renderColumn, Column.boundValues] using hs,
      by simpa [Column.boundValues] using he⟩
  | .mk als (some src) none function, pfx, _, hc, n => by
    have hclean : Clean (driver.serializer.SerializeColumn
        (.mk (columnAlias pfx als) (some src) none function)) := by
      simpa [Column.textsClean] using hc
    refine ⟨[driver.serializer.SerializeColumn
      (.mk (columnAlias pfx als) (some src) none function)],
      by simp [CommonDriver.renderColumn, Column.boundValues], fun linker _ => ?_⟩
    simpa [Column.boundValues, stringsJoin, placeholderRange] using emits_clean hclean
  | .mk als none none (some fn), pfx, h, hc, n => by
    obtain ⟨fnName, extra, hop, hf, he⟩ :=
      functionOperators_clean (by simpa [Column.wellFormed] using h :
        isFunctionName fn.Operator = true)
    have hc2 : argumentsClean driver.serializer fn.Values = true ∧
        AliasKeepsPlaceholders driver.serializer (columnAlias pfx als) := by
      simpa [Column.textsClean] using hc
    obtain ⟨text, hcall, hemits⟩ :=
      functionOperator_call_emits driver fnName extra hf he fn.Values n hc2.1
    refine ⟨[driver.serializer.SerializeAlias text (columnAlias pfx als)],
      by simp [CommonDriver.renderColumn, Column.boundValues, hreg, hop, hcall],
      fun linker _ => ?_⟩
    simpa [Column.boundValues, stringsJoin] using hc2.2 text _ hemits
  | .mk als none none none, pfx, _, _, n =>
    ⟨[], by simp [CommonDriver.renderColumn, Column.boundValues], fun linker _ => by
      simpa [Column.boundValues, stringsJoin, placeholderRange] using
        emits_clean (s := "") (by decide)⟩
/-- `renderColumns` on well-formed columns whose texts hold no `$` of their own: the
rendered columns, joined by a linker, hold the tokens of the column values and no
other placeholder. -/
theorem renderColumns_emits (driver : CommonDriver)
    (hreg : driver.functionOperators = functionOperators) :
    ∀ (columns : List Column) (pfx : String), wellFormedColumns columns = true →
      columnsClean driver.serializer pfx columns → ∀ n : Nat,
      ∃ strs, CommonDriver.renderColumns driver columns pfx ⟨n⟩ =
          some (strs, columnValues columns, ⟨n + (columnValues columns).length⟩) ∧
        ∀ linker, GoodLinker linker →
          Emits (stringsJoin strs linker) (placeholderRange n (columnValues columns).length)
  | [], pfx, _, _, n =>
    ⟨[], by simp [CommonDriver.renderColumns, columnValues], fun linker _ => by
      simpa [columnValues, stringsJoin, placeholderRange] using
        emits_clean (s := "") (by decide)⟩
  | column :: rest, pfx, h, hc, n => by
    simp only [wellFormedColumns, Bool.and_eq_true] at h
    simp only [columnsClean] at hc
    obtain ⟨c, hcol, hce⟩ := renderColumn_emits driver hreg column pfx h.1 hc.1 n
    obtain ⟨strs, hs, hse⟩ := renderColumns_emits driver hreg rest pfx h.2 hc.2
      (n + column.boundValues.length)
    refine ⟨c ++ strs,
      by simp [CommonDriver.renderColumns, columnValues, hcol, hs, Nat.add_assoc],
      fun linker hl => ?_⟩
    have := emits_join_append (hce linker hl) (hse linker hl) hl
    simpa [columnValues, placeholderRange_add] using this
end

theorem joinOperators_clean {t : JoinType} (h : t.isKnown = true) :
    ∃ joinStr, joinOperators t = some (.commonJoin joinStr) ∧ Clean joinStr := by
  cases t with
  | InnerJoin => exact ⟨"INNER JOIN", rfl, by decide⟩
  | LeftJoin => exact ⟨"LEFT JOIN", rfl, by decide⟩
  | RightJoin => exact ⟨"RIGHT JOIN", rfl, by decide⟩
  | other name => simp [JoinType.isKnown] at h

theorem orderOperators_clean {t : OrderType} (h : t.isKnown = true) :
    ∃ order, orderOperators t = some (.commonOrder order) ∧ Clean order := by
  cases t with
  | DescOrder => exact ⟨"DESC", rfl, by decide⟩
  | AscOrder => exact ⟨"ASC", rfl, by decide⟩
  | other name => simp [OrderType.isKnown] at h

/-- The text of the `and` operator over a well-formed filter list whose keys hold no
`$`: its placeholders are the tokens of its values. -/
theorem callWhereOperator_and_emits (driver : CommonDriver)
    (hreg : driver.whereOperators = whereOperators) (ws : List Where)
    (hwf : wellFormedWheres ws = true) (n : Nat) :
    ∃ text, driver.callWhereOperator "and" none (.wheres ws) ⟨n⟩ =
        some (text, (boundComparisons ws).map Where.Value,
          ⟨n + (boundComparisons ws).length⟩) ∧
      (whereKeysClean driver.serializer ws = true →
        Emits text (placeholderRange n (boundComparisons ws).length)) := by
  obtain ⟨fs, hloop, hinv⟩ := whereNestedLoop_spec driver hreg ws hwf n
  have hand : whereOperators "and" = some (.whereNested "AND") := rfl
  exact ⟨"(" ++ stringsJoin fs "AND" ++ ")",
    by simp [CommonDriver.callWhereOperator, hreg, hand, WhereOperator.call, hloop],
    (nodeInv_of_loop hinv goodLinker_AND).2⟩

/-- `renderJoins` on well-formed joins whose texts hold no `$` of their own: the
rendered joins, joined by a linker, hold the tokens of the join values and no other
placeholder. -/
theorem renderJoins_emits (driver : CommonDriver)
    (hw : driver.whereOperators = whereOperators)
    (hj : driver.joinOperators = joinOperators) :
    ∀ (joins : List Join), wellFormedJoins joins = true →
      joinsClean driver.serializer joins = true → ∀ n : Nat,
      ∃ strs, driver.renderJoins joins ⟨n⟩ =
          some (strs, joinValues joins, ⟨n + (joinValues joins).length⟩) ∧
        ∀ linker, GoodLinker linker →
          Emits (stringsJoin strs linker) (placeholderRange n (joinValues joins).length) := by
  intro joins
  induction joins with
  | nil =>
    intro _ _ n
    exact ⟨[], by simp [CommonDriver.renderJoins, joinValues], fun linker _ => by
      simpa [joinValues, stringsJoin, placeholderRange] using
        emits_clean (s := "") (by decide)⟩
  | cons join rest ih =>
    intro h hc n
    simp only [wellFormedJoins, Bool.and_eq_true] at h
    simp only [joinsClean, Bool.and_eq_true, decide_eq_true_eq] at hc
    obtain ⟨joinStr, hop, hjs⟩ := joinOperators_clean h.1.1
    obtain ⟨text, htext, hte⟩ := callWhereOperator_and_emits driver hw join.Where h.1.2 n
    obtain ⟨strs, hs, hse⟩ := ih h.2 hc.2 (n + (boundComparisons join.Where).length)
    refine ⟨(joinStr ++ " " ++ driver.serializer.SerializeTableSource join.To ++ " ON " ++ text)
        :: strs,
      by simp [CommonDriver.renderJoins, hj, hop, JoinOperator.call, htext, hs, joinValues,
        Nat.add_assoc], fun linker hl => ?_⟩
    have hpre : Clean (joinStr ++ " " ++ driver.serializer.SerializeTableSource join.To ++
        " ON ") :=
      clean_append (clean_append (clean_append hjs (by decide)) hc.1.1) (by decide)
    have := emits_join_cons (emits_clean_append hpre (hte hc.1.2)) (hse linker hl) hl
    simpa [joinValues, placeholderRange_add] using this

/-- `renderOrder` on entries with a known direction and keys without `$` gives a text
without `$`. -/
theorem renderOrder_clean (driver : CommonDriver)
    (ho : driver.orderOperators = orderOperators) :
    ∀ (orders : List Order), wellFormedOrders orders = true →
      ordersClean driver.serializer orders = true →
      ∃ text, driver.renderOrder orders = some text ∧ Clean text := by
  have hloop : ∀ (orders : List Order), wellFormedOrders orders = true →
      ordersClean driver.serializer orders = true →
      ∃ strs, driver.renderOrderLoop orders = some strs ∧ ∀ s ∈ strs, Clean s := by
    intro orders
    induction orders with
    | nil => intro _ _; exact ⟨[], rfl, fun s hs => by simp at hs⟩
    | cons order rest ih =>
      intro h hc
      simp only [wellFormedOrders, Bool.and_eq_true] at h
      simp only [ordersClean, Bool.and_eq_true, decide_eq_true_eq] at hc
      obtain ⟨o, hop, hoc⟩ := orderOperators_clean h.1
      obtain ⟨strs, hs, hsc⟩ := ih h.2 hc.2
      refine ⟨OrderOperator.call driver (.commonOrder o) order.Key :: strs,
        by simp [CommonDriver.renderOrderLoop, ho, hop, hs], fun s hmem => ?_⟩
      rcases List.mem_cons.1 hmem with rfl | hmem
      · exact clean_append (clean_append hc.1 (by decide)) hoc
      · exact hsc s hmem
  intro orders h hc
  obtain ⟨strs, hs, hsc⟩ := hloop orders h hc
  exact ⟨stringsJoin strs ", ", by simp [CommonDriver.renderOrder, hs],
    clean_join hsc (by decide)⟩

/-- `renderGroups` on keys without `$` gives a text without `$`. -/
theorem renderGroups_clean (driver : CommonDriver) (groups : List ColumnKey)
    (hc : groupsClean driver.serializer groups = true) :
    Clean (driver.renderGroups groups) := by
  unfold CommonDriver.renderGroups
  refine clean_join ?_ (by decide)
  induction groups with
  | nil => intro s hs; simp at hs
  | cons g rest ih =>
    simp only [groupsClean, Bool.and_eq_true, decide_eq_true_eq] at hc
    intro s hs
    rw [List.map_cons] at hs
    rcases List.mem_cons.1 hs with rfl | hmem
    · exact hc.1
    · exact ih hc.2 s hmem

theorem presentClauses_clean {clauses : List (Bool × String)}
    (h : ∀ p ∈ clauses, Clean p.2) : ∀ s ∈ presentClauses clauses, Clean s := by
  intro s hs
  simp only [presentClauses, List.mem_filterMap] at hs
  obtain ⟨p, hp, hsome⟩ := hs
  by_cases hflag : p.1 = true
  · simp only [hflag, if_true, Option.some.injEq] at hsome
    subst hsome
    exact h p hp
  · simp [hflag] at hsome

theorem presentClauses_cons (flag : Bool) (text : String) (rest : List (Bool × String)) :
    presentClauses ((flag, text) :: rest) =
      (if flag = true then [text] else []) ++ presentClauses rest := by
  cases flag <;> simp [presentClauses]

theorem noLeadingDigit_append_of_head {a : String} {c : Char} {cs : List Char}
    (h : a.data = c :: cs) (hc : c.isDigit = false) (b : String) :
    NoLeadingDigit (a ++ b).data := by
  rw [String.data_append, h]
  intro x hx
  simp only [List.cons_append, List.head?_cons, Option.some.injEq] at hx
  subst hx
  exact hc

/-- The statement of `Select` for a well-formed query whose texts hold no `$` of
their own: its placeholders are the tokens `$1`, ..., `$n` in this order, `n` being
the number of values handed over with it. -/
theorem select_placeholders (driver : CommonDriver) (query : SelectQuery)
    (hreg : driver.HasPackageRegistries) (hwf : wellFormedQuery query = true)
    (hclean : QueryClean driver.serializer query) :
    ∃ statement values, driver.Select query = some (statement, values) ∧
      values = columnValues query.Columns ++ joinValues query.Joins ++
        (boundComparisons query.Where).map Where.Value ∧
      placeholders statement = placeholderRange 0 values.length := by
  obtain ⟨hw, hj, ho, hf⟩ := hreg
  simp only [wellFormedQuery, Bool.and_eq_true] at hwf
  obtain ⟨⟨⟨hwc, hwj⟩, hww⟩, hwo⟩ := hwf
  obtain ⟨hcc, hcf, hcj, hcw, hcg, hco⟩ := hclean
  obtain ⟨columns, hcols, hce⟩ := renderColumns_emits driver hf query.Columns "" hwc hcc 0
  obtain ⟨joins, hjoins, hje⟩ :=
    renderJoins_emits driver hw hj query.Joins hwj hcj (0 + (columnValues query.Columns).length)
  obtain ⟨w, hwhere, hwe⟩ := callWhereOperator_and_emits driver hw query.Where hww
    (0 + (columnValues query.Columns).length + (joinValues query.Joins).length)
  obtain ⟨o, horder, hoc⟩ := renderOrder_clean driver ho query.Order hwo hco
  have hsel := select_eq driver query hcols hjoins hwhere
    (by intro h; simp [h, boundComparisons]) horder
  refine ⟨_, _, hsel, rfl, ?_⟩
  -- the clauses after `WHERE` hold no `$`
  have hothers : Clean (stringsJoin (presentClauses
      [(decide (0 < query.Group.length), "GROUP BY " ++ driver.renderGroups query.Group),
       (decide (0 < query.Order.length), "ORDER BY " ++ o),
       (query.Limit.isSome,
         "LIMIT " ++ (match query.Limit with
           | some limit => toString limit ++ "river"
           | none => "")),
       (query.Offset.isSome,
         "OFFSET " ++ (match query.Offset with
           | some offset => toString offset ++ "river"
           | none => ""))]) "\n") := by
    refine clean_join (presentClauses_clean ?_) (by decide)
    intro p hp
    simp only [List.mem_cons, List.mem_singleton, List.not_mem_nil, or_false] at hp
    rcases hp with rfl | rfl | rfl | rfl
    · exact clean_append (by decide) (renderGroups_clean driver query.Group hcg)
    · exact clean_append (by decide) hoc
    · refine clean_append (by decide) ?_
      cases query.Limit with
      | none => decide
      | some limit => exact clean_append (clean_toString_int limit) (by decide)
    · refine clean_append (by decide) ?_
      cases query.Offset with
      | none => decide
      | some offset => exact clean_append (clean_toString_int offset) (by decide)
  -- the trailing clauses hold the tokens of the filter values
  have hextra : Emits (stringsJoin (presentClauses
      [(decide (0 < query.Where.length), "WHERE " ++ w),
       (decide (0 < query.Group.length), "GROUP BY " ++ driver.renderGroups query.Group),
       (decide (0 < query.Order.length), "ORDER BY " ++ o),
       (query.Limit.isSome,
         "LIMIT " ++ (match query.Limit with
           | some limit => toString limit ++ "river"
           | none => "")),
       (query.Offset.isSome,
         "OFFSET " ++ (match query.Offset with
           | some offset => toString offset ++ "river"
           | none => ""))]) "\n")
      (placeholderRange
        (0 + (columnValues query.Columns).length + (joinValues query.Joins).length)
        (boundComparisons query.Where).length) := by
    rw [presentClauses_cons]
    by_cases hW : 0 < query.Where.length
    · simp only [hW, decide_True, if_true, List.singleton_append]
      have := emits_join_cons (emits_clean_append (by decide : Clean "WHERE ") (hwe hcw))
        (emits_clean hothers) goodLinker_newline
      simpa using this
    · have hnil : query.Where = [] := by
        cases hq : query.Where with
        | nil => rfl
        | cons x xs => rw [hq] at hW; simp at hW
      simp only [hW, decide_False, Bool.false_eq_true, if_false, List.nil_append, hnil,
        boundComparisons, List.length_nil]
      simpa [placeholderRange] using emits_clean hothers
  -- the statement
  have hfrom : Clean (" \nFROM " ++ driver.serializer.SerializeTableSource query.From ++ "\n") :=
    clean_append (clean_append (by decide) hcf) (by decide)
  have h3 := emits_clean_append (by decide : Clean "\n") hextra
  have h2 := emits_append (hje "\n" goodLinker_newline) h3
    (noLeadingDigit_append_of_head (c := '\n') rfl (by decide) _)
  have h1 := emits_clean_append hfrom h2
  have h0 := emits_append (hce ",\n\t" goodLinker_columns) h1 (by
    rw [String.append_assoc, String.append_assoc]
    exact noLeadingDigit_append_of_head (c := ' ') rfl (by decide) _)
  have hS := emits_clean_append (by decide : Clean "SELECT ") h0
  have hscan := hS [] noLeadingDigit_nil
  have hempty : scanPlaceholders none [] = [] := by simp [scanPlaceholders]
  rw [List.append_nil, hempty, List.append_nil] at hscan
  unfold placeholders
  simp only [String.append_assoc] at hscan ⊢
  rw [hscan]
  simp only [List.length_append, List.length_map, placeholderRange_add, Nat.zero_add,
    List.append_assoc]

/-! ## The sequencer within one statement -/

theorem exampleSerializer_aliasKeeps (als : String) (h : Clean als) :
    AliasKeepsPlaceholders exampleSerializer als := by
  intro expr toks he
  have hsuffix : Clean (" AS \"" ++ (als ++ "\"")) :=
    clean_append (by decide) (clean_append h (by decide))
  have := emits_append he (emits_clean hsuffix)
    (noLeadingDigit_append_of_head (c := ' ') rfl (by decide) _)
  simpa [exampleSerializer, String.append_assoc] using this

theorem exampleQuery_clean : QueryClean exampleDriver.serializer exampleQuery := by
  refine ⟨?_, by decide, by decide, by decide, by decide, by decide⟩
  simp only [exampleQuery, columnsClean, Column.textsClean, and_true]
  exact ⟨by decide, by decide, exampleSerializer_aliasKeeps _ (by decide)⟩

theorem placeholderToken_injective :
    Function.Injective (fun i : Nat => "$" ++ toString (i + 1)) := by
  intro i j h
  have hi := placeholderIndex_token (i + 1)
  have hj := placeholderIndex_token (j + 1)
  simp only at h
  rw [h, hj] at hi
  simpa using hi.symm

/-- C2. The `k`-th call (`k ≥ 1`) to a sequencer fresh from `valueSequence()` returns
the token `$k`, whose numeric suffix is `k`; so no earlier call returned the same
token, and the first call returns `$1`.  Every `Select` that hands a statement over
rendered its columns from such a fresh sequencer, its joins from the sequencer the
columns left and its filter from the one the joins left.  And for every driver with
the registries of the package and every well-formed query for which the serializer
writes no `$` of its own, `Select` hands over a statement whose placeholders, read
from left to right, are exactly `$1`, `$2`, ..., `$n`, `n` being the number of
values: the statement starts at `$1`, the suffixes go up by one, and no token
occurs twice in it. -/
theorem C2_sequencer_tokens (k : Nat) (hk : 1 ≤ k) :
    valueSequence.nthCall k = "$" ++ toString k ∧
    placeholderIndex (valueSequence.nthCall k) = some k ∧
    (∀ j, 1 ≤ j → j < k → valueSequence.nthCall j ≠ valueSequence.nthCall k) ∧
    valueSequence.call.1 = "$1" ∧
    (∀ (driver : CommonDriver) (query : SelectQuery) statement values,
      driver.Select query = some (statement, values) →
      ∃ columns v1 s1 joins v2 s2,
        driver.renderColumns query.Columns "" valueSequence = some (columns, v1, s1) ∧
        driver.renderJoins query.Joins s1 = some (joins, v2, s2) ∧
        ((query.Where = [] ∧ values = v1 ++ v2) ∨
          ∃ w v3 s3, driver.callWhereOperator "and" none (.wheres query.Where) s2 =
            some (w, v3, s3) ∧ values = v1 ++ v2 ++ v3)) ∧
    (∀ (driver : CommonDriver) (query : SelectQuery),
      driver.HasPackageRegistries → wellFormedQuery query = true →
      QueryClean driver.serializer query →
      ∃ statement values, driver.Select query = some (statement, values) ∧
        placeholders statement =
          (List.range values.length).map (fun i => "$" ++ toString (i + 1)) ∧
        (placeholders statement).Nodup) := by
  refine ⟨nthCall_valueSequence k hk, ?_, ?_, rfl, select_threads_fresh_sequencer, ?_⟩
  · rw [nthCall_valueSequence k hk, placeholderIndex_token]
  · intro j hj hjk heq
    have h1 := placeholderIndex_token j
    rw [← nthCall_valueSequence j hj, heq, nthCall_valueSequence k hk,
      placeholderIndex_token] at h1
    simp only [Option.some.injEq] at h1
    omega
  · intro driver query hreg hwf hclean
    obtain ⟨statement, values, hsel, _, hp⟩ := select_placeholders driver query hreg hwf hclean
    have hp2 : placeholders statement =
        (List.range values.length).map (fun i => "$" ++ toString (i + 1)) := by
      rw [hp]; simp [placeholderRange]
    refine ⟨statement, values, hsel, hp2, ?_⟩
    rw [hp2]
    exact (List.nodup_range _).map placeholderToken_injective

/-- C2 at the third call and at the query `exampleQuery`: the driver holds the
registries of the package, the query is well formed and its texts hold no `$` of
their own, and the placeholders of its statement are `$1`, `$2`, `$3`, `$4`, one for
each of its four values. -/
theorem C2_sequencer_tokens_witness :
    1 ≤ 3 ∧ valueSequence.nthCall 3 = "$3" ∧
    placeholderIndex (valueSequence.nthCall 3) = some 3 ∧
    exampleDriver.HasPackageRegistries ∧ wellFormedQuery exampleQuery = true ∧
    QueryClean exampleDriver.serializer exampleQuery ∧
    (exampleDriver.Select exampleQuery).map (fun r => (placeholders r.1, r.2.length)) =
      some (["$1", "$2", "$3", "$4"], 4) ∧
    ∃ statement values, exampleDriver.Select exampleQuery = some (statement, values) ∧
      placeholders statement =
        (List.range values.length).map (fun i => "$" ++ toString (i + 1)) ∧
      (placeholders statement).Nodup :=
  ⟨by decide, (C2_sequencer_tokens 3 (by decide)).1, (C2_sequencer_tokens 3 (by decide)).2.1,
    exampleDriver_registries, by decide, exampleQuery_clean,
    by set_option maxRecDepth 20000 in rfl,
    (C2_sequencer_tokens 3 (by decide)).2.2.2.2.2 exampleDriver exampleQuery
      exampleDriver_registries (by decide) exampleQuery_clean⟩

end Sqlizer
